import Mathlib

/-!
# GrAtlasTextBlob: a shallow embedding of `src/gpu/text/GrAtlasTextBlob.h`

(The second part of the file, namespace `GrRectBlurEffect`, embeds the choice
of the integral texture width and the factory `Make` of
`src/gpu/effects/generated/GrRectBlurEffect.h`.)

The cached text blob of Skia's GPU text path: a blob owns an array of runs,
each run owns an array of sub-runs, and every sub-run owns a glyph-index range
and a vertex-byte range.

Conventions of the embedding

* `uint32_t` and `size_t` fields are natural numbers; every operation that can
  wrap reduces modulo `2 ^ 32`, respectively modulo `2 ^ 64` (LP64 `size_t`).
* `SkScalar` values are exact rationals. The text blob only copies and
  compares scalars (plus the affine arithmetic of the spec-modelled reuse
  policy), so the finite floats embed order-preservingly; the sums and
  differences of `GrRectBlurEffect::Make` are exact, without rounding.
* `SkSTArray` / raw run arrays are lists, front element first; an access
  outside the array, or a failed `SkASSERT`, is `none`.
* Pointers to storage owned elsewhere (vertex pool, glyph array, memory pool,
  strikes, typefaces, descriptors) are opaque handles.
-/

namespace GrAtlasTextBlob

/-! ## Machine integers and scalars -/

/-- Modulus of `uint32_t` arithmetic. -/
abbrev UINT32_MOD : Nat := 4294967296

/-- Modulus of `size_t` arithmetic (64-bit `size_t`). -/
abbrev SIZE_MOD : Nat := 18446744073709551616

/-- `SkScalar`, over exact arithmetic. -/
abbrev SkScalar : Type := ℚ

/-- Modelled from the spec: `SK_ScalarMax` is declared outside src (SkScalar.h);
it is the largest finite single-precision value, `(2 ^ 24 - 1) * 2 ^ 104`. -/
def SK_ScalarMax : SkScalar := 340282346638528859811704183484516925440

/-- Modelled from the spec: the macro `SkMaxScalar` is declared outside src
(SkScalar.h); `(a) > (b) ? (a) : (b)`, the larger of its two arguments. -/
def SkMaxScalar (a b : SkScalar) : SkScalar := if a > b then a else b

/-- Modelled from the spec: the macro `SkMinScalar` is declared outside src
(SkScalar.h); `(a) < (b) ? (a) : (b)`, the smaller of its two arguments. -/
def SkMinScalar (a b : SkScalar) : SkScalar := if a < b then a else b

/-- Modelled from the spec: the macro `SkScalarAbs` is declared outside src
(SkScalar.h); the absolute value of its argument. -/
def SkScalarAbs (x : SkScalar) : SkScalar := |x|

/-- `GrColor` / `SkColor`: a 32-bit packed colour. -/
abbrev GrColor : Type := Nat

/-- Modelled from the spec: `GrColor_ILLEGAL` is declared outside src
(GrColor.h); the colour value no premultiplied colour can take. -/
def GrColor_ILLEGAL : GrColor := 16777215

/-- Modelled from the spec: `GrBatchAtlas::kInvalidAtlasGeneration` is declared
outside src (GrBatchAtlas.h); the generation no live atlas ever reports. -/
def kInvalidAtlasGeneration : Nat := 0

/-! ## Types declared outside the header -/

/-- Modelled from the spec: `GrMaskFormat` is declared outside src; the three
mask formats grayscale, subpixel (LCD) and color. -/
inductive GrMaskFormat where
  | kA8_GrMaskFormat
  | kA565_GrMaskFormat
  | kARGB_GrMaskFormat
  deriving DecidableEq, Repr

/-- Paint style, `SkPaint::Style`. -/
inductive Style where
  | kFill_Style
  | kStroke_Style
  | kStrokeAndFill_Style
  deriving DecidableEq, Repr

/-- Stroke join, `SkPaint::Join`. -/
inductive Join where
  | kMiter_Join
  | kRound_Join
  | kBevel_Join
  deriving DecidableEq, Repr

/-- Surface pixel geometry, `SkPixelGeometry`. -/
inductive SkPixelGeometry where
  | kUnknown_SkPixelGeometry
  | kRGB_H_SkPixelGeometry
  | kBGR_H_SkPixelGeometry
  | kRGB_V_SkPixelGeometry
  | kBGR_V_SkPixelGeometry
  deriving DecidableEq, Repr

/-- Blur style, `SkBlurStyle`. -/
inductive SkBlurStyle where
  | kNormal_SkBlurStyle
  | kSolid_SkBlurStyle
  | kOuter_SkBlurStyle
  | kInner_SkBlurStyle
  deriving DecidableEq, Repr

/-- Blur quality, `SkBlurQuality`. -/
inductive SkBlurQuality where
  | kLow_SkBlurQuality
  | kHigh_SkBlurQuality
  deriving DecidableEq, Repr

/-- The blur parameters of a mask filter, `SkMaskFilter::BlurRec`. -/
structure BlurRec where
  fSigma : SkScalar
  fStyle : SkBlurStyle
  fQuality : SkBlurQuality
  deriving DecidableEq

/-- The part of `SkPaint` the blob reads: style and the three stroke getters. -/
structure SkPaint where
  getStyle : Style
  getStrokeWidth : SkScalar
  getStrokeMiter : SkScalar
  getStrokeJoin : Join
  deriving DecidableEq

/-- A 3x3 `SkMatrix`, row major: scale/skew/translate rows, then perspective. -/
structure SkMatrix where
  scaleX : SkScalar
  skewX : SkScalar
  transX : SkScalar
  skewY : SkScalar
  scaleY : SkScalar
  transY : SkScalar
  persp0 : SkScalar
  persp1 : SkScalar
  persp2 : SkScalar
  deriving DecidableEq

/-- The identity matrix, `SkMatrix::I()`. -/
def SkMatrix.I : SkMatrix :=
  { scaleX := 1, skewX := 0, transX := 0,
    skewY := 0, scaleY := 1, transY := 0,
    persp0 := 0, persp1 := 0, persp2 := 1 }

/-- An `SkRect`. -/
structure SkRect where
  fLeft : SkScalar
  fTop : SkScalar
  fRight : SkScalar
  fBottom : SkScalar
  deriving DecidableEq

/-- Modelled from the spec: `SkRect::setLargestInverted` is declared outside
src; the running bounds rectangle starts as the largest inverted rectangle, so
that joining any glyph bounds replaces it. -/
def SkRect.largestInverted : SkRect :=
  { fLeft := SK_ScalarMax, fTop := SK_ScalarMax,
    fRight := -SK_ScalarMax, fBottom := -SK_ScalarMax }

/-- Modelled from the spec: `SkRect::isSorted` is declared outside src
(SkRect.h); `fLeft <= fRight && fTop <= fBottom`, the rectangle has no negative
width and no negative height. -/
def SkRect.isSorted (r : SkRect) : Bool :=
  decide (r.fLeft ≤ r.fRight) && decide (r.fTop ≤ r.fBottom)

/-- Modelled from the spec: `SkRect::width` is declared outside src (SkRect.h);
`fRight - fLeft`. -/
def SkRect.width (r : SkRect) : SkScalar := r.fRight - r.fLeft

/-- Modelled from the spec: `SkRect::height` is declared outside src (SkRect.h);
`fBottom - fTop`. -/
def SkRect.height (r : SkRect) : SkScalar := r.fBottom - r.fTop

/-- An `SkAutoDescriptor`: `none` while no descriptor has been built in it. -/
structure SkAutoDescriptor where
  fDesc : Option Nat
  deriving DecidableEq

/-! ## Key, sub-run, run, blob -/

/-- The cache key, `GrAtlasTextBlob::Key`. -/
structure Key where
  fUniqueID : Nat
  fCanonicalColor : GrColor
  fStyle : Style
  fPixelGeometry : SkPixelGeometry
  fHasBlur : Bool
  deriving DecidableEq

/-- The stored stroke parameters, `GrAtlasTextBlob::StrokeInfo`. -/
structure StrokeInfo where
  fFrameWidth : SkScalar
  fMiterLimit : SkScalar
  fJoin : Join
  deriving DecidableEq

/-- An oversized glyph kept as a path, `GrAtlasTextBlob::BigGlyph`. -/
structure BigGlyph where
  fPath : Nat
  fVx : SkScalar
  fVy : SkScalar
  fScale : SkScalar
  fApplyVM : Bool
  deriving DecidableEq

/-- The sub-run record, `GrAtlasTextBlob::Run::SubRunInfo`. -/
structure SubRunInfo where
  fBulkUseToken : List Nat
  fStrike : Option Nat
  fVertexBounds : SkRect
  fAtlasGeneration : Nat
  fVertexStartIndex : Nat
  fVertexEndIndex : Nat
  fGlyphStartIndex : Nat
  fGlyphEndIndex : Nat
  fColor : GrColor
  fMaskFormat : GrMaskFormat
  fDrawAsDistanceFields : Bool
  fUseLCDText : Bool
  deriving DecidableEq

/-- One run of the blob, `GrAtlasTextBlob::Run`. -/
structure Run where
  fTypeface : Option Nat
  fSubRunInfo : List SubRunInfo
  fDescriptor : SkAutoDescriptor
  fOverrideDescriptor : Option SkAutoDescriptor
  fInitialized : Bool
  fDrawAsPaths : Bool
  deriving DecidableEq

/-- The blob, `GrAtlasTextBlob`. -/
structure Blob where
  fVertices : Nat
  fGlyphs : Nat
  fRuns : List Run
  fPool : Nat
  fBlurRec : BlurRec
  fStrokeInfo : StrokeInfo
  fBigGlyphs : List BigGlyph
  fKey : Key
  fViewMatrix : SkMatrix
  fInitialViewMatrixInverse : SkMatrix
  fSize : Nat
  fPaintColor : GrColor
  fInitialX : SkScalar
  fInitialY : SkScalar
  fX : SkScalar
  fY : SkScalar
  fMaxMinScale : SkScalar
  fMinMaxScale : SkScalar
  fRunCount : Int
  fTextType : Nat
  deriving DecidableEq

/-! ## Array accesses (`SkTArray`) -/

/-- The element `back()` refers to: the last one. -/
def back? {α : Type} (a : List α) : Option α := a.getLast?

/-- The element `fromBack(i)` refers to: the one `i` places before the last. -/
def fromBack? {α : Type} (a : List α) (i : Nat) : Option α :=
  if i < a.length then a[a.length - i - 1]? else none

/-- Mutation through the reference `back()` returns. -/
def modifyBack {α : Type} (a : List α) (f : α → α) : Option (List α) :=
  match a.getLast? with
  | none => none
  | some x => some (a.dropLast ++ [f x])

/-- Mutation through the reference `operator[](i)` returns. -/
def modifyAt {α : Type} (a : List α) (i : Nat) (f : α → Option α) : Option (List α) :=
  match a[i]? with
  | none => none
  | some x =>
    match f x with
    | none => none
    | some y => some (a.set i y)

/-! ## Vertex layout constants -/

/-- Modelled from the spec: `SkPoint` is declared outside src; a position, two
32-bit floats, 8 bytes. -/
def sizeof_SkPoint : Nat := 8

/-- Modelled from the spec: `GrColor` is declared outside src; a packed 32-bit
colour, 4 bytes. -/
def sizeof_GrColor : Nat := 4

/-- Modelled from the spec: `SkIPoint16` is declared outside src; a texture
coordinate, two 16-bit integers, 4 bytes. -/
def sizeof_SkIPoint16 : Nat := 4

/-- Source constant `kColorTextVASize = sizeof(SkPoint) + sizeof(SkIPoint16)`. -/
def kColorTextVASize : Nat := (sizeof_SkPoint + sizeof_SkIPoint16) % SIZE_MOD

/-- Source constant
`kGrayTextVASize = sizeof(SkPoint) + sizeof(GrColor) + sizeof(SkIPoint16)`. -/
def kGrayTextVASize : Nat := (sizeof_SkPoint + sizeof_GrColor + sizeof_SkIPoint16) % SIZE_MOD

/-- Source constant `kLCDTextVASize = kGrayTextVASize`. -/
def kLCDTextVASize : Nat := kGrayTextVASize

/-- Source constant `kMaxVASize = kGrayTextVASize`. -/
def kMaxVASize : Nat := kGrayTextVASize

/-- Source constant `kVerticesPerGlyph = 4`. -/
def kVerticesPerGlyph : Nat := 4

/-- The vertex stride of a mask format, `GetVertexStride`. -/
def GetVertexStride (maskFormat : GrMaskFormat) : Nat :=
  match maskFormat with
  | .kA8_GrMaskFormat => kGrayTextVASize
  | .kARGB_GrMaskFormat => kColorTextVASize
  | _ => kLCDTextVASize

/-! ## Sub-run operations -/

namespace SubRunInfo

/-- The default constructor `SubRunInfo()`. -/
def ctor : SubRunInfo :=
  { fBulkUseToken := []
    fStrike := none
    fVertexBounds := SkRect.largestInverted
    fAtlasGeneration := kInvalidAtlasGeneration
    fVertexStartIndex := 0
    fVertexEndIndex := 0
    fGlyphStartIndex := 0
    fGlyphEndIndex := 0
    fColor := GrColor_ILLEGAL
    fMaskFormat := .kA8_GrMaskFormat
    fDrawAsDistanceFields := false
    fUseLCDText := false }

/-- Getter `atlasGeneration()`. -/
def atlasGeneration (s : SubRunInfo) : Nat := s.fAtlasGeneration

/-- Getter `byteCount()`: `fVertexEndIndex - fVertexStartIndex` in `size_t`. -/
def byteCount (s : SubRunInfo) : Nat :=
  (((s.fVertexEndIndex : Int) - (s.fVertexStartIndex : Int)) % (SIZE_MOD : Int)).toNat

/-- Getter `vertexStartIndex()`. -/
def vertexStartIndex (s : SubRunInfo) : Nat := s.fVertexStartIndex

/-- Getter `vertexEndIndex()`. -/
def vertexEndIndex (s : SubRunInfo) : Nat := s.fVertexEndIndex

/-- Source `appendVertices`: `fVertexEndIndex += vertexStride * kVerticesPerGlyph`. -/
def appendVertices (s : SubRunInfo) (vertexStride : Nat) : SubRunInfo :=
  { s with fVertexEndIndex :=
      (s.fVertexEndIndex + vertexStride * kVerticesPerGlyph % SIZE_MOD) % SIZE_MOD }

/-- Getter `glyphCount()`: `fGlyphEndIndex - fGlyphStartIndex` in `uint32_t`. -/
def glyphCount (s : SubRunInfo) : Nat :=
  (((s.fGlyphEndIndex : Int) - (s.fGlyphStartIndex : Int)) % (UINT32_MOD : Int)).toNat

/-- Getter `glyphStartIndex()`. -/
def glyphStartIndex (s : SubRunInfo) : Nat := s.fGlyphStartIndex

/-- Getter `glyphEndIndex()`. -/
def glyphEndIndex (s : SubRunInfo) : Nat := s.fGlyphEndIndex

/-- Source `glyphAppended`: `fGlyphEndIndex++`. -/
def glyphAppended (s : SubRunInfo) : SubRunInfo :=
  { s with fGlyphEndIndex := (s.fGlyphEndIndex + 1) % UINT32_MOD }

/-- Source `setAsSuccessor`: both glyph indices become the glyph end index of
the predecessor, both vertex indices its vertex end index. -/
def setAsSuccessor (s prev : SubRunInfo) : SubRunInfo :=
  let s := { s with fGlyphStartIndex := prev.glyphEndIndex }
  let s := { s with fGlyphEndIndex := prev.glyphEndIndex }
  let s := { s with fVertexStartIndex := prev.vertexEndIndex }
  { s with fVertexEndIndex := prev.vertexEndIndex }

/-- Source `setUseLCDText`. -/
def setUseLCDText (s : SubRunInfo) (useLCDText : Bool) : SubRunInfo :=
  { s with fUseLCDText := useLCDText }

/-- Source `setDrawAsDistanceFields`. -/
def setDrawAsDistanceFields (s : SubRunInfo) : SubRunInfo :=
  { s with fDrawAsDistanceFields := true }

/-- Getter `drawAsDistanceFields()`. -/
def drawAsDistanceFields (s : SubRunInfo) : Bool := s.fDrawAsDistanceFields

/-- Getter `hasUseLCDText()`. -/
def hasUseLCDText (s : SubRunInfo) : Bool := s.fUseLCDText

/-- Getter `maskFormat()`. -/
def maskFormat (s : SubRunInfo) : GrMaskFormat := s.fMaskFormat

end SubRunInfo

/-! ## Run operations -/

namespace Run

/-- The constructor `Run()`: not initialised, not drawn as paths, and one fresh
sub-run pushed so that a run always has one. -/
def ctor : Run :=
  { fTypeface := none
    fSubRunInfo := [] ++ [SubRunInfo.ctor]
    fDescriptor := { fDesc := none }
    fOverrideDescriptor := none
    fInitialized := false
    fDrawAsPaths := false }

/-- Source `Run::push_back`: push a default sub-run, then make it the successor
of the sub-run that is now one place before the last. -/
def push_back (r : Run) : Option Run :=
  let arr := r.fSubRunInfo ++ [SubRunInfo.ctor]
  match fromBack? arr 1 with
  | none => none
  | some prevSubRun =>
    match modifyBack arr (fun newSubRun => newSubRun.setAsSuccessor prevSubRun) with
    | none => none
    | some arr2 => some { r with fSubRunInfo := arr2 }

/-- The run part of `initOverride`: `run.push_back()`, then a fresh override
descriptor. -/
def initOverride (r : Run) : Option Run :=
  match r.push_back with
  | none => none
  | some r2 => some { r2 with fOverrideDescriptor := some { fDesc := none } }

/-- `appendVertices` applied to the last sub-run of the run. -/
def appendVertices (r : Run) (vertexStride : Nat) : Option Run :=
  match modifyBack r.fSubRunInfo (fun s => s.appendVertices vertexStride) with
  | none => none
  | some arr => some { r with fSubRunInfo := arr }

/-- `glyphAppended` applied to the last sub-run of the run. -/
def glyphAppended (r : Run) : Option Run :=
  match modifyBack r.fSubRunInfo (fun s => s.glyphAppended) with
  | none => none
  | some arr => some { r with fSubRunInfo := arr }

end Run

/-- The operations that build up one run. -/
inductive RunOp where
  | push_back
  | initOverride
  | appendVertices (vertexStride : Nat)
  | glyphAppended
  deriving DecidableEq, Repr

/-- One operation on a run. -/
def Run.step (r : Run) : RunOp → Option Run
  | .push_back => r.push_back
  | .initOverride => r.initOverride
  | .appendVertices vertexStride => r.appendVertices vertexStride
  | .glyphAppended => r.glyphAppended

/-- A sequence of operations on a run, first operation first. -/
def Run.steps (r : Run) : List RunOp → Option Run
  | [] => some r
  | op :: ops =>
    match r.step op with
    | none => none
    | some r2 => Run.steps r2 ops

/-! ## Blob operations -/

namespace Blob

/-- The constructor `GrAtlasTextBlob()`: it initialises the scale band and the
text type and nothing else; `raw` is the storage it is constructed in. -/
def ctor (raw : Blob) : Blob :=
  { raw with
    fMaxMinScale := -SK_ScalarMax
    fMinMaxScale := SK_ScalarMax
    fTextType := 0 }

/-- Getter `key()`. -/
def key (b : Blob) : Key := b.fKey

/-- Source `setupKey`. -/
def setupKey (b : Blob) (key : Key) (blurRec : BlurRec) (paint : SkPaint) : Blob :=
  let b1 := { b with fKey := key }
  let b2 := if key.fHasBlur then { b1 with fBlurRec := blurRec } else b1
  if key.fStyle ≠ Style.kFill_Style then
    let b3 := { b2 with
      fStrokeInfo := { b2.fStrokeInfo with fFrameWidth := paint.getStrokeWidth } }
    let b4 := { b3 with
      fStrokeInfo := { b3.fStrokeInfo with fMiterLimit := paint.getStrokeMiter } }
    { b4 with fStrokeInfo := { b4.fStrokeInfo with fJoin := paint.getStrokeJoin } }
  else b2

/-- Source `push_back_run`: the assertion `currRun < fRunCount`, then, for
`currRun > 0`, the last sub-run of run `currRun` becomes the successor of the
last sub-run of run `currRun - 1`. -/
def push_back_run (b : Blob) (currRun : Int) : Option Blob :=
  if currRun < b.fRunCount then
    if currRun > 0 then
      match b.fRuns[(currRun - 1).toNat]? with
      | none => none
      | some prevRun =>
        match back? prevRun.fSubRunInfo with
        | none => none
        | some lastRun =>
          match modifyAt b.fRuns currRun.toNat (fun run =>
              match modifyBack run.fSubRunInfo (fun newRun => newRun.setAsSuccessor lastRun) with
              | none => none
              | some arr => some { run with fSubRunInfo := arr }) with
          | none => none
          | some runs => some { b with fRuns := runs }
    else some b
  else none

/-- Source `setMinAndMaxScale`. -/
def setMinAndMaxScale (b : Blob) (scaledMax scaledMin : SkScalar) : Blob :=
  let b1 := { b with fMaxMinScale := SkMaxScalar scaledMax b.fMaxMinScale }
  { b1 with fMinMaxScale := SkMinScalar scaledMin b1.fMinMaxScale }

/-- Source `initOverride`. -/
def initOverride (b : Blob) (runIndex : Nat) : Option Blob :=
  match modifyAt b.fRuns runIndex Run.initOverride with
  | none => none
  | some runs => some { b with fRuns := runs }

end Blob

/-- Modelled from the spec: `Create` is declared in the header and defined
outside src. It takes one block from the pool, placement-constructs the header
in it and default-constructs each of the `runCount` runs in place. `raw` is the
block as the pool hands it out; the glyph count only fixes the size of the
block that is requested (see `reservedVertexBytes`). -/
def Create (raw : Blob) (runCount : Nat) : Blob :=
  { Blob.ctor raw with
    fRuns := List.replicate runCount Run.ctor
    fRunCount := (runCount : Int) }

/-- Modelled from the spec: the vertex storage `Create` reserves, room for
`glyphCount` glyphs at the maximum per-glyph vertex stride. -/
def reservedVertexBytes (glyphCount : Nat) : Nat :=
  glyphCount * kVerticesPerGlyph * kMaxVASize

/-- The operations that build up the runs of a blob: `push_back_run`, and the
run operations applied to the run with a given index. -/
inductive BlobOp where
  | push_back_run (currRun : Int)
  | onRun (runIndex : Nat) (op : RunOp)
  deriving DecidableEq, Repr

/-- One building operation on a blob. -/
def Blob.step (b : Blob) : BlobOp → Option Blob
  | .push_back_run currRun => b.push_back_run currRun
  | .onRun runIndex op =>
    match modifyAt b.fRuns runIndex (fun r => r.step op) with
    | none => none
    | some runs => some { b with fRuns := runs }

/-- A sequence of building operations on a blob, first operation first. -/
def Blob.steps (b : Blob) : List BlobOp → Option Blob
  | [] => some b
  | op :: ops =>
    match b.step op with
    | none => none
    | some b2 => Blob.steps b2 ops

/-- Number of glyphs a sequence of operations appends. -/
def glyphAppends : List BlobOp → Nat
  | [] => 0
  | .onRun _ .glyphAppended :: ops => glyphAppends ops + 1
  | _ :: ops => glyphAppends ops

/-- Number of `appendVertices` calls in a sequence of operations. -/
def vertexAppends : List BlobOp → Nat
  | [] => 0
  | .onRun _ (.appendVertices _) :: ops => vertexAppends ops + 1
  | _ :: ops => vertexAppends ops

/-- Bytes a sequence of operations appends, without wrap-around. -/
def vertexBytes : List BlobOp → Nat
  | [] => 0
  | .onRun _ (.appendVertices vertexStride) :: ops =>
    vertexBytes ops + vertexStride * kVerticesPerGlyph
  | _ :: ops => vertexBytes ops

/-- Every `appendVertices` of the sequence uses the stride of a mask format. -/
def StridesFromFormats : List BlobOp → Prop
  | [] => True
  | .onRun _ (.appendVertices vertexStride) :: ops =>
    (∃ f : GrMaskFormat, vertexStride = GetVertexStride f) ∧ StridesFromFormats ops
  | _ :: ops => StridesFromFormats ops

/-- Sum of `glyphCount()` over the sub-runs of a run. -/
def Run.glyphTotal (r : Run) : Nat :=
  (r.fSubRunInfo.map SubRunInfo.glyphCount).sum

/-- Sum of `glyphCount()` over all sub-runs of all runs of a blob. -/
def Blob.glyphTotal (b : Blob) : Nat :=
  (b.fRuns.map Run.glyphTotal).sum

/-! ## Shaping sessions

The order in which the text context drives the blob: glyphs go to the last
sub-run of the current run, a new sub-run is opened in the current run, or
shaping moves on to the next run. -/

/-- The events of a shaping session. -/
inductive SessionOp where
  | appendGlyph (maskFormat : GrMaskFormat)
  | newSubRun
  | nextRun
  deriving DecidableEq, Repr

/-- Modelled from the spec: the glyph append path (`appendGlyph`, and the text
context that calls `push_back_run` run after run) is defined outside src. Per
glyph it advances the current sub-run by one quad at the stride of the glyph's
mask format (`appendVertices`) and by one glyph (`glyphAppended`); moving to
the next run calls `push_back_run` with that run's index. The result is the
blob operations of the session, starting with `currRun` as the current run. -/
def sessionOps (currRun : Nat) : List SessionOp → List BlobOp
  | [] => []
  | .appendGlyph maskFormat :: ops =>
    .onRun currRun (.appendVertices (GetVertexStride maskFormat)) ::
      .onRun currRun .glyphAppended :: sessionOps currRun ops
  | .newSubRun :: ops => .onRun currRun .push_back :: sessionOps currRun ops
  | .nextRun :: ops =>
    .push_back_run ((currRun : Int) + 1) :: sessionOps (currRun + 1) ops

/-- Number of glyphs a session appends. -/
def sessionGlyphs : List SessionOp → Nat
  | [] => 0
  | .appendGlyph _ :: ops => sessionGlyphs ops + 1
  | _ :: ops => sessionGlyphs ops

/-- Number of moves to the next run in a session. -/
def sessionRunSwitches : List SessionOp → Nat
  | [] => 0
  | .nextRun :: ops => sessionRunSwitches ops + 1
  | _ :: ops => sessionRunSwitches ops

/-! ## Invariants of the sub-run chains -/

/-- Contiguity of a sub-run chain: every sub-run after the first starts, in both
the glyph and the vertex range, where the sub-run before it ends. -/
def Contiguous (l : List SubRunInfo) : Prop :=
  ∀ (i : Nat) (h : i + 1 < l.length),
    (l.get ⟨i + 1, h⟩).glyphStartIndex = (l.get ⟨i, Nat.lt_of_succ_lt h⟩).glyphEndIndex ∧
    (l.get ⟨i + 1, h⟩).vertexStartIndex = (l.get ⟨i, Nat.lt_of_succ_lt h⟩).vertexEndIndex

/-- The successor relation between two neighbouring sub-runs. -/
def Follows (a b : SubRunInfo) : Prop :=
  b.glyphStartIndex = a.glyphEndIndex ∧ b.vertexStartIndex = a.vertexEndIndex

/-- Invariant of a run under construction: it has a sub-run and its chain of
sub-runs is contiguous. -/
def Run.ChainInv (r : Run) : Prop :=
  r.fSubRunInfo ≠ [] ∧ List.Chain' Follows r.fSubRunInfo

/-- Shape of a blob as `Create` lays it out and every operation keeps it:
`fRunCount` runs, each with at least one sub-run. -/
def Blob.WellFormed (b : Blob) : Prop :=
  b.fRunCount = (b.fRuns.length : Int) ∧ ∀ r ∈ b.fRuns, r.fSubRunInfo ≠ []

/-- Every sub-run of every run of the blob satisfies `P`. -/
def Blob.AllSubRuns (P : SubRunInfo → Prop) (b : Blob) : Prop :=
  ∀ r ∈ b.fRuns, ∀ s ∈ r.fSubRunInfo, P s

/-- The glyph range of a sub-run is ordered and ends at or below `G`. -/
def SubRunInfo.GlyphsWithin (G : Nat) (s : SubRunInfo) : Prop :=
  s.glyphStartIndex ≤ s.glyphEndIndex ∧ s.glyphEndIndex ≤ G

/-- The vertex range of a sub-run is ordered and ends at or below `V`. -/
def SubRunInfo.VerticesWithin (V : Nat) (s : SubRunInfo) : Prop :=
  s.vertexStartIndex ≤ s.vertexEndIndex ∧ s.vertexEndIndex ≤ V

/-- Both vertex indices of a sub-run are at most `V`. -/
def SubRunInfo.VertexIndicesBelow (V : Nat) (s : SubRunInfo) : Prop :=
  s.vertexStartIndex ≤ V ∧ s.vertexEndIndex ≤ V

/-- The runs after run `currRun` hold no glyphs yet. -/
def Blob.EmptyAfter (currRun : Nat) (b : Blob) : Prop :=
  ∀ (j : Nat) (r : Run), currRun < j → b.fRuns[j]? = some r → r.glyphTotal = 0

/-! ## Sequences of scale-band updates -/

/-- A sequence of `setMinAndMaxScale` calls, first call first; each call is the
pair `(scaledMax, scaledMin)` of its arguments. -/
def Blob.setMinAndMaxScales (b : Blob) : List (SkScalar × SkScalar) → Blob
  | [] => b
  | c :: calls => Blob.setMinAndMaxScales (b.setMinAndMaxScale c.1 c.2) calls

/-! ## The reuse policy (spec-modelled) -/

/-- The three outcomes of the reuse policy. -/
inductive RegenDecision where
  | canReuseAsIs
  | translationOnly (transX transY : SkScalar)
  | mustFullyRegenerate
  deriving DecidableEq

/-- Modelled from the spec: blur compatibility (step 1 of the policy, which is
defined outside src). An entry whose key marks it blurred is incompatible with
a blur record that differs in sigma or style from the stored one. -/
def Blob.blurIncompatible (b : Blob) (blurRec : BlurRec) : Bool :=
  b.fKey.fHasBlur &&
    (decide (b.fBlurRec.fSigma ≠ blurRec.fSigma) || decide (b.fBlurRec.fStyle ≠ blurRec.fStyle))

/-- Modelled from the spec: stroke compatibility (step 2 of the policy, which is
defined outside src). An entry whose style is not fill is incompatible with a
paint whose stroke width, miter limit or join differs from the stored stroke
info. -/
def Blob.strokeIncompatible (b : Blob) (paint : SkPaint) : Bool :=
  decide (b.fKey.fStyle ≠ Style.kFill_Style) &&
    (decide (b.fStrokeInfo.fFrameWidth ≠ paint.getStrokeWidth) ||
     decide (b.fStrokeInfo.fMiterLimit ≠ paint.getStrokeMiter) ||
     decide (b.fStrokeInfo.fJoin ≠ paint.getStrokeJoin))

/-- Modelled from the spec: colour compatibility (step 4 of the policy, which is
defined outside src). An entry holding a colour-sensitive (subpixel) sub-run is
incompatible with a paint colour other than the one it was generated with. -/
def Blob.colorIncompatible (b : Blob) (color : GrColor) : Bool :=
  b.fRuns.any (fun r => r.fSubRunInfo.any (fun s =>
      decide (s.maskFormat = GrMaskFormat.kA565_GrMaskFormat) || s.hasUseLCDText)) &&
    decide (b.fPaintColor ≠ color)

/-- Two matrices differ by translation only: every entry other than the two
translation entries is the same. -/
def SkMatrix.sameButTranslation (a b : SkMatrix) : Bool :=
  decide (a.scaleX = b.scaleX) && decide (a.skewX = b.skewX) &&
  decide (a.skewY = b.skewY) && decide (a.scaleY = b.scaleY) &&
  decide (a.persp0 = b.persp0) && decide (a.persp1 = b.persp1) &&
  decide (a.persp2 = b.persp2)

/-- Modelled from the spec: the translation component of the delta between the
stored and the new view matrix (step 3 of the policy, which is defined outside
src), for matrices that differ by translation only: the displacement, in
device space, of the text origin, from the stored matrix applied to the stored
offset `(fX, fY)` to the new matrix applied to the new offset `(x, y)`. -/
def Blob.translationDelta (b : Blob) (viewMatrix : SkMatrix) (x y : SkScalar) :
    SkScalar × SkScalar :=
  (viewMatrix.transX + viewMatrix.scaleX * (x - b.fX) + viewMatrix.skewX * (y - b.fY)
      - b.fViewMatrix.transX,
   viewMatrix.transY + viewMatrix.skewY * (x - b.fX) + viewMatrix.scaleY * (y - b.fY)
      - b.fViewMatrix.transY)

/-- Modelled from the spec: matrix decomposition (step 3 of the policy, which is
defined outside src). A pure translation is reused, with the translation as
offset; a change of scale that stays within the band
`[fMaxMinScale, fMinMaxScale]` is reused; everything else is regenerated.
`scaleAdjust` is the external matrix decomposition: the uniform scale factor
between the stored and the new matrix, when they differ by one. -/
def Blob.matrixDecision (scaleAdjust : SkMatrix → SkMatrix → Option SkScalar) (b : Blob)
    (viewMatrix : SkMatrix) (x y : SkScalar) : RegenDecision :=
  if b.fViewMatrix.sameButTranslation viewMatrix then
    let t := b.translationDelta viewMatrix x y
    if t.1 = 0 ∧ t.2 = 0 then .canReuseAsIs else .translationOnly t.1 t.2
  else
    match scaleAdjust b.fViewMatrix viewMatrix with
    | some s =>
      if b.fMaxMinScale ≤ s ∧ s ≤ b.fMinMaxScale then .canReuseAsIs else .mustFullyRegenerate
    | none => .mustFullyRegenerate

/-- Modelled from the spec: the reuse policy `mustRegenerate`, declared in the
header and defined outside src, as the decision of spec section 4.3: blur
compatibility, stroke compatibility, matrix decomposition and colour
compatibility, in this order, any failed check demanding full regeneration. -/
def Blob.regenDecision (scaleAdjust : SkMatrix → SkMatrix → Option SkScalar) (b : Blob)
    (paint : SkPaint) (color : GrColor) (blurRec : BlurRec) (viewMatrix : SkMatrix)
    (x y : SkScalar) : RegenDecision :=
  if b.blurIncompatible blurRec then .mustFullyRegenerate
  else if b.strokeIncompatible paint then .mustFullyRegenerate
  else
    let geometry := b.matrixDecision scaleAdjust viewMatrix x y
    if b.colorIncompatible color then .mustFullyRegenerate else geometry

/-- Modelled from the spec: `mustRegenerate` with the signature of the header:
the result is `true` for full regeneration; otherwise it is `false` and a
translation-only decision is written to the two out-parameters, which keep
the values they had before the call in every other case. -/
def Blob.mustRegenerate (scaleAdjust : SkMatrix → SkMatrix → Option SkScalar) (b : Blob)
    (outTransX outTransY : SkScalar) (paint : SkPaint) (color : GrColor) (blurRec : BlurRec)
    (viewMatrix : SkMatrix) (x y : SkScalar) : Bool × SkScalar × SkScalar :=
  match b.regenDecision scaleAdjust paint color blurRec viewMatrix x y with
  | .mustFullyRegenerate => (true, outTransX, outTransY)
  | .translationOnly transX transY => (false, transX, transY)
  | .canReuseAsIs => (false, outTransX, outTransY)

/-! ## The storage of a key

`Key()` clears the whole object with `sk_bzero` and `operator==` compares the
whole object with `memcmp`, so both act on the bytes of the object, padding
included. -/

/-- The four bytes of a 32-bit value, least significant first. -/
def bytes32 (n : Nat) : List Nat :=
  [n % 256, n / 256 % 256, n / 65536 % 256, n / 16777216 % 256]

/-- The value of the enumerator, `SkPaint::Style`. -/
def Style.toNat : Style → Nat
  | .kFill_Style => 0
  | .kStroke_Style => 1
  | .kStrokeAndFill_Style => 2

/-- The value of the enumerator, `SkPixelGeometry`. -/
def SkPixelGeometry.toNat : SkPixelGeometry → Nat
  | .kUnknown_SkPixelGeometry => 0
  | .kRGB_H_SkPixelGeometry => 1
  | .kBGR_H_SkPixelGeometry => 2
  | .kRGB_V_SkPixelGeometry => 3
  | .kBGR_V_SkPixelGeometry => 4

/-- A `Key` object in memory: its five fields and the padding bytes that follow
`fHasBlur`. -/
structure KeyStorage where
  fields : Key
  padding : List Nat
  deriving DecidableEq

namespace KeyStorage

/-- Modelled from the spec: the layout of `Key` is fixed outside src, by the
ABI: four 32-bit fields (`uint32_t`, `SkColor` and two enumerations), the
one-byte `bool`, and three padding bytes up to the 4-byte alignment, 20 bytes
in all. These are the bytes `sk_bzero` clears and `memcmp` reads. -/
def bytes (k : KeyStorage) : List Nat :=
  bytes32 k.fields.fUniqueID ++ bytes32 k.fields.fCanonicalColor ++
    bytes32 k.fields.fStyle.toNat ++ bytes32 k.fields.fPixelGeometry.toNat ++
    [if k.fields.fHasBlur then 1 else 0] ++ k.padding

/-- The constructor `Key()`: `sk_bzero(this, sizeof(Key))`, every byte zero. -/
def ctor : KeyStorage :=
  { fields := { fUniqueID := 0, fCanonicalColor := 0, fStyle := .kFill_Style,
                fPixelGeometry := .kUnknown_SkPixelGeometry, fHasBlur := false }
    padding := [0, 0, 0] }

/-- Assignment of the five fields of a key object; the padding keeps its
bytes. -/
def assign (k : KeyStorage) (fields : Key) : KeyStorage :=
  { k with fields := fields }

/-- Source `Key::operator==`: `0 == memcmp(this, &other, sizeof(Key))`. -/
def eq (a b : KeyStorage) : Bool := decide (a.bytes = b.bytes)

end KeyStorage

/-! ## View matrix, text type and terminal markings -/

namespace Blob

/-- Source `setupViewMatrix`. `invert` is `SkMatrix::invert`, declared outside
src: the inverse, or `none` when the matrix cannot be inverted; the inverse is
written to `fInitialViewMatrixInverse`, which is set to the identity when
there is none. -/
def setupViewMatrix (invert : SkMatrix → Option SkMatrix) (b : Blob) (viewMatrix : SkMatrix)
    (x y : SkScalar) : Blob :=
  let b1 := { b with fViewMatrix := viewMatrix }
  let b2 := { b1 with
    fInitialViewMatrixInverse :=
      match invert viewMatrix with
      | some inverse => inverse
      | none => SkMatrix.I }
  let b3 := { b2 with fInitialX := x }
  let b4 := { b3 with fX := b3.fInitialX }
  let b5 := { b4 with fInitialY := y }
  { b5 with fY := b5.fInitialY }

/-- Source `initReusableBlob`. -/
def initReusableBlob (invert : SkMatrix → Option SkMatrix) (b : Blob) (color : GrColor)
    (viewMatrix : SkMatrix) (x y : SkScalar) : Blob :=
  let b1 := { b with fPaintColor := color }
  b1.setupViewMatrix invert viewMatrix x y

/-- Source `initThrowawayBlob`. -/
def initThrowawayBlob (invert : SkMatrix → Option SkMatrix) (b : Blob)
    (viewMatrix : SkMatrix) (x y : SkScalar) : Blob :=
  b.setupViewMatrix invert viewMatrix x y

/-- Source enumerator `kHasDistanceField_TextType = 0x1`. -/
def kHasDistanceField_TextType : Nat := 1

/-- Source enumerator `kHasBitmap_TextType = 0x2`. -/
def kHasBitmap_TextType : Nat := 2

/-- Source `hasDistanceField`. -/
def hasDistanceField (b : Blob) : Bool :=
  decide (b.fTextType &&& kHasDistanceField_TextType ≠ 0)

/-- Source `hasBitmap`. -/
def hasBitmap (b : Blob) : Bool :=
  decide (b.fTextType &&& kHasBitmap_TextType ≠ 0)

/-- Source `setHasDistanceField`: `fTextType |= kHasDistanceField_TextType`, in
`uint8_t`. -/
def setHasDistanceField (b : Blob) : Blob :=
  { b with fTextType := (b.fTextType ||| kHasDistanceField_TextType) % 256 }

/-- Source `setHasBitmap`: `fTextType |= kHasBitmap_TextType`, in `uint8_t`. -/
def setHasBitmap (b : Blob) : Blob :=
  { b with fTextType := (b.fTextType ||| kHasBitmap_TextType) % 256 }

/-- Source `setSubRunHasDistanceFields`: the last sub-run of run `runIndex` gets
its LCD flag set to `hasLCD` and is marked as drawn with distance fields. -/
def setSubRunHasDistanceFields (b : Blob) (runIndex : Nat) (hasLCD : Bool) : Option Blob :=
  match modifyAt b.fRuns runIndex (fun run =>
      match modifyBack run.fSubRunInfo
          (fun subRun => (subRun.setUseLCDText hasLCD).setDrawAsDistanceFields) with
      | none => none
      | some arr => some { run with fSubRunInfo := arr }) with
  | none => none
  | some runs => some { b with fRuns := runs }

/-- Source `setRunDrawAsPaths`. -/
def setRunDrawAsPaths (b : Blob) (runIndex : Nat) : Option Blob :=
  match modifyAt b.fRuns runIndex (fun run => some { run with fDrawAsPaths := true }) with
  | none => none
  | some runs => some { b with fRuns := runs }

end Blob

/-- The mutating operations of a blob: the building operations
(`push_back_run`, and on a run `Run::push_back`, `initOverride`,
`appendVertices`, `glyphAppended`) and the setters of the header. -/
inductive MutOp where
  | build (op : BlobOp)
  | setSubRunHasDistanceFields (runIndex : Nat) (hasLCD : Bool)
  | setRunDrawAsPaths (runIndex : Nat)
  | setMinAndMaxScale (scaledMax scaledMin : SkScalar)
  | setupKey (key : Key) (blurRec : BlurRec) (paint : SkPaint)
  | initReusableBlob (color : GrColor) (viewMatrix : SkMatrix) (x y : SkScalar)
  | initThrowawayBlob (viewMatrix : SkMatrix) (x y : SkScalar)
  | setHasBitmap
  | setHasDistanceField

/-- One mutating operation on a blob. -/
def Blob.mutStep (invert : SkMatrix → Option SkMatrix) (b : Blob) : MutOp → Option Blob
  | .build op => b.step op
  | .setSubRunHasDistanceFields runIndex hasLCD => b.setSubRunHasDistanceFields runIndex hasLCD
  | .setRunDrawAsPaths runIndex => b.setRunDrawAsPaths runIndex
  | .setMinAndMaxScale scaledMax scaledMin => some (b.setMinAndMaxScale scaledMax scaledMin)
  | .setupKey key blurRec paint => some (b.setupKey key blurRec paint)
  | .initReusableBlob color viewMatrix x y =>
    some (b.initReusableBlob invert color viewMatrix x y)
  | .initThrowawayBlob viewMatrix x y => some (b.initThrowawayBlob invert viewMatrix x y)
  | .setHasBitmap => some b.setHasBitmap
  | .setHasDistanceField => some b.setHasDistanceField

/-- A sequence of mutating operations on a blob, first operation first. -/
def Blob.mutSteps (invert : SkMatrix → Option SkMatrix) (b : Blob) : List MutOp → Option Blob
  | [] => some b
  | op :: ops =>
    match b.mutStep invert op with
    | none => none
    | some b2 => Blob.mutSteps invert b2 ops

/-- What the terminal markings of a run need to survive an operation: the run
stays drawn as paths if it was, and every sub-run stays where it is and stays
drawn with distance fields if it was. -/
def Run.KeepsMarkings (r r2 : Run) : Prop :=
  (r.fDrawAsPaths = true → r2.fDrawAsPaths = true) ∧
  ∀ (j : Nat) (s : SubRunInfo), r.fSubRunInfo[j]? = some s →
    ∃ s2, r2.fSubRunInfo[j]? = some s2 ∧
      (s.drawAsDistanceFields = true → s2.drawAsDistanceFields = true)

/-- Every run of the blob stays where it is and keeps its markings. -/
def Blob.KeepsMarkings (b b2 : Blob) : Prop :=
  ∀ (i : Nat) (r : Run), b.fRuns[i]? = some r →
    ∃ r2, b2.fRuns[i]? = some r2 ∧ r.KeepsMarkings r2

/-! ## Example values -/

/-- A zeroed pool block. -/
def zeroBlob : Blob :=
  { fVertices := 0, fGlyphs := 0, fRuns := [], fPool := 0
    fBlurRec := { fSigma := 0, fStyle := .kNormal_SkBlurStyle, fQuality := .kLow_SkBlurQuality }
    fStrokeInfo := { fFrameWidth := 0, fMiterLimit := 0, fJoin := .kMiter_Join }
    fBigGlyphs := []
    fKey := { fUniqueID := 0, fCanonicalColor := 0, fStyle := .kFill_Style,
              fPixelGeometry := .kUnknown_SkPixelGeometry, fHasBlur := false }
    fViewMatrix := SkMatrix.I, fInitialViewMatrixInverse := SkMatrix.I
    fSize := 0, fPaintColor := 0
    fInitialX := 0, fInitialY := 0, fX := 0, fY := 0
    fMaxMinScale := 0, fMinMaxScale := 0, fRunCount := 0, fTextType := 0 }

/-- A short build: two sub-runs in run 0, then on to run 1. -/
def exampleBuild : List BlobOp :=
  [.onRun 0 (.appendVertices 16), .onRun 0 .glyphAppended, .onRun 0 .push_back,
   .onRun 0 (.appendVertices 12), .onRun 0 .glyphAppended, .push_back_run 1,
   .onRun 1 .glyphAppended]

/-- A short session: two glyphs, a new sub-run, a glyph, the next run, a glyph. -/
def exampleSession : List SessionOp :=
  [.appendGlyph .kA8_GrMaskFormat, .appendGlyph .kA8_GrMaskFormat, .newSubRun,
   .appendGlyph .kARGB_GrMaskFormat, .nextRun, .appendGlyph .kA565_GrMaskFormat]

/-- A stroking paint. -/
def examplePaint : SkPaint :=
  { getStyle := .kStroke_Style, getStrokeWidth := 2, getStrokeMiter := 4,
    getStrokeJoin := .kMiter_Join }

/-- A key that marks its entry as blurred and stroked. -/
def blurredKey : Key :=
  { fUniqueID := 7, fCanonicalColor := 0, fStyle := .kStroke_Style,
    fPixelGeometry := .kUnknown_SkPixelGeometry, fHasBlur := true }

/-- The identity matrix translated by `(5, -3)`. -/
def translatedMatrix : SkMatrix :=
  { SkMatrix.I with transX := 5, transY := -3 }

/-- A blur record with the given sigma. -/
def exampleBlur (sigma : SkScalar) : BlurRec :=
  { fSigma := sigma, fStyle := .kNormal_SkBlurStyle, fQuality := .kLow_SkBlurQuality }

/-- An external decomposition that finds no uniform scale. -/
def noScaleAdjust : SkMatrix → SkMatrix → Option SkScalar := fun _ _ => none

/-- The determinant of a 3x3 matrix. -/
def SkMatrix.det (m : SkMatrix) : SkScalar :=
  m.scaleX * (m.scaleY * m.persp2 - m.transY * m.persp1)
    - m.skewX * (m.skewY * m.persp2 - m.transY * m.persp0)
    + m.transX * (m.skewY * m.persp1 - m.scaleY * m.persp0)

/-- An exact matrix inversion, as an example of `SkMatrix::invert`: the
adjugate over the determinant, and no inverse when the determinant is zero. -/
def exactInvert (m : SkMatrix) : Option SkMatrix :=
  if m.det = 0 then none
  else some
    { scaleX := (m.scaleY * m.persp2 - m.transY * m.persp1) / m.det
      skewX := (m.transX * m.persp1 - m.skewX * m.persp2) / m.det
      transX := (m.skewX * m.transY - m.transX * m.scaleY) / m.det
      skewY := (m.transY * m.persp0 - m.skewY * m.persp2) / m.det
      scaleY := (m.scaleX * m.persp2 - m.transX * m.persp0) / m.det
      transY := (m.transX * m.skewY - m.scaleX * m.transY) / m.det
      persp0 := (m.skewY * m.persp1 - m.scaleY * m.persp0) / m.det
      persp1 := (m.skewX * m.persp0 - m.scaleX * m.persp1) / m.det
      persp2 := (m.scaleX * m.scaleY - m.skewX * m.skewY) / m.det }

/-- A matrix that cannot be inverted: it maps everything to the origin. -/
def collapsedMatrix : SkMatrix :=
  { SkMatrix.I with scaleX := 0, scaleY := 0 }

/-- A sequence that goes through every kind of mutating operation after run 0
and its sub-run have been marked. -/
def exampleMutations : List MutOp :=
  [.build (.onRun 0 .initOverride), .build (.push_back_run 1),
   .setSubRunHasDistanceFields 0 false, .setRunDrawAsPaths 1, .setMinAndMaxScale 1 2,
   .setupKey blurredKey (exampleBlur 2) examplePaint,
   .initReusableBlob 9 translatedMatrix 1 2, .initThrowawayBlob collapsedMatrix 0 0,
   .setHasBitmap, .setHasDistanceField, .build (.onRun 0 .glyphAppended)]

/-- A run whose only sub-run holds three color glyphs, a valid atlas generation
and both distance-field flags. -/
def usedRun : Run :=
  { Run.ctor with
    fSubRunInfo :=
      [{ SubRunInfo.ctor with
          fAtlasGeneration := 5, fVertexEndIndex := 48, fGlyphEndIndex := 3
          fMaskFormat := .kARGB_GrMaskFormat
          fDrawAsDistanceFields := true, fUseLCDText := true }] }

/-- The mutating operations of `exampleMutations` other than the two setters of
the text type. -/
def exampleOtherMutations : List MutOp :=
  [.build (.onRun 0 .initOverride), .build (.push_back_run 1),
   .setSubRunHasDistanceFields 0 false, .setRunDrawAsPaths 1, .setMinAndMaxScale 1 2,
   .setupKey blurredKey (exampleBlur 2) examplePaint,
   .initReusableBlob 9 translatedMatrix 1 2, .initThrowawayBlob collapsedMatrix 0 0,
   .build (.onRun 0 .glyphAppended)]

end GrAtlasTextBlob

/-!
# GrRectBlurEffect: the width of the integral texture, and `Make`

`src/gpu/effects/generated/GrRectBlurEffect.h`. `int` values are integers, with
the results of `int` computations reduced to the 32-bit two's complement
range; `sigma` and `sixSigma` are exact rationals.
-/

/-- The data members of a `GrRectBlurEffect`, as its constructor stores them.
`integral` is the handle of the texture proxy behind the sampler;
`invSixSigma` is `none` for the infinite value `1.f / 0` has. -/
structure GrRectBlurEffect where
  rect : GrAtlasTextBlob.SkRect
  integral : Nat
  invSixSigma : Option GrAtlasTextBlob.SkScalar
  isFast : Bool
  deriving DecidableEq

/-- The part of `GrShaderCaps` (declared outside src) that `Make` reads. -/
structure GrShaderCaps where
  floatIs32Bits : Bool
  deriving DecidableEq

/-- The calls `CreateIntegralTexture` makes outside src, as parameters: the
look-up of a cached proxy under the key built from the width, the allocation
of the `width x 1` bitmap, and the upload of the filled bitmap, whose contents
are fixed by its width. A proxy is a handle, `none` is the null proxy. -/
structure GrProxyProvider where
  findOrCreateProxyByUniqueKey : Int → Option Nat
  tryAllocPixels : Int → Bool
  createProxyFromBitmap : Int → Option Nat

namespace GrRectBlurEffect

/-- The value an `int` computation with exact result `x` yields: `x` reduced to
the 32-bit two's complement range. -/
def wrapInt (x : Int) : Int := (x + 2147483648) % 4294967296 - 2147483648

/-- Modelled from the spec: `sk_float_ceil2int` is declared outside src
(SkFloatingPoint.h); the ceiling of its argument, for arguments whose ceiling
is an `int`. -/
def sk_float_ceil2int (x : ℚ) : Int := ⌈x⌉

/-- Modelled from the spec: `SkTMax` is declared outside src (SkTypes.h);
`(b < a) ? a : b`, the larger of its two arguments. -/
def SkTMax (a b : Int) : Int := if b < a then a else b

/-- A power of two. -/
def IsPow2 (w : Int) : Prop := ∃ k : Nat, w = 2 ^ k

/-- Modelled from the spec: `SkNextPow2` is declared outside src (SkMathPriv.h)
and is a parameter of the embedding. What is assumed of it: for a positive
value whose next power of two is an `int` (a value of at most `2 ^ 30`) it
returns the smallest power of two that is at least the value. -/
def NextPow2Contract (SkNextPow2 : Int → Int) : Prop :=
  ∀ v : Int, 0 < v → v ≤ 1073741824 →
    IsPow2 (SkNextPow2 v) ∧ v ≤ SkNextPow2 v ∧
    ∀ p : Int, IsPow2 p → v ≤ p → SkNextPow2 v ≤ p

/-- Source `CreateIntegralTexture`, the local `minWidth`:
`2 * sk_float_ceil2int(sixSigma)`. -/
def CreateIntegralTexture_minWidth (sixSigma : ℚ) : Int :=
  wrapInt (2 * sk_float_ceil2int sixSigma)

/-- Source `CreateIntegralTexture`, the local `width`:
`SkTMax(SkNextPow2(minWidth), 32)`. -/
def CreateIntegralTexture_width (SkNextPow2 : Int → Int) (sixSigma : ℚ) : Int :=
  let minWidth := CreateIntegralTexture_minWidth sixSigma
  SkTMax (wrapInt (SkNextPow2 minWidth)) 32

/-- An implementation of the `SkNextPow2` contract: two to the rounded-up binary
logarithm. -/
def nextPow2ByLog (v : Int) : Int := ((2 ^ Nat.clog 2 v.toNat : Nat) : Int)

/-- A function that meets the `SkNextPow2` contract and returns 48 for values
that are not positive. -/
def nextPow2Or48 (v : Int) : Int := if 0 < v then nextPow2ByLog v else 48

/-! ## The effect `Make` creates -/

/-- Source `CreateIntegralTexture`: the proxy cached under the width, or else
the proxy of a freshly allocated and filled bitmap of that width; `none` is
`nullptr`, returned when the bitmap cannot be allocated or uploaded. -/
def CreateIntegralTexture (SkNextPow2 : Int → Int) (proxyProvider : GrProxyProvider)
    (sixSigma : ℚ) : Option Nat :=
  let width := CreateIntegralTexture_width SkNextPow2 sixSigma
  match proxyProvider.findOrCreateProxyByUniqueKey width with
  | some proxy => some proxy
  | none =>
    if !proxyProvider.tryAllocPixels width then none
    else
      match proxyProvider.createProxyFromBitmap width with
      | none => none
      | some proxy => some proxy

/-- Source `Make`. The outer `none` is the failed assertion
`SkASSERT(rect.isSorted())`, `some none` is `nullptr`, and `some (some e)` is
the effect the constructor is called for. -/
def Make (SkNextPow2 : Int → Int) (proxyProvider : GrProxyProvider) (caps : GrShaderCaps)
    (rect : GrAtlasTextBlob.SkRect) (sigma : ℚ) : Option (Option GrRectBlurEffect) :=
  if !rect.isSorted then none
  else if !caps.floatIs32Bits &&
      (decide (GrAtlasTextBlob.SkScalarAbs rect.fLeft > 16000) ||
       decide (GrAtlasTextBlob.SkScalarAbs rect.fTop > 16000) ||
       decide (GrAtlasTextBlob.SkScalarAbs rect.fRight > 16000) ||
       decide (GrAtlasTextBlob.SkScalarAbs rect.fBottom > 16000)) then some none
  else
    let sixSigma := 6 * sigma
    match CreateIntegralTexture SkNextPow2 proxyProvider sixSigma with
    | none => some none
    | some integral =>
      let threeSigma := sixSigma / 2
      let insetRect : GrAtlasTextBlob.SkRect :=
        { fLeft := rect.fLeft + threeSigma, fTop := rect.fTop + threeSigma
          fRight := rect.fRight - threeSigma, fBottom := rect.fBottom - threeSigma }
      let isFast := insetRect.isSorted
      let invSixSigma := if sixSigma = 0 then none else some (1 / sixSigma)
      some (some { rect := insetRect, integral := integral, invSixSigma := invSixSigma
                   isFast := isFast })

/-- The rectangle `rect` inset by `3 * sigma` on every side. -/
def insetBy3Sigma (rect : GrAtlasTextBlob.SkRect) (sigma : ℚ) : GrAtlasTextBlob.SkRect :=
  { fLeft := rect.fLeft + 3 * sigma, fTop := rect.fTop + 3 * sigma
    fRight := rect.fRight - 3 * sigma, fBottom := rect.fBottom - 3 * sigma }

/-- No coordinate of the rectangle is larger than 16000 in absolute value. -/
def CoordsWithin16000 (rect : GrAtlasTextBlob.SkRect) : Prop :=
  |rect.fLeft| ≤ 16000 ∧ |rect.fTop| ≤ 16000 ∧
  |rect.fRight| ≤ 16000 ∧ |rect.fBottom| ≤ 16000

/-! ## Example values -/

/-- A proxy provider with nothing cached, on which allocation and upload
succeed. -/
def emptyProvider : GrProxyProvider :=
  { findOrCreateProxyByUniqueKey := fun _ => none
    tryAllocPixels := fun _ => true
    createProxyFromBitmap := fun width => some width.toNat }

/-- A proxy provider with nothing cached, on which the upload fails. -/
def failingProvider : GrProxyProvider :=
  { findOrCreateProxyByUniqueKey := fun _ => none
    tryAllocPixels := fun _ => true
    createProxyFromBitmap := fun _ => none }

/-- Shader caps with full 32-bit floats. -/
def fullFloatCaps : GrShaderCaps := { floatIs32Bits := true }

/-- Shader caps without full 32-bit floats. -/
def halfFloatCaps : GrShaderCaps := { floatIs32Bits := false }

/-- A 10 x 10 rectangle at the origin. -/
def smallRect : GrAtlasTextBlob.SkRect :=
  { fLeft := 0, fTop := 0, fRight := 10, fBottom := 10 }

/-- A 4 x 10 rectangle at the origin. -/
def narrowRect : GrAtlasTextBlob.SkRect :=
  { fLeft := 0, fTop := 0, fRight := 4, fBottom := 10 }

/-- A 20000 x 20000 rectangle at the origin. -/
def largeRect : GrAtlasTextBlob.SkRect :=
  { fLeft := 0, fTop := 0, fRight := 20000, fBottom := 20000 }

end GrRectBlurEffect

namespace GrAtlasTextBlob

/-! # Theorems -/

/-! ## Basic facts about the array accesses -/

theorem modifyBack_concat {α : Type} (init : List α) (x : α) (f : α → α) :
    modifyBack (init ++ [x]) f = some (init ++ [f x]) := by
  simp [modifyBack, List.getLast?_concat, List.dropLast_concat]

theorem fromBack?_one_concat {α : Type} (init : List α) (x y : α) :
    fromBack? (init ++ [x] ++ [y]) 1 = some x := by
  have h : (init ++ [x] ++ [y])[init.length]? = some x := by
    rw [List.getElem?_append_left (by simp), List.getElem?_concat_length]
  simpa [fromBack?] using h

theorem exists_concat_of_ne_nil {α : Type} {l : List α} (h : l ≠ []) :
    ∃ init x, l = init ++ [x] := by
  rcases List.eq_nil_or_concat l with h0 | ⟨init, x, hx⟩
  · exact absurd h0 h
  · exact ⟨init, x, by simpa using hx⟩

theorem modifyBack_some {α : Type} {a a2 : List α} {f : α → α}
    (h : modifyBack a f = some a2) :
    ∃ init x, a = init ++ [x] ∧ a2 = init ++ [f x] := by
  by_cases hne : a = []
  · subst hne
    simp [modifyBack] at h
  · obtain ⟨init, x, rfl⟩ := exists_concat_of_ne_nil hne
    rw [modifyBack_concat] at h
    exact ⟨init, x, rfl, (Option.some.inj h).symm⟩

theorem Run.push_back_concat (r : Run) (init : List SubRunInfo) (x : SubRunInfo)
    (h : r.fSubRunInfo = init ++ [x]) :
    r.push_back =
      some { r with fSubRunInfo := init ++ [x] ++ [SubRunInfo.ctor.setAsSuccessor x] } := by
  simp only [Run.push_back, h, fromBack?_one_concat, modifyBack_concat]

theorem Run.push_back_some {r r2 : Run} (h : r.push_back = some r2) :
    ∃ init x, r.fSubRunInfo = init ++ [x] ∧
      r2 = { r with fSubRunInfo := init ++ [x] ++ [SubRunInfo.ctor.setAsSuccessor x] } := by
  by_cases hne : r.fSubRunInfo = []
  · simp [Run.push_back, hne, fromBack?] at h
  · obtain ⟨init, x, hx⟩ := exists_concat_of_ne_nil hne
    rw [Run.push_back_concat r init x hx] at h
    exact ⟨init, x, hx, (Option.some.inj h).symm⟩

theorem contiguous_of_chain {l : List SubRunInfo} (h : List.Chain' Follows l) :
    Contiguous l := by
  intro i hi
  have := (List.chain'_iff_get.mp h) i (by omega)
  exact this

theorem chain_concat_follows {init : List SubRunInfo} {x y : SubRunInfo}
    (h : List.Chain' Follows (init ++ [x])) (hxy : Follows x y) :
    List.Chain' Follows (init ++ [x] ++ [y]) := by
  rw [List.chain'_append]
  refine ⟨h, List.chain'_singleton y, ?_⟩
  intro a ha b hb
  simp [List.getLast?_concat] at ha hb
  subst ha
  subst hb
  exact hxy

theorem chain_concat_replace {init : List SubRunInfo} {x y : SubRunInfo}
    (h : List.Chain' Follows (init ++ [x]))
    (hg : y.fGlyphStartIndex = x.fGlyphStartIndex)
    (hv : y.fVertexStartIndex = x.fVertexStartIndex) :
    List.Chain' Follows (init ++ [y]) := by
  rw [List.chain'_append] at h ⊢
  refine ⟨h.1, List.chain'_singleton y, ?_⟩
  intro a ha b hb
  simp at hb
  subst hb
  have := h.2.2 a ha x (by simp)
  simpa [Follows, SubRunInfo.glyphStartIndex, SubRunInfo.vertexStartIndex, hg, hv] using this

theorem Run.ChainInv_ctor : Run.ctor.ChainInv := by
  simp [Run.ChainInv, Run.ctor]

theorem Run.ChainInv_push_back {r : Run} (h : r.ChainInv) :
    ∃ r2, r.push_back = some r2 ∧ r2.ChainInv := by
  obtain ⟨init, x, hx⟩ := exists_concat_of_ne_nil h.1
  refine ⟨_, Run.push_back_concat r init x hx, ?_, ?_⟩
  · simp
  · have hc := h.2
    rw [hx] at hc
    exact chain_concat_follows hc ⟨rfl, rfl⟩

theorem Run.ChainInv_modifyBack {r : Run} (h : r.ChainInv) (f : SubRunInfo → SubRunInfo)
    (hg : ∀ s, (f s).fGlyphStartIndex = s.fGlyphStartIndex)
    (hv : ∀ s, (f s).fVertexStartIndex = s.fVertexStartIndex) :
    ∃ arr, modifyBack r.fSubRunInfo f = some arr ∧
      Run.ChainInv { r with fSubRunInfo := arr } := by
  obtain ⟨init, x, hx⟩ := exists_concat_of_ne_nil h.1
  refine ⟨init ++ [f x], by rw [hx, modifyBack_concat], by simp, ?_⟩
  have hc := h.2
  rw [hx] at hc
  exact chain_concat_replace hc (hg x) (hv x)

theorem Run.ChainInv_step {r : Run} (h : r.ChainInv) (op : RunOp) :
    ∃ r2, r.step op = some r2 ∧ r2.ChainInv := by
  cases op with
  | push_back => exact Run.ChainInv_push_back h
  | initOverride =>
    obtain ⟨r2, h2, hinv⟩ := Run.ChainInv_push_back h
    exact ⟨{ r2 with fOverrideDescriptor := some { fDesc := none } },
      by simp [Run.step, Run.initOverride, h2], hinv⟩
  | appendVertices vertexStride =>
    obtain ⟨arr, harr, hinv⟩ := Run.ChainInv_modifyBack h
      (fun s => s.appendVertices vertexStride) (fun _ => rfl) (fun _ => rfl)
    exact ⟨_, by simp [Run.step, Run.appendVertices, harr], hinv⟩
  | glyphAppended =>
    obtain ⟨arr, harr, hinv⟩ := Run.ChainInv_modifyBack h
      (fun s => s.glyphAppended) (fun _ => rfl) (fun _ => rfl)
    exact ⟨_, by simp [Run.step, Run.glyphAppended, harr], hinv⟩

theorem Run.ChainInv_steps (ops : List RunOp) :
    ∀ {r : Run}, r.ChainInv → ∃ r2, r.steps ops = some r2 ∧ r2.ChainInv := by
  induction ops with
  | nil => intro r h; exact ⟨r, rfl, h⟩
  | cons op ops ih =>
    intro r h
    obtain ⟨r1, h1, hinv1⟩ := Run.ChainInv_step h op
    obtain ⟨r2, h2, hinv2⟩ := ih hinv1
    exact ⟨r2, by simp [Run.steps, h1, h2], hinv2⟩

/-- C1. Contiguity within a run: every sequence of `Run::push_back`,
`initOverride`, `appendVertices` and `glyphAppended` (the last two on the
run's last sub-run) applied to a freshly constructed run is defined, and in the
run it produces every sub-run after the first has its glyph start index equal
to the previous sub-run's glyph end index and its vertex start index equal to
the previous sub-run's vertex end index. -/
theorem C1_run_contiguity (ops : List RunOp) :
    ∃ r, Run.ctor.steps ops = some r ∧
      ∀ (i : Nat) (h : i + 1 < r.fSubRunInfo.length),
        (r.fSubRunInfo.get ⟨i + 1, h⟩).glyphStartIndex =
            (r.fSubRunInfo.get ⟨i, Nat.lt_of_succ_lt h⟩).glyphEndIndex ∧
        (r.fSubRunInfo.get ⟨i + 1, h⟩).vertexStartIndex =
            (r.fSubRunInfo.get ⟨i, Nat.lt_of_succ_lt h⟩).vertexEndIndex := by
  obtain ⟨r, hr, hinv⟩ := Run.ChainInv_steps ops Run.ChainInv_ctor
  exact ⟨r, hr, contiguous_of_chain hinv.2⟩

/-! ## push_back_run -/

theorem modifyAt_some {α : Type} {a a2 : List α} {i : Nat} {f : α → Option α}
    (h : modifyAt a i f = some a2) :
    ∃ x y, a[i]? = some x ∧ f x = some y ∧ a2 = a.set i y := by
  unfold modifyAt at h
  cases hx : a[i]? with
  | none => simp [hx] at h
  | some x =>
    cases hy : f x with
    | none => simp [hx, hy] at h
    | some y =>
      simp [hx, hy] at h
      exact ⟨x, y, rfl, hy, h.symm⟩

theorem modifyAt_eq {α : Type} {a : List α} {i : Nat} {f : α → Option α} {x y : α}
    (hx : a[i]? = some x) (hy : f x = some y) :
    modifyAt a i f = some (a.set i y) := by
  simp [modifyAt, hx, hy]

theorem Blob.push_back_run_pos {b : Blob} {n : Nat} {prevRun run : Run}
    {init pinit : List SubRunInfo} {x lastRun : SubRunInfo}
    (hcount : ((n : Int) + 1) < b.fRunCount)
    (hprev : b.fRuns[n]? = some prevRun) (hplast : prevRun.fSubRunInfo = pinit ++ [lastRun])
    (hrun : b.fRuns[n + 1]? = some run) (hlast : run.fSubRunInfo = init ++ [x]) :
    b.push_back_run ((n : Int) + 1) =
      some { b with
        fRuns := b.fRuns.set (n + 1) { run with
          fSubRunInfo := init ++ [x.setAsSuccessor lastRun] } } := by
  have h1 : ((n : Int) + 1 - 1).toNat = n := by omega
  have h2 : ((n : Int) + 1).toNat = n + 1 := by omega
  have h3 : (n : Int) + 1 > 0 := by omega
  unfold Blob.push_back_run
  rw [if_pos hcount, if_pos h3, h1, h2, hprev]
  simp only [back?, hplast, List.getLast?_concat]
  rw [modifyAt_eq hrun (by rw [hlast, modifyBack_concat])]

/-- C2 (amended). For a well-formed blob and `0 < currRun < fRunCount`,
`push_back_run(currRun)` is defined and makes the LAST sub-run of run `currRun`
start and end at the glyph and vertex end indices of the last sub-run of run
`currRun - 1`; that sub-run is the run's first one when the run holds exactly
one sub-run, and the sub-runs before it are left as they were. For
`currRun = 0` the blob is unchanged. -/
theorem C2_push_back_run_chains_last (b : Blob) (currRun : Int) (hwf : b.WellFormed)
    (hlt : currRun < b.fRunCount) :
    (currRun = 0 → b.push_back_run currRun = some b) ∧
    (0 < currRun →
      ∃ b2 run run2 prevRun newLast prevLast,
        b.push_back_run currRun = some b2 ∧
        b.fRuns[currRun.toNat]? = some run ∧
        b2.fRuns[currRun.toNat]? = some run2 ∧
        b.fRuns[(currRun - 1).toNat]? = some prevRun ∧
        back? prevRun.fSubRunInfo = some prevLast ∧
        back? run2.fSubRunInfo = some newLast ∧
        newLast.glyphStartIndex = prevLast.glyphEndIndex ∧
        newLast.glyphEndIndex = prevLast.glyphEndIndex ∧
        newLast.vertexStartIndex = prevLast.vertexEndIndex ∧
        newLast.vertexEndIndex = prevLast.vertexEndIndex ∧
        run2.fSubRunInfo.dropLast = run.fSubRunInfo.dropLast ∧
        (run.fSubRunInfo.length = 1 → run2.fSubRunInfo.head? = some newLast)) := by
  constructor
  · intro h0
    subst h0
    simp [Blob.push_back_run, hlt]
  · intro hpos
    obtain ⟨m, rfl⟩ := Int.eq_ofNat_of_zero_le (le_of_lt hpos)
    obtain ⟨n, rfl⟩ : ∃ n, m = n + 1 := ⟨m - 1, by omega⟩
    have hlen : n + 1 < b.fRuns.length := by
      have := hwf.1
      omega
    have hprev : b.fRuns[n]? = some b.fRuns[n] := List.getElem?_eq_getElem (by omega)
    have hrun : b.fRuns[n + 1]? = some b.fRuns[n + 1] := List.getElem?_eq_getElem hlen
    obtain ⟨pinit, lastRun, hplast⟩ :=
      exists_concat_of_ne_nil (hwf.2 _ (List.getElem_mem (by omega : n < b.fRuns.length)))
    obtain ⟨init, x, hlast⟩ := exists_concat_of_ne_nil (hwf.2 _ (List.getElem_mem hlen))
    have hcount : ((n : Int) + 1) < b.fRunCount := by simpa using hlt
    have hpb := Blob.push_back_run_pos hcount hprev hplast hrun hlast
    have h1 : (((n + 1 : Nat) : Int) - 1).toNat = n := by omega
    have h2 : (((n + 1 : Nat) : Int)).toNat = n + 1 := by omega
    refine ⟨_, b.fRuns[n + 1], { b.fRuns[n + 1] with
        fSubRunInfo := init ++ [x.setAsSuccessor lastRun] }, b.fRuns[n],
      x.setAsSuccessor lastRun, lastRun, by simpa using hpb, ?_, ?_, ?_, ?_, ?_,
      rfl, rfl, rfl, rfl, ?_, ?_⟩
    · simp only [h2]; exact hrun
    · simp only [h2]; simp [hlen]
    · simp only [h1]; exact hprev
    · simp [back?, hplast]
    · simp [back?]
    · simp [hlast]
    · intro hone
      rw [hlast] at hone
      have : init = [] := by
        cases init with
        | nil => rfl
        | cons a t => simp at hone
      subst this
      simp

theorem Create_wellFormed (raw : Blob) (runCount : Nat) :
    (Create raw runCount).WellFormed := by
  refine ⟨by simp [Create], ?_⟩
  intro r hr
  simp only [Create] at hr
  rw [List.eq_of_mem_replicate hr]
  simp [Run.ctor]

/-- C2 (witness). The amended statement at a freshly created two-run blob and
`currRun = 1`. -/
theorem C2_push_back_run_chains_last_witness :
    (Create zeroBlob 2).WellFormed ∧ (1 : Int) < (Create zeroBlob 2).fRunCount ∧
    ∃ b2, (Create zeroBlob 2).push_back_run 1 = some b2 := by
  refine ⟨Create_wellFormed _ _, by decide, ?_⟩
  obtain ⟨b2, _, _, _, _, _, h, _⟩ :=
    (C2_push_back_run_chains_last (Create zeroBlob 2) 1 (Create_wellFormed _ _)
      (by decide)).2 (by decide)
  exact ⟨b2, h⟩

/-- C2 (counterexample). In a two-run blob whose run 1 already holds two
sub-runs, `push_back_run(1)` leaves the FIRST sub-run of run 1 at glyph and
vertex start index 0, while the last sub-run of run 0 ends at glyph index 1 and
vertex index 64. -/
theorem C2_counterexample :
    ∃ b b2 first prevLast,
      (Create zeroBlob 2).steps
        [.onRun 0 (.appendVertices 16), .onRun 0 .glyphAppended, .onRun 1 .push_back] = some b ∧
      (0 : Int) < 1 ∧ (1 : Int) < b.fRunCount ∧
      b.push_back_run 1 = some b2 ∧
      (b2.fRuns[1]?).bind (fun r => r.fSubRunInfo.head?) = some first ∧
      (b.fRuns[0]?).bind (fun r => back? r.fSubRunInfo) = some prevLast ∧
      first.glyphStartIndex ≠ prevLast.glyphEndIndex ∧
      first.vertexStartIndex ≠ prevLast.vertexEndIndex := by
  refine ⟨_, _, _, _, rfl, by decide, by decide, rfl, rfl, rfl, ?_, ?_⟩ <;> decide

/-! ## Lifting a sub-run property through the building operations -/

theorem Run.step_subruns {r r2 : Run} {op : RunOp} (h : r.step op = some r2) :
    ∃ init x, r.fSubRunInfo = init ++ [x] ∧
      (r2.fSubRunInfo = init ++ [x] ++ [SubRunInfo.ctor.setAsSuccessor x] ∨
       (∃ st, op = .appendVertices st ∧ r2.fSubRunInfo = init ++ [x.appendVertices st]) ∨
       (op = .glyphAppended ∧ r2.fSubRunInfo = init ++ [x.glyphAppended])) := by
  cases op with
  | push_back =>
    obtain ⟨init, x, hx, rfl⟩ := Run.push_back_some h
    exact ⟨init, x, hx, Or.inl rfl⟩
  | initOverride =>
    simp only [Run.step, Run.initOverride] at h
    cases hp : r.push_back with
    | none => simp [hp] at h
    | some r1 =>
      obtain ⟨init, x, hx, rfl⟩ := Run.push_back_some hp
      simp only [hp, Option.some.injEq] at h
      subst h
      exact ⟨init, x, hx, Or.inl rfl⟩
  | appendVertices st =>
    simp only [Run.step, Run.appendVertices] at h
    cases hm : modifyBack r.fSubRunInfo (fun s => s.appendVertices st) with
    | none => simp [hm] at h
    | some arr =>
      obtain ⟨init, x, hx, rfl⟩ := modifyBack_some hm
      simp only [hm, Option.some.injEq] at h
      subst h
      exact ⟨init, x, hx, Or.inr (Or.inl ⟨st, rfl, rfl⟩)⟩
  | glyphAppended =>
    simp only [Run.step, Run.glyphAppended] at h
    cases hm : modifyBack r.fSubRunInfo (fun s => s.glyphAppended) with
    | none => simp [hm] at h
    | some arr =>
      obtain ⟨init, x, hx, rfl⟩ := modifyBack_some hm
      simp only [hm, Option.some.injEq] at h
      subst h
      exact ⟨init, x, hx, Or.inr (Or.inr ⟨rfl, rfl⟩)⟩

theorem Run.runStep_forall {P Q : SubRunInfo → Prop} {r r2 : Run} {op : RunOp}
    (h : r.step op = some r2) (hP : ∀ s ∈ r.fSubRunInfo, P s)
    (hPQ : ∀ s, P s → Q s)
    (hsucc : ∀ y x : SubRunInfo, P x → Q (y.setAsSuccessor x))
    (hav : ∀ st, op = .appendVertices st → ∀ x, P x → Q (x.appendVertices st))
    (hga : op = .glyphAppended → ∀ x, P x → Q x.glyphAppended) :
    ∀ s ∈ r2.fSubRunInfo, Q s := by
  obtain ⟨init, x, hx, hcase⟩ := Run.step_subruns h
  have hPx : P x := hP x (by simp [hx])
  have hinit : ∀ s ∈ init, Q s := fun s hs => hPQ s (hP s (by simp [hx, hs]))
  intro s hs
  rcases hcase with h2 | ⟨st, hop, h2⟩ | ⟨hop, h2⟩
  · rw [h2] at hs
    simp only [List.mem_append, List.mem_singleton] at hs
    rcases hs with (hs | rfl) | rfl
    · exact hinit s hs
    · exact hPQ _ hPx
    · exact hsucc _ _ hPx
  · rw [h2] at hs
    simp only [List.mem_append, List.mem_singleton] at hs
    rcases hs with hs | rfl
    · exact hinit s hs
    · exact hav st hop x hPx
  · rw [h2] at hs
    simp only [List.mem_append, List.mem_singleton] at hs
    rcases hs with hs | rfl
    · exact hinit s hs
    · exact hga hop x hPx

theorem Blob.push_back_run_some {b b2 : Blob} {currRun : Int}
    (h : b.push_back_run currRun = some b2) :
    b2 = b ∨ ∃ prevRun lastRun run init x,
      prevRun ∈ b.fRuns ∧ lastRun ∈ prevRun.fSubRunInfo ∧
      b.fRuns[currRun.toNat]? = some run ∧ run.fSubRunInfo = init ++ [x] ∧
      b2 = { b with
        fRuns := b.fRuns.set currRun.toNat { run with
          fSubRunInfo := init ++ [x.setAsSuccessor lastRun] } } := by
  unfold Blob.push_back_run at h
  by_cases h1 : currRun < b.fRunCount
  · rw [if_pos h1] at h
    by_cases h2 : currRun > 0
    · rw [if_pos h2] at h
      right
      cases hp : b.fRuns[(currRun - 1).toNat]? with
      | none => rw [hp] at h; simp at h
      | some prevRun =>
        rw [hp] at h
        cases hl : back? prevRun.fSubRunInfo with
        | none => simp [hl] at h
        | some lastRun =>
          simp only [hl] at h
          split at h
          · exact absurd h (by simp)
          · rename_i runs hm
            obtain ⟨run, run2, hrun, hf, rfl⟩ := modifyAt_some hm
            cases hmb : modifyBack run.fSubRunInfo
                (fun newRun => newRun.setAsSuccessor lastRun) with
            | none => simp [hmb] at hf
            | some arr =>
              obtain ⟨init, x, hx, rfl⟩ := modifyBack_some hmb
              simp only [hmb, Option.some.injEq] at hf
              subst hf
              exact ⟨prevRun, lastRun, run, init, x, List.getElem?_mem hp,
                List.mem_of_getLast?_eq_some hl, hrun, hx, (Option.some.inj h).symm⟩
    · rw [if_neg h2] at h
      left
      exact (Option.some.inj h).symm
  · rw [if_neg h1] at h
    exact absurd h (by simp)

theorem Blob.step_forall {P Q : SubRunInfo → Prop} {b b2 : Blob} {op : BlobOp}
    (h : b.step op = some b2) (hP : b.AllSubRuns P)
    (hPQ : ∀ s, P s → Q s)
    (hsucc : ∀ y x : SubRunInfo, P x → Q (y.setAsSuccessor x))
    (hav : ∀ i st, op = .onRun i (.appendVertices st) → ∀ x, P x → Q (x.appendVertices st))
    (hga : ∀ i, op = .onRun i .glyphAppended → ∀ x, P x → Q x.glyphAppended) :
    b2.AllSubRuns Q := by
  cases op with
  | push_back_run currRun =>
    rcases Blob.push_back_run_some h with rfl | ⟨prevRun, lastRun, run, init, x, hpm, hlm,
      hrun, hx, rfl⟩
    · exact fun r hr s hs => hPQ s (hP r hr s hs)
    · intro r hr s hs
      rcases List.mem_or_eq_of_mem_set hr with hr | rfl
      · exact hPQ s (hP r hr s hs)
      · simp only [List.mem_append, List.mem_singleton] at hs
        rcases hs with hs | rfl
        · exact hPQ s (hP run (List.getElem?_mem hrun) s (by simp [hx, hs]))
        · exact hsucc _ _ (hP prevRun hpm lastRun hlm)
  | onRun i rop =>
    simp only [Blob.step] at h
    cases hm : modifyAt b.fRuns i (fun r => r.step rop) with
    | none => simp [hm] at h
    | some runs =>
      obtain ⟨run, run2, hrun, hf, rfl⟩ := modifyAt_some hm
      simp only [hm, Option.some.injEq] at h
      subst h
      intro r hr s hs
      rcases List.mem_or_eq_of_mem_set hr with hr | rfl
      · exact hPQ s (hP r hr s hs)
      · exact Run.runStep_forall hf (hP run (List.getElem?_mem hrun)) hPQ hsucc
          (fun st hop => hav i st (by rw [hop])) (fun hop => hga i (by rw [hop])) s hs
/-! ## Range ordering -/

theorem glyphAppends_cons (op : BlobOp) (ops : List BlobOp) :
    glyphAppends (op :: ops) = glyphAppends [op] + glyphAppends ops := by
  cases op with
  | push_back_run c => simp [glyphAppends]
  | onRun i rop => cases rop <;> simp [glyphAppends, Nat.add_comm]

theorem vertexBytes_cons (op : BlobOp) (ops : List BlobOp) :
    vertexBytes (op :: ops) = vertexBytes [op] + vertexBytes ops := by
  cases op with
  | push_back_run c => simp [vertexBytes]
  | onRun i rop => cases rop <;> simp [vertexBytes, Nat.add_comm]

theorem Blob.step_glyphsWithin {b b2 : Blob} {op : BlobOp} {G : Nat}
    (h : b.step op = some b2) (hP : b.AllSubRuns (SubRunInfo.GlyphsWithin G))
    (hG : G + glyphAppends [op] < UINT32_MOD) :
    b2.AllSubRuns (SubRunInfo.GlyphsWithin (G + glyphAppends [op])) := by
  refine Blob.step_forall h hP ?_ ?_ ?_ ?_
  · intro s hs
    exact ⟨hs.1, Nat.le_trans hs.2 (Nat.le_add_right _ _)⟩
  · intro y x hx
    exact ⟨Nat.le_refl _, Nat.le_trans hx.2 (Nat.le_add_right _ _)⟩
  · intro i st _ x hx
    exact ⟨hx.1, Nat.le_trans hx.2 (Nat.le_add_right _ _)⟩
  · intro i hop x hx
    subst hop
    have h1 := hx.1
    have h2 := hx.2
    simp only [glyphAppends, UINT32_MOD] at hG ⊢
    simp only [SubRunInfo.GlyphsWithin, SubRunInfo.glyphStartIndex, SubRunInfo.glyphEndIndex,
      SubRunInfo.glyphAppended, UINT32_MOD] at h1 h2 ⊢
    omega

theorem Blob.step_verticesWithin {b b2 : Blob} {op : BlobOp} {V : Nat}
    (h : b.step op = some b2) (hP : b.AllSubRuns (SubRunInfo.VerticesWithin V))
    (hV : V + vertexBytes [op] < SIZE_MOD) :
    b2.AllSubRuns (SubRunInfo.VerticesWithin (V + vertexBytes [op])) := by
  refine Blob.step_forall h hP ?_ ?_ ?_ ?_
  · intro s hs
    exact ⟨hs.1, Nat.le_trans hs.2 (Nat.le_add_right _ _)⟩
  · intro y x hx
    exact ⟨Nat.le_refl _, Nat.le_trans hx.2 (Nat.le_add_right _ _)⟩
  · intro i st hop x hx
    subst hop
    have h1 := hx.1
    have h2 := hx.2
    simp only [vertexBytes, kVerticesPerGlyph, SIZE_MOD] at hV ⊢
    simp only [SubRunInfo.VerticesWithin, SubRunInfo.vertexStartIndex,
      SubRunInfo.vertexEndIndex, SubRunInfo.appendVertices, kVerticesPerGlyph,
      SIZE_MOD] at h1 h2 ⊢
    omega
  · intro i _ x hx
    exact ⟨hx.1, Nat.le_trans hx.2 (Nat.le_add_right _ _)⟩

theorem Blob.steps_glyphsWithin (ops : List BlobOp) :
    ∀ {b b2 : Blob} {G : Nat}, b.steps ops = some b2 →
      b.AllSubRuns (SubRunInfo.GlyphsWithin G) → G + glyphAppends ops < UINT32_MOD →
      b2.AllSubRuns (SubRunInfo.GlyphsWithin (G + glyphAppends ops)) := by
  induction ops with
  | nil =>
    intro b b2 G h hP _
    simp only [Blob.steps, Option.some.injEq] at h
    subst h
    simpa [glyphAppends] using hP
  | cons op ops ih =>
    intro b b2 G h hP hG
    simp only [Blob.steps] at h
    cases hs : b.step op with
    | none => simp [hs] at h
    | some b1 =>
      rw [hs] at h
      rw [glyphAppends_cons] at hG ⊢
      have h1 := Blob.step_glyphsWithin hs hP (by omega)
      have h2 := ih h h1 (by omega)
      rwa [Nat.add_assoc] at h2

theorem Blob.steps_verticesWithin (ops : List BlobOp) :
    ∀ {b b2 : Blob} {V : Nat}, b.steps ops = some b2 →
      b.AllSubRuns (SubRunInfo.VerticesWithin V) → V + vertexBytes ops < SIZE_MOD →
      b2.AllSubRuns (SubRunInfo.VerticesWithin (V + vertexBytes ops)) := by
  induction ops with
  | nil =>
    intro b b2 V h hP _
    simp only [Blob.steps, Option.some.injEq] at h
    subst h
    simpa [vertexBytes] using hP
  | cons op ops ih =>
    intro b b2 V h hP hV
    simp only [Blob.steps] at h
    cases hs : b.step op with
    | none => simp [hs] at h
    | some b1 =>
      rw [hs] at h
      rw [vertexBytes_cons] at hV ⊢
      have h1 := Blob.step_verticesWithin hs hP (by omega)
      have h2 := ih h h1 (by omega)
      rwa [Nat.add_assoc] at h2

theorem Create_allSubRuns_ctor (raw : Blob) (runCount : Nat) :
    (Create raw runCount).AllSubRuns (fun s => s = SubRunInfo.ctor) := by
  intro r hr s hs
  simp only [Create] at hr
  rw [List.eq_of_mem_replicate hr] at hs
  simpa [Run.ctor] using hs

/-- C3 (amended). In every blob state reached from freshly created runs by
`push_back_run`, `Run::push_back`, `initOverride`, `appendVertices(stride)` and
`glyphAppended`, every sub-run has `glyphStartIndex <= glyphEndIndex` provided
fewer than `2 ^ 32` glyphs were appended in all, and
`vertexStartIndex <= vertexEndIndex` provided the bytes appended in all
(`stride * kVerticesPerGlyph` per call, unwrapped) stay below `2 ^ 64`. -/
theorem C3_range_ordering_without_wrap (raw : Blob) (runCount : Nat) (ops : List BlobOp)
    (b : Blob) (h : (Create raw runCount).steps ops = some b) :
    (glyphAppends ops < UINT32_MOD →
      ∀ r ∈ b.fRuns, ∀ s ∈ r.fSubRunInfo, s.glyphStartIndex ≤ s.glyphEndIndex) ∧
    (vertexBytes ops < SIZE_MOD →
      ∀ r ∈ b.fRuns, ∀ s ∈ r.fSubRunInfo, s.vertexStartIndex ≤ s.vertexEndIndex) := by
  have h0 := Create_allSubRuns_ctor raw runCount
  constructor
  · intro hG r hr s hs
    have hP : (Create raw runCount).AllSubRuns (SubRunInfo.GlyphsWithin 0) := by
      intro r hr s hs
      rw [h0 r hr s hs]
      exact ⟨Nat.le_refl _, Nat.le_refl _⟩
    exact (Blob.steps_glyphsWithin ops h hP (by simpa using hG) r hr s hs).1
  · intro hV r hr s hs
    have hP : (Create raw runCount).AllSubRuns (SubRunInfo.VerticesWithin 0) := by
      intro r hr s hs
      rw [h0 r hr s hs]
      exact ⟨Nat.le_refl _, Nat.le_refl _⟩
    exact (Blob.steps_verticesWithin ops h hP (by simpa using hV) r hr s hs).1

/-- C3 (witness). The amended statement at the two-run blob built by
`exampleBuild`. -/
theorem C3_range_ordering_without_wrap_witness :
    ∃ b, (Create zeroBlob 2).steps exampleBuild = some b ∧
      (∀ r ∈ b.fRuns, ∀ s ∈ r.fSubRunInfo, s.glyphStartIndex ≤ s.glyphEndIndex) ∧
      (∀ r ∈ b.fRuns, ∀ s ∈ r.fSubRunInfo, s.vertexStartIndex ≤ s.vertexEndIndex) :=
  ⟨_, rfl,
    (C3_range_ordering_without_wrap zeroBlob 2 exampleBuild _ rfl).1 (by decide),
    (C3_range_ordering_without_wrap zeroBlob 2 exampleBuild _ rfl).2 (by decide)⟩

theorem Blob.steps_append (l1 : List BlobOp) :
    ∀ (b : Blob) (l2 : List BlobOp),
      b.steps (l1 ++ l2) = (b.steps l1).bind (fun b1 => b1.steps l2) := by
  induction l1 with
  | nil => intro b l2; rfl
  | cons op l1 ih =>
    intro b l2
    simp only [List.cons_append, Blob.steps]
    cases b.step op with
    | none => rfl
    | some b1 => exact ih b1 l2

theorem Blob.steps_replicate_glyphAppended (i : Nat) (init : List SubRunInfo) (n : Nat) :
    ∀ (b : Blob) (run : Run) (x : SubRunInfo),
      b.fRuns[i]? = some run → run.fSubRunInfo = init ++ [x] →
      x.fGlyphEndIndex < UINT32_MOD →
      ∃ b2 run2 x2,
        b.steps (List.replicate n (.onRun i .glyphAppended)) = some b2 ∧
        b2.fRuns[i]? = some run2 ∧ run2.fSubRunInfo = init ++ [x2] ∧
        x2.fGlyphStartIndex = x.fGlyphStartIndex ∧
        x2.fGlyphEndIndex = (x.fGlyphEndIndex + n) % UINT32_MOD := by
  induction n with
  | zero =>
    intro b run x hrun hx hlt
    exact ⟨b, run, x, rfl, hrun, hx, rfl, (Nat.mod_eq_of_lt hlt).symm⟩
  | succ n ih =>
    intro b run x hrun hx hlt
    have hstep : run.step .glyphAppended =
        some { run with fSubRunInfo := init ++ [x.glyphAppended] } := by
      simp only [Run.step, Run.glyphAppended, hx, modifyBack_concat]
    have hm : modifyAt b.fRuns i (fun r => r.step .glyphAppended) =
        some (b.fRuns.set i { run with fSubRunInfo := init ++ [x.glyphAppended] }) :=
      modifyAt_eq hrun hstep
    have hi : i < b.fRuns.length := by
      obtain ⟨h, _⟩ := List.getElem?_eq_some.mp hrun
      exact h
    obtain ⟨b2, run2, x2, h2, hr2, hx2, hs2, he2⟩ :=
      ih { b with fRuns := b.fRuns.set i { run with fSubRunInfo := init ++ [x.glyphAppended] } }
        { run with fSubRunInfo := init ++ [x.glyphAppended] } x.glyphAppended
        (by simp [hi]) rfl (Nat.mod_lt _ (by decide))
    refine ⟨b2, run2, x2, ?_, hr2, hx2, hs2, ?_⟩
    · simp only [List.replicate_succ, Blob.steps, Blob.step, hm, h2]
    · rw [he2]
      simp only [SubRunInfo.glyphAppended, UINT32_MOD]
      omega

/-- C3 (counterexample). Vertex side: one `appendVertices(1)`, one
`Run::push_back` and one `appendVertices(2 ^ 62 - 1)` on a fresh one-run blob
leave the second sub-run with `vertexStartIndex = 4` and `vertexEndIndex = 0`,
the byte count wrapping around `2 ^ 64`. Glyph side: one `glyphAppended`, one
`Run::push_back` and `2 ^ 32 - 1` further `glyphAppended` leave the second
sub-run with `glyphStartIndex = 1` and `glyphEndIndex = 0`. -/
theorem C3_counterexample :
    (∃ b r s, (Create zeroBlob 1).steps
        [.onRun 0 (.appendVertices 1), .onRun 0 .push_back,
         .onRun 0 (.appendVertices 4611686018427387903)] = some b ∧
      b.fRuns[0]? = some r ∧ r.fSubRunInfo[1]? = some s ∧
      s.vertexStartIndex = 4 ∧ s.vertexEndIndex = 0 ∧
      ¬ (s.vertexStartIndex ≤ s.vertexEndIndex)) ∧
    (∃ b r s, (Create zeroBlob 1).steps
        ([.onRun 0 .glyphAppended, .onRun 0 .push_back] ++
          List.replicate 4294967295 (.onRun 0 .glyphAppended)) = some b ∧
      b.fRuns[0]? = some r ∧ r.fSubRunInfo[1]? = some s ∧
      s.glyphStartIndex = 1 ∧ s.glyphEndIndex = 0 ∧
      ¬ (s.glyphStartIndex ≤ s.glyphEndIndex)) := by
  constructor
  · refine ⟨_, _, _, rfl, rfl, rfl, rfl, rfl, ?_⟩
    decide
  · obtain ⟨b1, h1, run1, x0, x1, hrun1, hsub1, hs1, he1⟩ :
        ∃ b1, (Create zeroBlob 1).steps [.onRun 0 .glyphAppended, .onRun 0 .push_back]
            = some b1 ∧
          ∃ run1 x0 x1, b1.fRuns[0]? = some run1 ∧ run1.fSubRunInfo = [x0] ++ [x1] ∧
            x1.fGlyphStartIndex = 1 ∧ x1.fGlyphEndIndex = 1 :=
      ⟨_, rfl, _, _, _, rfl, rfl, rfl, rfl⟩
    obtain ⟨b2, run2, x2, h2, hr2, hx2, hs2, he2⟩ :=
      Blob.steps_replicate_glyphAppended 0 [x0] 4294967295 b1 run1 x1 hrun1 hsub1
        (by rw [he1]; decide)
    have hstart : x2.glyphStartIndex = 1 := by
      simp only [SubRunInfo.glyphStartIndex, hs2, hs1]
    have hend : x2.glyphEndIndex = 0 := by
      simp only [SubRunInfo.glyphEndIndex, he2, he1]
      decide
    refine ⟨b2, run2, x2, ?_, hr2, by simp [hx2], hstart, hend, ?_⟩
    · rw [Blob.steps_append, h1]
      exact h2
    · rw [hstart, hend]
      decide

/-! ## The building operations are defined on well-formed blobs -/

theorem Run.step_defined {r : Run} (h : r.fSubRunInfo ≠ []) (op : RunOp) :
    ∃ r2, r.step op = some r2 ∧ r2.fSubRunInfo ≠ [] := by
  obtain ⟨init, x, hx⟩ := exists_concat_of_ne_nil h
  cases op with
  | push_back =>
    exact ⟨_, Run.push_back_concat r init x hx, by simp⟩
  | initOverride =>
    refine ⟨{ r with
      fSubRunInfo := init ++ [x] ++ [SubRunInfo.ctor.setAsSuccessor x]
      fOverrideDescriptor := some { fDesc := none } }, ?_, ?_⟩
    · simp only [Run.step, Run.initOverride, Run.push_back_concat r init x hx]
    · simp
  | appendVertices st =>
    refine ⟨{ r with fSubRunInfo := init ++ [x.appendVertices st] }, ?_, ?_⟩
    · simp only [Run.step, Run.appendVertices, hx, modifyBack_concat]
    · simp
  | glyphAppended =>
    refine ⟨{ r with fSubRunInfo := init ++ [x.glyphAppended] }, ?_, ?_⟩
    · simp only [Run.step, Run.glyphAppended, hx, modifyBack_concat]
    · simp

theorem wellFormed_set {b : Blob} (hwf : b.WellFormed) (i : Nat) (r2 : Run)
    (h2 : r2.fSubRunInfo ≠ []) :
    Blob.WellFormed { b with fRuns := b.fRuns.set i r2 } := by
  refine ⟨by simpa using hwf.1, ?_⟩
  intro r hr
  rcases List.mem_or_eq_of_mem_set hr with hr | rfl
  · exact hwf.2 r hr
  · exact h2

theorem Blob.step_onRun_defined {b : Blob} (hwf : b.WellFormed) {i : Nat}
    (hi : i < b.fRuns.length) (op : RunOp) :
    ∃ b2, b.step (.onRun i op) = some b2 ∧ b2.WellFormed ∧
      b2.fRuns.length = b.fRuns.length := by
  have hrun : b.fRuns[i]? = some b.fRuns[i] := List.getElem?_eq_getElem hi
  obtain ⟨r2, hr2, hne⟩ := Run.step_defined (hwf.2 _ (List.getElem_mem hi)) op
  have hm : modifyAt b.fRuns i (fun r => r.step op) = some (b.fRuns.set i r2) :=
    modifyAt_eq hrun hr2
  refine ⟨{ b with fRuns := b.fRuns.set i r2 }, ?_, wellFormed_set hwf i r2 hne, by simp⟩
  simp only [Blob.step, hm]

theorem Blob.push_back_run_defined {b : Blob} (hwf : b.WellFormed) {cur : Nat}
    (hi : cur + 1 < b.fRuns.length) :
    ∃ b2, b.push_back_run ((cur : Int) + 1) = some b2 ∧ b2.WellFormed ∧
      b2.fRuns.length = b.fRuns.length := by
  have hprev : b.fRuns[cur]? = some b.fRuns[cur] := List.getElem?_eq_getElem (by omega)
  have hrun : b.fRuns[cur + 1]? = some b.fRuns[cur + 1] := List.getElem?_eq_getElem hi
  obtain ⟨pinit, lastRun, hplast⟩ :=
    exists_concat_of_ne_nil (hwf.2 _ (List.getElem_mem (by omega : cur < b.fRuns.length)))
  obtain ⟨init, x, hlast⟩ := exists_concat_of_ne_nil (hwf.2 _ (List.getElem_mem hi))
  have hcount : ((cur : Int) + 1) < b.fRunCount := by
    rw [hwf.1]
    omega
  exact ⟨_, Blob.push_back_run_pos hcount hprev hplast hrun hlast,
    wellFormed_set hwf _ _ (by simp), by simp⟩

theorem Blob.steps_session_defined (ops : List SessionOp) :
    ∀ {b : Blob} {cur : Nat}, b.WellFormed → cur + sessionRunSwitches ops < b.fRuns.length →
      ∃ b2, b.steps (sessionOps cur ops) = some b2 := by
  induction ops with
  | nil => intro b cur _ _; exact ⟨b, rfl⟩
  | cons op ops ih =>
    intro b cur hwf hlen
    cases op with
    | appendGlyph f =>
      simp only [sessionRunSwitches] at hlen
      obtain ⟨b1, h1, hwf1, hl1⟩ := Blob.step_onRun_defined hwf (by omega : cur < _)
        (.appendVertices (GetVertexStride f))
      obtain ⟨b3, h3, hwf3, hl3⟩ := Blob.step_onRun_defined hwf1 (by omega : cur < _)
        .glyphAppended
      obtain ⟨b2, h2⟩ := ih hwf3 (by omega : cur + sessionRunSwitches ops < _)
      exact ⟨b2, by simp only [sessionOps, Blob.steps, h1, h3, h2]⟩
    | newSubRun =>
      simp only [sessionRunSwitches] at hlen
      obtain ⟨b1, h1, hwf1, hl1⟩ := Blob.step_onRun_defined hwf (by omega : cur < _)
        .push_back
      obtain ⟨b2, h2⟩ := ih hwf1 (by omega : cur + sessionRunSwitches ops < _)
      exact ⟨b2, by simp only [sessionOps, Blob.steps, h1, h2]⟩
    | nextRun =>
      simp only [sessionRunSwitches] at hlen
      obtain ⟨b1, h1, hwf1, hl1⟩ := Blob.push_back_run_defined hwf (by omega : cur + 1 < _)
      obtain ⟨b2, h2⟩ := ih hwf1 (by omega : cur + 1 + sessionRunSwitches ops < _)
      exact ⟨b2, by simp only [sessionOps, Blob.steps, Blob.step, h1, h2]⟩

/-! ## Glyph-count round trip -/

theorem sum_map_set {α : Type} (g : α → Nat) :
    ∀ (l : List α) (i : Nat) (x y : α), l[i]? = some x →
      ((l.set i y).map g).sum + g x = (l.map g).sum + g y := by
  intro l
  induction l with
  | nil => intro i x y h; simp at h
  | cons a t ih =>
    intro i x y h
    cases i with
    | zero =>
      simp only [List.getElem?_cons_zero, Option.some.injEq] at h
      subst h
      simp only [List.set_cons_zero, List.map_cons, List.sum_cons]
      omega
    | succ n =>
      simp only [List.getElem?_cons_succ] at h
      have := ih n x y h
      simp only [List.set_cons_succ, List.map_cons, List.sum_cons]
      omega

theorem Run.glyphTotal_concat (r : Run) (init : List SubRunInfo) (x : SubRunInfo)
    (h : r.fSubRunInfo = init ++ [x]) :
    r.glyphTotal = (init.map SubRunInfo.glyphCount).sum + x.glyphCount := by
  simp [Run.glyphTotal, h]

theorem SubRunInfo.glyphCount_setAsSuccessor (y x : SubRunInfo) :
    (y.setAsSuccessor x).glyphCount = 0 := by
  simp [SubRunInfo.glyphCount, SubRunInfo.setAsSuccessor]

theorem SubRunInfo.glyphCount_appendVertices (x : SubRunInfo) (st : Nat) :
    (x.appendVertices st).glyphCount = x.glyphCount := rfl

theorem SubRunInfo.glyphCount_glyphAppended (x : SubRunInfo)
    (h : x.glyphCount + 1 < UINT32_MOD) :
    x.glyphAppended.glyphCount = x.glyphCount + 1 := by
  simp only [SubRunInfo.glyphCount, SubRunInfo.glyphAppended, UINT32_MOD] at h ⊢
  omega

theorem Run.step_glyphTotal {r r2 : Run} {op : RunOp} (h : r.step op = some r2) :
    (op ≠ .glyphAppended → r2.glyphTotal = r.glyphTotal) ∧
    (op = .glyphAppended → r.glyphTotal + 1 < UINT32_MOD →
      r2.glyphTotal = r.glyphTotal + 1) := by
  obtain ⟨init, x, hx, hcase⟩ := Run.step_subruns h
  have hr := Run.glyphTotal_concat r init x hx
  rcases hcase with h2 | ⟨st, hop, h2⟩ | ⟨hop, h2⟩
  · have hne : op ≠ .glyphAppended := by
      intro hop
      subst hop
      simp only [Run.step, Run.glyphAppended] at h
      rw [hx, modifyBack_concat] at h
      simp only [Option.some.injEq] at h
      subst h
      simp at h2
    refine ⟨fun _ => ?_, fun hop => absurd hop hne⟩
    rw [Run.glyphTotal, h2, hr]
    simp [SubRunInfo.glyphCount_setAsSuccessor]
  · subst hop
    refine ⟨fun _ => ?_, fun hop => by cases hop⟩
    rw [Run.glyphTotal_concat r2 init _ h2, hr, SubRunInfo.glyphCount_appendVertices]
  · subst hop
    refine ⟨fun hne => absurd rfl hne, fun _ hlt => ?_⟩
    rw [Run.glyphTotal_concat r2 init _ h2, hr,
      SubRunInfo.glyphCount_glyphAppended x (by omega)]
    omega

theorem Blob.step_onRun_some {b b2 : Blob} {i : Nat} {op : RunOp}
    (h : b.step (.onRun i op) = some b2) :
    ∃ run run2, b.fRuns[i]? = some run ∧ run.step op = some run2 ∧
      b2 = { b with fRuns := b.fRuns.set i run2 } := by
  simp only [Blob.step] at h
  cases hm : modifyAt b.fRuns i (fun r => r.step op) with
  | none => simp [hm] at h
  | some runs =>
    obtain ⟨run, run2, hrun, hf, rfl⟩ := modifyAt_some hm
    simp only [hm, Option.some.injEq] at h
    exact ⟨run, run2, hrun, hf, h.symm⟩

theorem Blob.step_onRun_glyphTotal {b b2 : Blob} {i : Nat} {op : RunOp}
    (h : b.step (.onRun i op) = some b2) :
    (op ≠ .glyphAppended → b2.glyphTotal = b.glyphTotal) ∧
    (op = .glyphAppended → b.glyphTotal + 1 < UINT32_MOD →
      b2.glyphTotal = b.glyphTotal + 1) := by
  obtain ⟨run, run2, hrun, hf, rfl⟩ := Blob.step_onRun_some h
  have hsum := sum_map_set Run.glyphTotal b.fRuns i run run2 hrun
  have hstep := Run.step_glyphTotal hf
  simp only [Blob.glyphTotal]
  constructor
  · intro hne
    have := hstep.1 hne
    omega
  · intro hop hlt
    have hle : run.glyphTotal ≤ (b.fRuns.map Run.glyphTotal).sum :=
      List.single_le_sum (by simp) _ (List.mem_map_of_mem _ (List.getElem?_mem hrun))
    have := hstep.2 hop (by omega)
    omega

theorem Blob.step_onRun_emptyAfter {b b2 : Blob} {i cur : Nat} {op : RunOp}
    (h : b.step (.onRun i op) = some b2) (hi : i ≤ cur) (hE : b.EmptyAfter cur) :
    b2.EmptyAfter cur := by
  obtain ⟨run, run2, hrun, hf, rfl⟩ := Blob.step_onRun_some h
  intro j r hj hr
  have hne : i ≠ j := by omega
  simp only [List.getElem?_set, hne, if_false] at hr
  exact hE j r hj hr

theorem Blob.push_back_run_next {b b2 : Blob} {cur : Nat}
    (h : b.push_back_run ((cur : Int) + 1) = some b2) (hE : b.EmptyAfter cur) :
    b2.glyphTotal = b.glyphTotal ∧ b2.EmptyAfter (cur + 1) := by
  have hto : ((cur : Int) + 1).toNat = cur + 1 := by omega
  rcases Blob.push_back_run_some h with rfl | ⟨prevRun, lastRun, run, init, x, _, _, hrun,
    hx, rfl⟩
  · exact ⟨rfl, fun j r hj hr => hE j r (by omega) hr⟩
  · rw [hto] at hrun
    have h0 : run.glyphTotal = 0 := hE (cur + 1) run (by omega) hrun
    have hr := Run.glyphTotal_concat run init x hx
    have hsum := sum_map_set Run.glyphTotal b.fRuns (cur + 1) run
      { run with fSubRunInfo := init ++ [x.setAsSuccessor lastRun] } hrun
    have hnew : Run.glyphTotal { run with fSubRunInfo := init ++ [x.setAsSuccessor lastRun] }
        = (init.map SubRunInfo.glyphCount).sum := by
      simp [Run.glyphTotal, SubRunInfo.glyphCount_setAsSuccessor]
    constructor
    · simp only [Blob.glyphTotal, hto]
      omega
    · intro j r hj hr2
      have hne : cur + 1 ≠ j := by omega
      simp only [hto, List.getElem?_set, hne, if_false] at hr2
      exact hE j r (by omega) hr2

theorem Blob.steps_session (ops : List SessionOp) :
    ∀ {b b2 : Blob} {cur : Nat}, b.steps (sessionOps cur ops) = some b2 →
      b.EmptyAfter cur → b.glyphTotal + sessionGlyphs ops < UINT32_MOD →
      b2.glyphTotal = b.glyphTotal + sessionGlyphs ops := by
  induction ops with
  | nil =>
    intro b b2 cur h _ _
    simp only [sessionOps, Blob.steps, Option.some.injEq] at h
    subst h
    simp [sessionGlyphs]
  | cons op ops ih =>
    intro b b2 cur h hE hN
    cases op with
    | appendGlyph f =>
      simp only [sessionOps, Blob.steps] at h
      cases h1 : b.step (.onRun cur (.appendVertices (GetVertexStride f))) with
      | none => simp [h1] at h
      | some b1 =>
        rw [h1] at h
        cases h2 : b1.step (.onRun cur .glyphAppended) with
        | none => simp [h2] at h
        | some b3 =>
          simp only [h2] at h
          simp only [sessionGlyphs] at hN ⊢
          have e1 := (Blob.step_onRun_glyphTotal h1).1 (by simp)
          have e2 := (Blob.step_onRun_glyphTotal h2).2 rfl (by omega)
          have hE3 := Blob.step_onRun_emptyAfter h2 (Nat.le_refl _)
            (Blob.step_onRun_emptyAfter h1 (Nat.le_refl _) hE)
          have := ih h hE3 (by omega)
          omega
    | newSubRun =>
      simp only [sessionOps, Blob.steps] at h
      cases h1 : b.step (.onRun cur .push_back) with
      | none => simp [h1] at h
      | some b1 =>
        rw [h1] at h
        simp only [sessionGlyphs] at hN ⊢
        have e1 := (Blob.step_onRun_glyphTotal h1).1 (by simp)
        have := ih h (Blob.step_onRun_emptyAfter h1 (Nat.le_refl _) hE) (by omega)
        omega
    | nextRun =>
      simp only [sessionOps, Blob.steps, Blob.step] at h
      cases h1 : b.push_back_run ((cur : Int) + 1) with
      | none => simp [h1] at h
      | some b1 =>
        rw [h1] at h
        simp only [sessionGlyphs] at hN ⊢
        obtain ⟨e1, hE1⟩ := Blob.push_back_run_next h1 hE
        have := ih h hE1 (by omega)
        omega

theorem Create_glyphTotal (raw : Blob) (runCount : Nat) :
    (Create raw runCount).glyphTotal = 0 ∧ (Create raw runCount).EmptyAfter 0 := by
  have hrun : ∀ r ∈ (Create raw runCount).fRuns, r.glyphTotal = 0 := by
    intro r hr
    simp only [Create] at hr
    rw [List.eq_of_mem_replicate hr]
    rfl
  constructor
  · simp only [Blob.glyphTotal]
    apply List.sum_eq_zero
    intro n hn
    obtain ⟨r, hr, rfl⟩ := List.mem_map.mp hn
    exact hrun r hr
  · intro j r _ hr
    exact hrun r (List.getElem?_mem hr)

/-- C4. Glyph-count round trip: on a freshly created blob, every shaping
session that stays within the blob's runs is defined, and when it appends
`N < 2 ^ 32` glyphs (each to the last sub-run of the current run), interleaved
in any way with new sub-runs (`Run::push_back`) and moves to the next run
(`push_back_run`), `glyphCount()` sums to `N` over all sub-runs of all runs;
the same holds when the session opens with `push_back_run(0)`. -/
theorem C4_glyph_count_round_trip (raw : Blob) (runCount : Nat) (ops : List SessionOp)
    (hruns : sessionRunSwitches ops < runCount)
    (hN : sessionGlyphs ops < UINT32_MOD) :
    (∃ b, (Create raw runCount).steps (sessionOps 0 ops) = some b ∧
      b.glyphTotal = sessionGlyphs ops) ∧
    (∃ b, (Create raw runCount).steps (.push_back_run 0 :: sessionOps 0 ops) = some b ∧
      b.glyphTotal = sessionGlyphs ops) := by
  obtain ⟨b, h⟩ := Blob.steps_session_defined ops (Create_wellFormed raw runCount)
    (by simpa [Create] using hruns : 0 + sessionRunSwitches ops < _)
  have h0 := Create_glyphTotal raw runCount
  have := Blob.steps_session ops h h0.2 (by rw [h0.1]; simpa using hN)
  have htotal : b.glyphTotal = sessionGlyphs ops := by rw [this, h0.1, Nat.zero_add]
  refine ⟨⟨b, h, htotal⟩, b, ?_, htotal⟩
  have hpos : (0 : Int) < (Create raw runCount).fRunCount := by
    simp only [Create]
    omega
  have hfirst : (Create raw runCount).step (.push_back_run 0) = some (Create raw runCount) := by
    simp [Blob.step, Blob.push_back_run, hpos]
  simp only [Blob.steps, hfirst, h]

/-- C4 (witness). The round trip for `exampleSession` on a two-run blob: the
session is defined and the glyph counts sum to its four glyphs. -/
theorem C4_glyph_count_round_trip_witness :
    sessionRunSwitches exampleSession < 2 ∧ sessionGlyphs exampleSession < UINT32_MOD ∧
    ∃ b, (Create zeroBlob 2).steps (sessionOps 0 exampleSession) = some b ∧
      b.glyphTotal = sessionGlyphs exampleSession :=
  ⟨by decide, by decide,
    (C4_glyph_count_round_trip zeroBlob 2 exampleSession (by decide) (by decide)).1⟩

/-! ## Reserved vertex storage -/

theorem GetVertexStride_le_kMaxVASize (f : GrMaskFormat) : GetVertexStride f ≤ kMaxVASize := by
  cases f <;> decide

theorem vertexAppends_cons (op : BlobOp) (ops : List BlobOp) :
    vertexAppends (op :: ops) = vertexAppends [op] + vertexAppends ops := by
  cases op with
  | push_back_run c => simp [vertexAppends]
  | onRun i rop => cases rop <;> simp [vertexAppends, Nat.add_comm]

theorem StridesFromFormats_cons {op : BlobOp} {ops : List BlobOp}
    (h : StridesFromFormats (op :: ops)) :
    StridesFromFormats [op] ∧ StridesFromFormats ops := by
  cases op with
  | push_back_run c => exact ⟨trivial, h⟩
  | onRun i rop =>
    cases rop with
    | appendVertices st => exact ⟨⟨h.1, trivial⟩, h.2⟩
    | push_back => exact ⟨trivial, h⟩
    | initOverride => exact ⟨trivial, h⟩
    | glyphAppended => exact ⟨trivial, h⟩

theorem Blob.step_vertexIndicesBelow {b b2 : Blob} {op : BlobOp} {V : Nat}
    (h : b.step op = some b2) (hP : b.AllSubRuns (SubRunInfo.VertexIndicesBelow V))
    (hs : StridesFromFormats [op]) :
    b2.AllSubRuns (SubRunInfo.VertexIndicesBelow
      (V + vertexAppends [op] * kVerticesPerGlyph * kMaxVASize)) := by
  refine Blob.step_forall h hP ?_ ?_ ?_ ?_
  · intro s hs
    exact ⟨Nat.le_trans hs.1 (Nat.le_add_right _ _), Nat.le_trans hs.2 (Nat.le_add_right _ _)⟩
  · intro y x hx
    exact ⟨Nat.le_trans hx.2 (Nat.le_add_right _ _), Nat.le_trans hx.2 (Nat.le_add_right _ _)⟩
  · intro i st hop x hx
    subst hop
    obtain ⟨⟨f, rfl⟩, _⟩ := hs
    have hf := GetVertexStride_le_kMaxVASize f
    have h1 := hx.1
    have h2 := hx.2
    have hk : kMaxVASize = 16 := by decide
    rw [hk] at hf ⊢
    simp only [vertexAppends, kVerticesPerGlyph]
    simp only [SubRunInfo.VertexIndicesBelow, SubRunInfo.vertexStartIndex,
      SubRunInfo.vertexEndIndex, SubRunInfo.appendVertices, kVerticesPerGlyph,
      SIZE_MOD] at h1 h2 ⊢
    generalize GetVertexStride f = st at hf ⊢
    omega
  · intro i _ x hx
    exact ⟨Nat.le_trans hx.1 (Nat.le_add_right _ _), Nat.le_trans hx.2 (Nat.le_add_right _ _)⟩

theorem Blob.steps_vertexIndicesBelow (ops : List BlobOp) :
    ∀ {b b2 : Blob} {V : Nat}, b.steps ops = some b2 →
      b.AllSubRuns (SubRunInfo.VertexIndicesBelow V) → StridesFromFormats ops →
      b2.AllSubRuns (SubRunInfo.VertexIndicesBelow
        (V + vertexAppends ops * kVerticesPerGlyph * kMaxVASize)) := by
  induction ops with
  | nil =>
    intro b b2 V h hP _
    simp only [Blob.steps, Option.some.injEq] at h
    subst h
    simpa [vertexAppends] using hP
  | cons op ops ih =>
    intro b b2 V h hP hs
    simp only [Blob.steps] at h
    cases hst : b.step op with
    | none => simp [hst] at h
    | some b1 =>
      rw [hst] at h
      obtain ⟨hs1, hs2⟩ := StridesFromFormats_cons hs
      have h1 := Blob.step_vertexIndicesBelow hst hP hs1
      have h2 := ih h h1 hs2
      rw [vertexAppends_cons]
      have e : V + (vertexAppends [op] + vertexAppends ops) * kVerticesPerGlyph * kMaxVASize =
          V + vertexAppends [op] * kVerticesPerGlyph * kMaxVASize +
            vertexAppends ops * kVerticesPerGlyph * kMaxVASize := by ring
      rw [e]
      exact h2

/-- C5. Reserved vertex storage suffices: `GetVertexStride(f) <= kMaxVASize` for
every mask format, and in every blob built from a freshly created one by
`push_back_run`, `Run::push_back`, `initOverride`, `glyphAppended` and `N`
calls `appendVertices(GetVertexStride(f))` (any format per call), every
sub-run has `vertexEndIndex <= N * kVerticesPerGlyph * kMaxVASize`, which is
within the storage reserved for any glyph count of at least `N`. -/
theorem C5_reserved_vertex_storage (raw : Blob) (runCount : Nat) (ops : List BlobOp)
    (b : Blob) (hs : StridesFromFormats ops)
    (h : (Create raw runCount).steps ops = some b) :
    (∀ f : GrMaskFormat, GetVertexStride f ≤ kMaxVASize) ∧
    (∀ r ∈ b.fRuns, ∀ s ∈ r.fSubRunInfo,
      s.vertexEndIndex ≤ vertexAppends ops * kVerticesPerGlyph * kMaxVASize) ∧
    (∀ glyphCount : Nat, vertexAppends ops ≤ glyphCount →
      ∀ r ∈ b.fRuns, ∀ s ∈ r.fSubRunInfo,
        s.vertexEndIndex ≤ reservedVertexBytes glyphCount) := by
  have h0 := Create_allSubRuns_ctor raw runCount
  have hP : (Create raw runCount).AllSubRuns (SubRunInfo.VertexIndicesBelow 0) := by
    intro r hr s hs
    rw [h0 r hr s hs]
    exact ⟨Nat.le_refl _, Nat.le_refl _⟩
  have hbound : ∀ r ∈ b.fRuns, ∀ s ∈ r.fSubRunInfo,
      s.vertexEndIndex ≤ vertexAppends ops * kVerticesPerGlyph * kMaxVASize := by
    intro r hr s hs2
    have := (Blob.steps_vertexIndicesBelow ops h hP hs r hr s hs2).2
    simpa using this
  refine ⟨GetVertexStride_le_kMaxVASize, hbound, ?_⟩
  intro glyphCount hle r hr s hs2
  exact Nat.le_trans (hbound r hr s hs2)
    (Nat.mul_le_mul_right _ (Nat.mul_le_mul_right _ hle))

/-- C5 (witness). The bound for `exampleBuild` on a two-run blob: two vertex
appends, so every sub-run ends at or below byte 128. -/
theorem C5_reserved_vertex_storage_witness :
    StridesFromFormats exampleBuild ∧
    ∃ b, (Create zeroBlob 2).steps exampleBuild = some b ∧
      ∀ r ∈ b.fRuns, ∀ s ∈ r.fSubRunInfo, s.vertexEndIndex ≤ 128 :=
  ⟨⟨⟨.kA8_GrMaskFormat, rfl⟩, ⟨.kARGB_GrMaskFormat, rfl⟩, trivial⟩,
    _, rfl,
    (C5_reserved_vertex_storage zeroBlob 2 exampleBuild _
      ⟨⟨.kA8_GrMaskFormat, rfl⟩, ⟨.kARGB_GrMaskFormat, rfl⟩, trivial⟩ rfl).2.1⟩

/-! ## The scale band -/

theorem SkMaxScalar_eq_max (a b : SkScalar) : SkMaxScalar a b = max a b := by
  unfold SkMaxScalar
  split_ifs with h
  · exact (max_eq_left (le_of_lt h)).symm
  · exact (max_eq_right (not_lt.mp h)).symm

theorem SkMinScalar_eq_min (a b : SkScalar) : SkMinScalar a b = min a b := by
  unfold SkMinScalar
  split_ifs with h
  · exact (min_eq_left (le_of_lt h)).symm
  · exact (min_eq_right (not_lt.mp h)).symm

theorem Blob.fMaxMinScale_setMinAndMaxScale (b : Blob) (scaledMax scaledMin : SkScalar) :
    (b.setMinAndMaxScale scaledMax scaledMin).fMaxMinScale = max scaledMax b.fMaxMinScale := by
  simp [Blob.setMinAndMaxScale, SkMaxScalar_eq_max]

theorem Blob.fMinMaxScale_setMinAndMaxScale (b : Blob) (scaledMax scaledMin : SkScalar) :
    (b.setMinAndMaxScale scaledMax scaledMin).fMinMaxScale = min scaledMin b.fMinMaxScale := by
  simp [Blob.setMinAndMaxScale, SkMinScalar_eq_min]

theorem Blob.fMaxMinScale_le_iff (calls : List (SkScalar × SkScalar)) :
    ∀ (b : Blob) (x : SkScalar),
      (b.setMinAndMaxScales calls).fMaxMinScale ≤ x ↔
        b.fMaxMinScale ≤ x ∧ ∀ c ∈ calls, c.1 ≤ x := by
  induction calls with
  | nil => intro b x; simp [Blob.setMinAndMaxScales]
  | cons c calls ih =>
    intro b x
    simp only [Blob.setMinAndMaxScales, ih, Blob.fMaxMinScale_setMinAndMaxScale, max_le_iff,
      List.mem_cons, forall_eq_or_imp]
    tauto

theorem Blob.le_fMinMaxScale_iff (calls : List (SkScalar × SkScalar)) :
    ∀ (b : Blob) (x : SkScalar),
      x ≤ (b.setMinAndMaxScales calls).fMinMaxScale ↔
        x ≤ b.fMinMaxScale ∧ ∀ c ∈ calls, x ≤ c.2 := by
  induction calls with
  | nil => intro b x; simp [Blob.setMinAndMaxScales]
  | cons c calls ih =>
    intro b x
    simp only [Blob.setMinAndMaxScales, ih, Blob.fMinMaxScale_setMinAndMaxScale, le_min_iff,
      List.mem_cons, forall_eq_or_imp]
    tauto

theorem SK_ScalarMax_nonneg : (0 : SkScalar) ≤ SK_ScalarMax := by
  unfold SK_ScalarMax
  norm_num

/-- C6 (amended). On a freshly constructed blob `fMaxMinScale <= fMinMaxScale`
holds, and after any calls `setMinAndMaxScale(scaledMax, scaledMin)` it holds
exactly when every `scaledMax` passed is at most every `scaledMin` passed,
every `scaledMax` is at most `SK_ScalarMax` and every `scaledMin` is at least
`-SK_ScalarMax`. -/
theorem C6_scale_band_nonempty_iff (raw : Blob) (calls : List (SkScalar × SkScalar)) :
    (Blob.ctor raw).fMaxMinScale ≤ (Blob.ctor raw).fMinMaxScale ∧
    (((Blob.ctor raw).setMinAndMaxScales calls).fMaxMinScale ≤
        ((Blob.ctor raw).setMinAndMaxScales calls).fMinMaxScale ↔
      (∀ c ∈ calls, ∀ d ∈ calls, c.1 ≤ d.2) ∧
      (∀ c ∈ calls, c.1 ≤ SK_ScalarMax ∧ -SK_ScalarMax ≤ c.2)) := by
  have h0 : (Blob.ctor raw).fMaxMinScale ≤ (Blob.ctor raw).fMinMaxScale := by
    have := SK_ScalarMax_nonneg
    simp only [Blob.ctor]
    linarith
  refine ⟨h0, ?_⟩
  rw [Blob.le_fMinMaxScale_iff, Blob.fMaxMinScale_le_iff]
  simp only [Blob.fMaxMinScale_le_iff]
  have ha : (Blob.ctor raw).fMaxMinScale = -SK_ScalarMax := rfl
  have hm : (Blob.ctor raw).fMinMaxScale = SK_ScalarMax := rfl
  rw [ha, hm] at h0 ⊢
  constructor
  · rintro ⟨⟨_, h1⟩, h2⟩
    exact ⟨fun c hc d hd => (h2 d hd).2 c hc, fun c hc => ⟨h1 c hc, (h2 c hc).1⟩⟩
  · rintro ⟨h1, h2⟩
    exact ⟨⟨h0, fun c hc => (h2 c hc).1⟩,
      fun d hd => ⟨(h2 d hd).2, fun c hc => h1 c hc d hd⟩⟩

/-- C6 (counterexample). One call `setMinAndMaxScale(10, 1)` on a freshly
constructed blob leaves `fMaxMinScale = 10` above `fMinMaxScale = 1`. -/
theorem C6_counterexample :
    ((Blob.ctor zeroBlob).setMinAndMaxScale 10 1).fMaxMinScale = 10 ∧
    ((Blob.ctor zeroBlob).setMinAndMaxScale 10 1).fMinMaxScale = 1 ∧
    ¬ (((Blob.ctor zeroBlob).setMinAndMaxScale 10 1).fMaxMinScale ≤
        ((Blob.ctor zeroBlob).setMinAndMaxScale 10 1).fMinMaxScale) := by
  have h1 : ((Blob.ctor zeroBlob).setMinAndMaxScale 10 1).fMaxMinScale = 10 := by
    rw [Blob.fMaxMinScale_setMinAndMaxScale]
    simp only [Blob.ctor, SK_ScalarMax]
    norm_num
  have h2 : ((Blob.ctor zeroBlob).setMinAndMaxScale 10 1).fMinMaxScale = 1 := by
    rw [Blob.fMinMaxScale_setMinAndMaxScale]
    simp only [Blob.ctor, SK_ScalarMax]
    norm_num
  refine ⟨h1, h2, ?_⟩
  rw [h1, h2]
  norm_num

/-- C9. Monotone narrowing of the scale band: a freshly constructed blob has
the band `[-SK_ScalarMax, SK_ScalarMax]`, which contains the band of every
state reached from it by `setMinAndMaxScale` calls; and on every blob state
`setMinAndMaxScale` never decreases `fMaxMinScale` and never increases
`fMinMaxScale`. -/
theorem C9_scale_band_narrows (raw b : Blob) (scaledMax scaledMin : SkScalar)
    (calls : List (SkScalar × SkScalar)) :
    (Blob.ctor raw).fMaxMinScale = -SK_ScalarMax ∧
    (Blob.ctor raw).fMinMaxScale = SK_ScalarMax ∧
    -SK_ScalarMax ≤ ((Blob.ctor raw).setMinAndMaxScales calls).fMaxMinScale ∧
    ((Blob.ctor raw).setMinAndMaxScales calls).fMinMaxScale ≤ SK_ScalarMax ∧
    b.fMaxMinScale ≤ (b.setMinAndMaxScale scaledMax scaledMin).fMaxMinScale ∧
    (b.setMinAndMaxScale scaledMax scaledMin).fMinMaxScale ≤ b.fMinMaxScale := by
  refine ⟨rfl, rfl, ?_, ?_, ?_, ?_⟩
  · exact ((Blob.fMaxMinScale_le_iff calls (Blob.ctor raw) _).mp (le_refl _)).1
  · exact ((Blob.le_fMinMaxScale_iff calls (Blob.ctor raw) _).mp (le_refl _)).1
  · rw [Blob.fMaxMinScale_setMinAndMaxScale]
    exact le_max_right _ _
  · rw [Blob.fMinMaxScale_setMinAndMaxScale]
    exact min_le_right _ _

/-! ## The reuse policy -/

/-- C7. On an entry whose key has `fHasBlur` set, `mustRegenerate` called with a
blur record whose sigma differs from the stored `fBlurRec` sigma demands full
regeneration (returns `true`), for every view matrix, paint, color and
`(x, y)`. -/
theorem C7_blur_sigma_change_regenerates
    (scaleAdjust : SkMatrix → SkMatrix → Option SkScalar) (b : Blob)
    (outTransX outTransY : SkScalar) (paint : SkPaint) (color : GrColor) (blurRec : BlurRec)
    (viewMatrix : SkMatrix) (x y : SkScalar)
    (hblur : b.key.fHasBlur = true) (hsigma : blurRec.fSigma ≠ b.fBlurRec.fSigma) :
    b.regenDecision scaleAdjust paint color blurRec viewMatrix x y
        = RegenDecision.mustFullyRegenerate ∧
    (b.mustRegenerate scaleAdjust outTransX outTransY paint color blurRec viewMatrix x y).1
        = true := by
  have hb : b.blurIncompatible blurRec = true := by
    simp only [Blob.key] at hblur
    simp [Blob.blurIncompatible, hblur, Ne.symm hsigma]
  have hd : b.regenDecision scaleAdjust paint color blurRec viewMatrix x y
      = RegenDecision.mustFullyRegenerate := by
    simp [Blob.regenDecision, hb]
  exact ⟨hd, by simp [Blob.mustRegenerate, hd]⟩

/-- C7 (witness). An entry set up with a blurred key and sigma 2, asked about
sigma 3 under the identity matrix. -/
theorem C7_blur_sigma_change_regenerates_witness :
    (zeroBlob.setupKey blurredKey (exampleBlur 2) examplePaint).key.fHasBlur = true ∧
    (exampleBlur 3).fSigma ≠
      (zeroBlob.setupKey blurredKey (exampleBlur 2) examplePaint).fBlurRec.fSigma ∧
    ((zeroBlob.setupKey blurredKey (exampleBlur 2) examplePaint).mustRegenerate noScaleAdjust
      0 0 examplePaint 0 (exampleBlur 3) SkMatrix.I 0 0).1 = true :=
  have h1 : (zeroBlob.setupKey blurredKey (exampleBlur 2) examplePaint).key.fHasBlur = true :=
    rfl
  have h2 : (exampleBlur 3).fSigma ≠
      (zeroBlob.setupKey blurredKey (exampleBlur 2) examplePaint).fBlurRec.fSigma := by
    show (3 : ℚ) ≠ 2
    norm_num
  ⟨h1, h2, (C7_blur_sigma_change_regenerates noScaleAdjust _ 0 0 examplePaint 0
    (exampleBlur 3) SkMatrix.I 0 0 h1 h2).2⟩

/-- C8. Pure translation: when the blur record, the paint's stroke parameters
and the color equal the stored ones and the view matrix differs from the
stored one by translation only, `mustRegenerate` does not demand full
regeneration. In particular a view matrix translated from `(0, 0)` to
`(5, -3)` at an unchanged offset, and an offset moved from `(0, 0)` to
`(5, -3)` under an unchanged view matrix without scale or skew, both yield
reuse with `(transX, transY) = (5, -3)`. -/
theorem C8_pure_translation_reuses
    (scaleAdjust : SkMatrix → SkMatrix → Option SkScalar) (b : Blob)
    (outTransX outTransY : SkScalar) (paint : SkPaint) (color : GrColor) (blurRec : BlurRec)
    (viewMatrix : SkMatrix) (x y : SkScalar)
    (hblur : blurRec = b.fBlurRec)
    (hwidth : paint.getStrokeWidth = b.fStrokeInfo.fFrameWidth)
    (hmiter : paint.getStrokeMiter = b.fStrokeInfo.fMiterLimit)
    (hjoin : paint.getStrokeJoin = b.fStrokeInfo.fJoin)
    (hcolor : color = b.fPaintColor)
    (hmatrix : b.fViewMatrix.sameButTranslation viewMatrix = true) :
    b.regenDecision scaleAdjust paint color blurRec viewMatrix x y
        ≠ RegenDecision.mustFullyRegenerate ∧
    (b.mustRegenerate scaleAdjust outTransX outTransY paint color blurRec viewMatrix x y).1
        = false ∧
    (b.fViewMatrix.transX = 0 → b.fViewMatrix.transY = 0 →
      viewMatrix.transX = 5 → viewMatrix.transY = -3 → x = b.fX → y = b.fY →
      b.mustRegenerate scaleAdjust outTransX outTransY paint color blurRec viewMatrix x y
        = (false, 5, -3)) ∧
    (viewMatrix = b.fViewMatrix → viewMatrix.scaleX = 1 → viewMatrix.scaleY = 1 →
      viewMatrix.skewX = 0 → viewMatrix.skewY = 0 →
      b.fX = 0 → b.fY = 0 → x = 5 → y = -3 →
      b.mustRegenerate scaleAdjust outTransX outTransY paint color blurRec viewMatrix x y
        = (false, 5, -3)) := by
  have hb : b.blurIncompatible blurRec = false := by
    simp [Blob.blurIncompatible, hblur]
  have hs : b.strokeIncompatible paint = false := by
    simp [Blob.strokeIncompatible, hwidth, hmiter, hjoin]
  have hc : b.colorIncompatible color = false := by
    simp [Blob.colorIncompatible, hcolor]
  have hd : b.regenDecision scaleAdjust paint color blurRec viewMatrix x y =
      if (b.translationDelta viewMatrix x y).1 = 0 ∧ (b.translationDelta viewMatrix x y).2 = 0
      then RegenDecision.canReuseAsIs
      else RegenDecision.translationOnly (b.translationDelta viewMatrix x y).1
        (b.translationDelta viewMatrix x y).2 := by
    simp [Blob.regenDecision, hb, hs, hc, Blob.matrixDecision, hmatrix]
  have h53 : b.translationDelta viewMatrix x y = (5, -3) →
      b.mustRegenerate scaleAdjust outTransX outTransY paint color blurRec viewMatrix x y
        = (false, 5, -3) := by
    intro ht
    have h5 : ¬ ((5 : SkScalar) = 0 ∧ (-3 : SkScalar) = 0) := by norm_num
    simp only [Blob.mustRegenerate, hd, ht, if_neg h5]
  refine ⟨?_, ?_, ?_, ?_⟩
  · rw [hd]
    split_ifs <;> simp
  · simp only [Blob.mustRegenerate, hd]
    split_ifs <;> rfl
  · intro h1 h2 h3 h4 h5 h6
    apply h53
    simp [Blob.translationDelta, h1, h2, h3, h4, h5, h6]
  · intro h0 h1 h2 h3 h4 h5 h6 h7 h8
    apply h53
    simp [Blob.translationDelta, ← h0, h1, h2, h3, h4, h5, h6, h7, h8]

/-- C8 (witness). An entry set up with a blurred, stroked key under the identity
matrix at offset `(0, 0)`, asked about the matrix translated by `(5, -3)`. -/
theorem C8_pure_translation_reuses_witness :
    (zeroBlob.setupKey blurredKey (exampleBlur 2) examplePaint).fViewMatrix.sameButTranslation
      translatedMatrix = true ∧
    (zeroBlob.setupKey blurredKey (exampleBlur 2) examplePaint).mustRegenerate noScaleAdjust
      0 0 examplePaint 0 (exampleBlur 2) translatedMatrix 0 0 = (false, 5, -3) :=
  have hm : (zeroBlob.setupKey blurredKey (exampleBlur 2)
      examplePaint).fViewMatrix.sameButTranslation translatedMatrix = true := by
    simp [SkMatrix.sameButTranslation, Blob.setupKey, zeroBlob, SkMatrix.I, translatedMatrix,
      blurredKey]
  ⟨hm, (C8_pure_translation_reuses noScaleAdjust
    (zeroBlob.setupKey blurredKey (exampleBlur 2) examplePaint) 0 0 examplePaint 0
    (exampleBlur 2) translatedMatrix 0 0 rfl rfl rfl rfl rfl hm).2.2.1 rfl rfl rfl rfl rfl rfl⟩

/-- C10. After `setupKey(key, blurRec, paint)`: `key()` is `key`; `fBlurRec` is
`blurRec` if `key.fHasBlur` and unchanged otherwise; `fStrokeInfo` holds the
paint's stroke width, miter limit and join if `key.fStyle` is not fill and is
unchanged otherwise; every other field of the blob is unchanged. -/
theorem C10_setupKey_frame (b : Blob) (key : Key) (blurRec : BlurRec) (paint : SkPaint) :
    (b.setupKey key blurRec paint).key = key ∧
    (b.setupKey key blurRec paint).fBlurRec = (if key.fHasBlur then blurRec else b.fBlurRec) ∧
    (b.setupKey key blurRec paint).fStrokeInfo =
      (if key.fStyle ≠ Style.kFill_Style then
        { fFrameWidth := paint.getStrokeWidth, fMiterLimit := paint.getStrokeMiter,
          fJoin := paint.getStrokeJoin }
       else b.fStrokeInfo) ∧
    (b.setupKey key blurRec paint).fVertices = b.fVertices ∧
    (b.setupKey key blurRec paint).fGlyphs = b.fGlyphs ∧
    (b.setupKey key blurRec paint).fRuns = b.fRuns ∧
    (b.setupKey key blurRec paint).fPool = b.fPool ∧
    (b.setupKey key blurRec paint).fBigGlyphs = b.fBigGlyphs ∧
    (b.setupKey key blurRec paint).fViewMatrix = b.fViewMatrix ∧
    (b.setupKey key blurRec paint).fInitialViewMatrixInverse = b.fInitialViewMatrixInverse ∧
    (b.setupKey key blurRec paint).fSize = b.fSize ∧
    (b.setupKey key blurRec paint).fPaintColor = b.fPaintColor ∧
    (b.setupKey key blurRec paint).fInitialX = b.fInitialX ∧
    (b.setupKey key blurRec paint).fInitialY = b.fInitialY ∧
    (b.setupKey key blurRec paint).fX = b.fX ∧
    (b.setupKey key blurRec paint).fY = b.fY ∧
    (b.setupKey key blurRec paint).fMaxMinScale = b.fMaxMinScale ∧
    (b.setupKey key blurRec paint).fMinMaxScale = b.fMinMaxScale ∧
    (b.setupKey key blurRec paint).fRunCount = b.fRunCount ∧
    (b.setupKey key blurRec paint).fTextType = b.fTextType := by
  unfold Blob.setupKey Blob.key
  by_cases hblur : key.fHasBlur = true <;> by_cases hstyle : key.fStyle = Style.kFill_Style <;>
    simp [hblur, hstyle]

/-! ## Key equality -/

theorem bytes32_eq_iff {n m : Nat} (hn : n < UINT32_MOD) (hm : m < UINT32_MOD) :
    bytes32 n = bytes32 m ↔ n = m := by
  simp only [UINT32_MOD] at hn hm
  constructor
  · intro h
    simp only [bytes32, List.cons.injEq, and_true] at h
    omega
  · intro h
    rw [h]

theorem Style.style_bytes_eq_iff (a b : Style) : bytes32 a.toNat = bytes32 b.toNat ↔ a = b := by
  cases a <;> cases b <;> simp [bytes32, Style.toNat]

theorem SkPixelGeometry.geometry_bytes_eq_iff (a b : SkPixelGeometry) :
    bytes32 a.toNat = bytes32 b.toNat ↔ a = b := by
  cases a <;> cases b <;> simp [bytes32, SkPixelGeometry.toNat]

theorem bytes32_length (n : Nat) : (bytes32 n).length = 4 := rfl

theorem append_eq_append_iff_of_length {α : Type} {s1 s2 t1 t2 : List α}
    (h : s1.length = s2.length) : s1 ++ t1 = s2 ++ t2 ↔ s1 = s2 ∧ t1 = t2 :=
  ⟨fun he => List.append_inj he h, fun ⟨h1, h2⟩ => by rw [h1, h2]⟩

theorem KeyStorage.bytes_eq_iff (a b : Key) (pa pb : List Nat)
    (ha1 : a.fUniqueID < UINT32_MOD) (ha2 : a.fCanonicalColor < UINT32_MOD)
    (hb1 : b.fUniqueID < UINT32_MOD) (hb2 : b.fCanonicalColor < UINT32_MOD) :
    KeyStorage.bytes { fields := a, padding := pa } =
        KeyStorage.bytes { fields := b, padding := pb } ↔
      a.fUniqueID = b.fUniqueID ∧ a.fCanonicalColor = b.fCanonicalColor ∧
      a.fStyle = b.fStyle ∧ a.fPixelGeometry = b.fPixelGeometry ∧
      a.fHasBlur = b.fHasBlur ∧ pa = pb := by
  simp only [KeyStorage.bytes, List.append_assoc]
  rw [append_eq_append_iff_of_length (by simp [bytes32_length]),
    append_eq_append_iff_of_length (by simp [bytes32_length]),
    append_eq_append_iff_of_length (by simp [bytes32_length]),
    append_eq_append_iff_of_length (by simp [bytes32_length]),
    bytes32_eq_iff ha1 hb1, bytes32_eq_iff ha2 hb2, Style.style_bytes_eq_iff,
    SkPixelGeometry.geometry_bytes_eq_iff]
  have hblur : ([if a.fHasBlur = true then 1 else 0] ++ pa =
      [if b.fHasBlur = true then 1 else 0] ++ pb) ↔ (a.fHasBlur = b.fHasBlur ∧ pa = pb) := by
    cases a.fHasBlur <;> cases b.fHasBlur <;> simp
  rw [hblur]

/-- C11. Key equality is exact field-wise comparison: for keys built through
the `Key` constructor (every byte cleared, then the five fields assigned),
`a == b` holds if and only if `fUniqueID`, `fCanonicalColor`, `fStyle`,
`fPixelGeometry` and `fHasBlur` are all equal; in particular two keys with
different `fUniqueID` are never equal. -/
theorem C11_key_equality_fieldwise (a b : Key)
    (ha1 : a.fUniqueID < UINT32_MOD) (ha2 : a.fCanonicalColor < UINT32_MOD)
    (hb1 : b.fUniqueID < UINT32_MOD) (hb2 : b.fCanonicalColor < UINT32_MOD) :
    ((KeyStorage.ctor.assign a).eq (KeyStorage.ctor.assign b) = true ↔
      a.fUniqueID = b.fUniqueID ∧ a.fCanonicalColor = b.fCanonicalColor ∧
      a.fStyle = b.fStyle ∧ a.fPixelGeometry = b.fPixelGeometry ∧
      a.fHasBlur = b.fHasBlur) ∧
    (a.fUniqueID ≠ b.fUniqueID →
      (KeyStorage.ctor.assign a).eq (KeyStorage.ctor.assign b) = false) := by
  have h := KeyStorage.bytes_eq_iff a b [0, 0, 0] [0, 0, 0] ha1 ha2 hb1 hb2
  have hiff : (KeyStorage.ctor.assign a).eq (KeyStorage.ctor.assign b) = true ↔
      a.fUniqueID = b.fUniqueID ∧ a.fCanonicalColor = b.fCanonicalColor ∧
      a.fStyle = b.fStyle ∧ a.fPixelGeometry = b.fPixelGeometry ∧
      a.fHasBlur = b.fHasBlur := by
    simp only [KeyStorage.eq, decide_eq_true_eq, KeyStorage.assign, KeyStorage.ctor]
    rw [h]
    simp
  refine ⟨hiff, fun hne => ?_⟩
  cases he : (KeyStorage.ctor.assign a).eq (KeyStorage.ctor.assign b) with
  | false => rfl
  | true => exact absurd (hiff.mp he).1 hne

/-- C11 (witness). The blurred example key against itself and against the key
with unique id 8. -/
theorem C11_key_equality_fieldwise_witness :
    (KeyStorage.ctor.assign blurredKey).eq (KeyStorage.ctor.assign blurredKey) = true ∧
    (KeyStorage.ctor.assign blurredKey).eq
      (KeyStorage.ctor.assign { blurredKey with fUniqueID := 8 }) = false :=
  ⟨(C11_key_equality_fieldwise blurredKey blurredKey (by decide) (by decide) (by decide)
      (by decide)).1.mpr ⟨rfl, rfl, rfl, rfl, rfl⟩,
    (C11_key_equality_fieldwise blurredKey { blurredKey with fUniqueID := 8 } (by decide)
      (by decide) (by decide) (by decide)).2 (by decide)⟩

theorem KeyStorage.eq_reads_padding :
    KeyStorage.eq { fields := blurredKey, padding := [1, 0, 0] }
      (KeyStorage.ctor.assign blurredKey) = false := by
  decide
/-! ## Per-format vertex stride -/

/-- C12 (amended). `GetVertexStride` returns the plain position+texcoord vertex
size (`sizeof(SkPoint) + sizeof(SkIPoint16)`, 12 bytes) for the color mask
format `kARGB_GrMaskFormat`, and the position+color+texcoord vertex size
(`sizeof(SkPoint) + sizeof(GrColor) + sizeof(SkIPoint16)`, 16 bytes) for the
other mask formats. -/
theorem C12_vertex_stride_per_format (maskFormat : GrMaskFormat) :
    GetVertexStride maskFormat =
      (if maskFormat = GrMaskFormat.kARGB_GrMaskFormat then sizeof_SkPoint + sizeof_SkIPoint16
       else sizeof_SkPoint + sizeof_GrColor + sizeof_SkIPoint16) ∧
    GetVertexStride GrMaskFormat.kARGB_GrMaskFormat = 12 ∧
    GetVertexStride GrMaskFormat.kA8_GrMaskFormat = 16 ∧
    GetVertexStride GrMaskFormat.kA565_GrMaskFormat = 16 := by
  refine ⟨?_, by decide, by decide, by decide⟩
  cases maskFormat <;> decide

/-- C12 (counterexample). For the color mask format the stride is not the
position+color+texcoord size, and for the A8 format it is not the plain
position+texcoord size. -/
theorem C12_counterexample :
    GetVertexStride GrMaskFormat.kARGB_GrMaskFormat ≠
        sizeof_SkPoint + sizeof_GrColor + sizeof_SkIPoint16 ∧
    GetVertexStride GrMaskFormat.kA8_GrMaskFormat ≠ sizeof_SkPoint + sizeof_SkIPoint16 := by
  decide

/-! ## View-matrix setup -/

theorem Blob.setupViewMatrix_fields (invert : SkMatrix → Option SkMatrix) (b : Blob)
    (viewMatrix : SkMatrix) (x y : SkScalar) :
    (b.setupViewMatrix invert viewMatrix x y).fViewMatrix = viewMatrix ∧
    (b.setupViewMatrix invert viewMatrix x y).fInitialViewMatrixInverse =
      (match invert viewMatrix with
       | some inverse => inverse
       | none => SkMatrix.I) ∧
    (b.setupViewMatrix invert viewMatrix x y).fX = x ∧
    (b.setupViewMatrix invert viewMatrix x y).fInitialX = x ∧
    (b.setupViewMatrix invert viewMatrix x y).fY = y ∧
    (b.setupViewMatrix invert viewMatrix x y).fInitialY = y := by
  unfold Blob.setupViewMatrix
  cases invert viewMatrix <;> simp

/-- C13. View-matrix setup: for every view matrix whose inversion fails and
every `(x, y)`, `initReusableBlob` and `initThrowawayBlob` leave `fViewMatrix`
equal to the given matrix, `fInitialViewMatrixInverse` equal to the identity
matrix, `fX = fInitialX = x` and `fY = fInitialY = y`; when inversion succeeds,
`fInitialViewMatrixInverse` is the computed inverse and the other fields are
set the same way. -/
theorem C13_view_matrix_setup (invert : SkMatrix → Option SkMatrix) (b : Blob)
    (color : GrColor) (viewMatrix : SkMatrix) (x y : SkScalar) :
    (invert viewMatrix = none →
      ((b.initReusableBlob invert color viewMatrix x y).fViewMatrix = viewMatrix ∧
       (b.initReusableBlob invert color viewMatrix x y).fInitialViewMatrixInverse
          = SkMatrix.I ∧
       (b.initReusableBlob invert color viewMatrix x y).fX = x ∧
       (b.initReusableBlob invert color viewMatrix x y).fInitialX = x ∧
       (b.initReusableBlob invert color viewMatrix x y).fY = y ∧
       (b.initReusableBlob invert color viewMatrix x y).fInitialY = y) ∧
      ((b.initThrowawayBlob invert viewMatrix x y).fViewMatrix = viewMatrix ∧
       (b.initThrowawayBlob invert viewMatrix x y).fInitialViewMatrixInverse = SkMatrix.I ∧
       (b.initThrowawayBlob invert viewMatrix x y).fX = x ∧
       (b.initThrowawayBlob invert viewMatrix x y).fInitialX = x ∧
       (b.initThrowawayBlob invert viewMatrix x y).fY = y ∧
       (b.initThrowawayBlob invert viewMatrix x y).fInitialY = y)) ∧
    (∀ inverse : SkMatrix, invert viewMatrix = some inverse →
      ((b.initReusableBlob invert color viewMatrix x y).fViewMatrix = viewMatrix ∧
       (b.initReusableBlob invert color viewMatrix x y).fInitialViewMatrixInverse
          = inverse ∧
       (b.initReusableBlob invert color viewMatrix x y).fX = x ∧
       (b.initReusableBlob invert color viewMatrix x y).fInitialX = x ∧
       (b.initReusableBlob invert color viewMatrix x y).fY = y ∧
       (b.initReusableBlob invert color viewMatrix x y).fInitialY = y) ∧
      ((b.initThrowawayBlob invert viewMatrix x y).fViewMatrix = viewMatrix ∧
       (b.initThrowawayBlob invert viewMatrix x y).fInitialViewMatrixInverse = inverse ∧
       (b.initThrowawayBlob invert viewMatrix x y).fX = x ∧
       (b.initThrowawayBlob invert viewMatrix x y).fInitialX = x ∧
       (b.initThrowawayBlob invert viewMatrix x y).fY = y ∧
       (b.initThrowawayBlob invert viewMatrix x y).fInitialY = y)) := by
  have hr := Blob.setupViewMatrix_fields invert { b with fPaintColor := color } viewMatrix x y
  have ht := Blob.setupViewMatrix_fields invert b viewMatrix x y
  constructor
  · intro hnone
    rw [hnone] at hr ht
    exact ⟨hr, ht⟩
  · intro inverse hsome
    rw [hsome] at hr ht
    exact ⟨hr, ht⟩

theorem exactInvert_collapsedMatrix : exactInvert collapsedMatrix = none := by
  simp [exactInvert, SkMatrix.det, collapsedMatrix, SkMatrix.I]

theorem exactInvert_translatedMatrix :
    exactInvert translatedMatrix = some { SkMatrix.I with transX := -5, transY := 3 } := by
  simp [exactInvert, SkMatrix.det, translatedMatrix, SkMatrix.I]

/-- C13 (witness). A collapsed matrix leaves the identity as stored inverse, and the
identity translated by `(5, -3)` leaves its inverse, under exact inversion. -/
theorem C13_view_matrix_setup_witness :
    (zeroBlob.initThrowawayBlob exactInvert collapsedMatrix 1 2).fInitialViewMatrixInverse
      = SkMatrix.I ∧
    (zeroBlob.initReusableBlob exactInvert 9 translatedMatrix 1 2).fInitialViewMatrixInverse
      = { SkMatrix.I with transX := -5, transY := 3 } :=
  ⟨((C13_view_matrix_setup exactInvert zeroBlob 0 collapsedMatrix 1 2).1
      exactInvert_collapsedMatrix).2.2.1,
    ((C13_view_matrix_setup exactInvert zeroBlob 9 translatedMatrix 1 2).2 _
      exactInvert_translatedMatrix).1.2.1⟩

/-! ## Reusable versus throwaway initialisation -/

/-- C14. For every blob state, color, view matrix and `(x, y)`, the state after
`initReusableBlob(color, viewMatrix, x, y)` equals the state after
`initThrowawayBlob(viewMatrix, x, y)` with `fPaintColor` set to `color`, and
`initThrowawayBlob` leaves `fPaintColor` unchanged. -/
theorem C14_reusable_is_throwaway_with_color (invert : SkMatrix → Option SkMatrix) (b : Blob)
    (color : GrColor) (viewMatrix : SkMatrix) (x y : SkScalar) :
    b.initReusableBlob invert color viewMatrix x y =
        { b.initThrowawayBlob invert viewMatrix x y with fPaintColor := color } ∧
    (b.initThrowawayBlob invert viewMatrix x y).fPaintColor = b.fPaintColor := by
  unfold Blob.initReusableBlob Blob.initThrowawayBlob Blob.setupViewMatrix
  cases invert viewMatrix <;> exact ⟨rfl, rfl⟩

/-! ## initOverride -/

theorem Blob.initOverride_eq_step (b : Blob) (runIndex : Nat) :
    b.initOverride runIndex = b.step (.onRun runIndex .initOverride) := rfl

/-- C15. For every well-formed blob and valid `runIndex`, `initOverride(runIndex)`
is defined and increases the number of sub-runs of that run by exactly one; the
new last sub-run is empty (`glyphCount() = 0`, `byteCount() = 0`) and starts at
the previous last sub-run's glyph and vertex end indices; the run's override
descriptor is present afterwards; the run's earlier sub-runs and all other
runs are unchanged. -/
theorem C15_initOverride_postcondition (b : Blob) (runIndex : Nat) (hwf : b.WellFormed)
    (hvalid : runIndex < b.fRuns.length) :
    ∃ b2 run run2 prevLast newLast,
      b.initOverride runIndex = some b2 ∧
      b.fRuns[runIndex]? = some run ∧ b2.fRuns[runIndex]? = some run2 ∧
      back? run.fSubRunInfo = some prevLast ∧
      run2.fSubRunInfo = run.fSubRunInfo ++ [newLast] ∧
      run2.fSubRunInfo.length = run.fSubRunInfo.length + 1 ∧
      newLast.glyphCount = 0 ∧ newLast.byteCount = 0 ∧
      newLast.glyphStartIndex = prevLast.glyphEndIndex ∧
      newLast.vertexStartIndex = prevLast.vertexEndIndex ∧
      run2.fOverrideDescriptor.isSome = true ∧
      b2.fRuns.length = b.fRuns.length ∧
      (∀ j : Nat, j ≠ runIndex → b2.fRuns[j]? = b.fRuns[j]?) := by
  have hrun : b.fRuns[runIndex]? = some b.fRuns[runIndex] := List.getElem?_eq_getElem hvalid
  obtain ⟨init, x, hx⟩ := exists_concat_of_ne_nil (hwf.2 _ (List.getElem_mem hvalid))
  have hstep : (b.fRuns[runIndex]).initOverride =
      some { b.fRuns[runIndex] with
        fSubRunInfo := init ++ [x] ++ [SubRunInfo.ctor.setAsSuccessor x]
        fOverrideDescriptor := some { fDesc := none } } := by
    simp only [Run.initOverride, Run.push_back_concat _ init x hx]
  have hm := modifyAt_eq hrun hstep
  refine ⟨{ b with fRuns := b.fRuns.set runIndex { b.fRuns[runIndex] with
        fSubRunInfo := init ++ [x] ++ [SubRunInfo.ctor.setAsSuccessor x]
        fOverrideDescriptor := some { fDesc := none } } },
    b.fRuns[runIndex],
    { b.fRuns[runIndex] with
        fSubRunInfo := init ++ [x] ++ [SubRunInfo.ctor.setAsSuccessor x]
        fOverrideDescriptor := some { fDesc := none } },
    x, SubRunInfo.ctor.setAsSuccessor x, ?_, hrun, ?_, ?_, ?_, ?_, ?_, ?_, rfl, rfl, rfl,
    ?_, ?_⟩
  · simp only [Blob.initOverride, hm]
  · simp [hvalid]
  · simp [back?, hx]
  · simp [hx]
  · simp [hx]
  · simp [SubRunInfo.glyphCount, SubRunInfo.setAsSuccessor]
  · simp [SubRunInfo.byteCount, SubRunInfo.setAsSuccessor]
  · simp
  · intro j hj
    simp [List.getElem?_set, Ne.symm hj]

/-- C15 (witness). `initOverride(1)` on a freshly created two-run blob. -/
theorem C15_initOverride_postcondition_witness :
    (Create zeroBlob 2).WellFormed ∧ 1 < (Create zeroBlob 2).fRuns.length ∧
    ∃ b2, (Create zeroBlob 2).initOverride 1 = some b2 ∧ b2.fRuns.length = 2 := by
  have hlen : 1 < (Create zeroBlob 2).fRuns.length := by decide
  obtain ⟨b2, _, _, _, _, h, _, _, _, _, _, _, _, _, _, _, hl, _⟩ :=
    C15_initOverride_postcondition (Create zeroBlob 2) 1 (Create_wellFormed _ _) hlen
  exact ⟨Create_wellFormed _ _, hlen, b2, h, hl⟩

/-! ## Terminal markings -/

theorem Run.KeepsMarkings_run_refl (r : Run) : r.KeepsMarkings r :=
  ⟨fun h => h, fun _ s hs => ⟨s, hs, fun h => h⟩⟩

theorem Run.KeepsMarkings_run_trans {r1 r2 r3 : Run} (h12 : r1.KeepsMarkings r2)
    (h23 : r2.KeepsMarkings r3) : r1.KeepsMarkings r3 := by
  refine ⟨fun h => h23.1 (h12.1 h), fun j s hs => ?_⟩
  obtain ⟨s2, hs2, hd2⟩ := h12.2 j s hs
  obtain ⟨s3, hs3, hd3⟩ := h23.2 j s2 hs2
  exact ⟨s3, hs3, fun h => hd3 (hd2 h)⟩

theorem Blob.KeepsMarkings_refl (b : Blob) : b.KeepsMarkings b :=
  fun _ r hr => ⟨r, hr, Run.KeepsMarkings_run_refl r⟩

theorem Blob.KeepsMarkings_trans {b1 b2 b3 : Blob} (h12 : b1.KeepsMarkings b2)
    (h23 : b2.KeepsMarkings b3) : b1.KeepsMarkings b3 := by
  intro i r hr
  obtain ⟨r2, hr2, hk2⟩ := h12 i r hr
  obtain ⟨r3, hr3, hk3⟩ := h23 i r2 hr2
  exact ⟨r3, hr3, Run.KeepsMarkings_run_trans hk2 hk3⟩

theorem Blob.KeepsMarkings_of_fRuns_eq {b b2 : Blob} (h : b2.fRuns = b.fRuns) :
    b.KeepsMarkings b2 := by
  intro i r hr
  exact ⟨r, by rw [h]; exact hr, Run.KeepsMarkings_run_refl r⟩

theorem Blob.KeepsMarkings_set {b : Blob} {i : Nat} {r r2 : Run}
    (hr : b.fRuns[i]? = some r) (hk : r.KeepsMarkings r2) :
    b.KeepsMarkings { b with fRuns := b.fRuns.set i r2 } := by
  intro j q hq
  have hi : i < b.fRuns.length := (List.getElem?_eq_some.mp hr).1
  by_cases hij : i = j
  · subst hij
    rw [hr] at hq
    cases hq
    exact ⟨r2, by simp [hi], hk⟩
  · exact ⟨q, by simp [List.getElem?_set, hij, hq], Run.KeepsMarkings_run_refl q⟩

theorem keepsMarkings_push {init : List SubRunInfo} {x y : SubRunInfo} :
    ∀ (j : Nat) (s : SubRunInfo), (init ++ [x])[j]? = some s →
      ∃ s2, (init ++ [x] ++ [y])[j]? = some s2 ∧
        (s.drawAsDistanceFields = true → s2.drawAsDistanceFields = true) := by
  intro j s hs
  have hj : j < (init ++ [x]).length := (List.getElem?_eq_some.mp hs).1
  exact ⟨s, by rw [List.getElem?_append_left hj]; exact hs, fun h => h⟩

theorem keepsMarkings_replace {init : List SubRunInfo} {x y : SubRunInfo}
    (hxy : x.drawAsDistanceFields = true → y.drawAsDistanceFields = true) :
    ∀ (j : Nat) (s : SubRunInfo), (init ++ [x])[j]? = some s →
      ∃ s2, (init ++ [y])[j]? = some s2 ∧
        (s.drawAsDistanceFields = true → s2.drawAsDistanceFields = true) := by
  intro j s hs
  by_cases hj : j < init.length
  · rw [List.getElem?_append_left hj] at hs
    exact ⟨s, by rw [List.getElem?_append_left hj]; exact hs, fun h => h⟩
  · have hlen : j < (init ++ [x]).length := (List.getElem?_eq_some.mp hs).1
    have hje : j = init.length := by
      simp only [List.length_append, List.length_singleton] at hlen
      omega
    subst hje
    rw [List.getElem?_concat_length] at hs
    cases hs
    exact ⟨y, List.getElem?_concat_length _ _, hxy⟩

theorem Run.runStep_keepsMarkings {r r2 : Run} {op : RunOp} (h : r.step op = some r2) :
    r.KeepsMarkings r2 := by
  cases op with
  | push_back =>
    obtain ⟨init, x, hx, rfl⟩ := Run.push_back_some h
    exact ⟨fun hp => hp, by rw [hx]; exact keepsMarkings_push⟩
  | initOverride =>
    simp only [Run.step, Run.initOverride] at h
    cases hp : r.push_back with
    | none => simp [hp] at h
    | some r1 =>
      obtain ⟨init, x, hx, rfl⟩ := Run.push_back_some hp
      simp only [hp, Option.some.injEq] at h
      subst h
      exact ⟨fun hp => hp, by rw [hx]; exact keepsMarkings_push⟩
  | appendVertices st =>
    simp only [Run.step, Run.appendVertices] at h
    cases hm : modifyBack r.fSubRunInfo (fun s => s.appendVertices st) with
    | none => simp [hm] at h
    | some arr =>
      obtain ⟨init, x, hx, rfl⟩ := modifyBack_some hm
      simp only [hm, Option.some.injEq] at h
      subst h
      exact ⟨fun hp => hp, by rw [hx]; exact keepsMarkings_replace (fun hd => hd)⟩
  | glyphAppended =>
    simp only [Run.step, Run.glyphAppended] at h
    cases hm : modifyBack r.fSubRunInfo (fun s => s.glyphAppended) with
    | none => simp [hm] at h
    | some arr =>
      obtain ⟨init, x, hx, rfl⟩ := modifyBack_some hm
      simp only [hm, Option.some.injEq] at h
      subst h
      exact ⟨fun hp => hp, by rw [hx]; exact keepsMarkings_replace (fun hd => hd)⟩

theorem Blob.step_keepsMarkings {b b2 : Blob} {op : BlobOp} (h : b.step op = some b2) :
    b.KeepsMarkings b2 := by
  cases op with
  | push_back_run currRun =>
    rcases Blob.push_back_run_some h with rfl | ⟨prevRun, lastRun, run, init, x, _, _, hrun,
      hx, rfl⟩
    · exact Blob.KeepsMarkings_refl _
    · exact Blob.KeepsMarkings_set hrun
        ⟨fun hp => hp, by rw [hx]; exact keepsMarkings_replace (fun hd => hd)⟩
  | onRun i rop =>
    obtain ⟨run, run2, hrun, hf, rfl⟩ := Blob.step_onRun_some h
    exact Blob.KeepsMarkings_set hrun (Run.runStep_keepsMarkings hf)

theorem Blob.setSubRunHasDistanceFields_some {b b2 : Blob} {i : Nat} {hasLCD : Bool}
    (h : b.setSubRunHasDistanceFields i hasLCD = some b2) :
    ∃ run init x, b.fRuns[i]? = some run ∧ run.fSubRunInfo = init ++ [x] ∧
      b2 = { b with
        fRuns := b.fRuns.set i { run with
          fSubRunInfo := init ++ [(x.setUseLCDText hasLCD).setDrawAsDistanceFields] } } := by
  unfold Blob.setSubRunHasDistanceFields at h
  split at h
  · exact absurd h (by simp)
  · rename_i runs hm
    obtain ⟨run, run2, hrun, hf, rfl⟩ := modifyAt_some hm
    cases hmb : modifyBack run.fSubRunInfo
        (fun subRun => (subRun.setUseLCDText hasLCD).setDrawAsDistanceFields) with
    | none => simp [hmb] at hf
    | some arr =>
      obtain ⟨init, x, hx, rfl⟩ := modifyBack_some hmb
      simp only [hmb, Option.some.injEq] at hf
      subst hf
      exact ⟨run, init, x, hrun, hx, (Option.some.inj h).symm⟩

theorem Blob.setRunDrawAsPaths_some {b b2 : Blob} {i : Nat}
    (h : b.setRunDrawAsPaths i = some b2) :
    ∃ run, b.fRuns[i]? = some run ∧
      b2 = { b with fRuns := b.fRuns.set i { run with fDrawAsPaths := true } } := by
  unfold Blob.setRunDrawAsPaths at h
  split at h
  · exact absurd h (by simp)
  · rename_i runs hm
    obtain ⟨run, run2, hrun, hf, rfl⟩ := modifyAt_some hm
    simp only [Option.some.injEq] at hf
    subst hf
    exact ⟨run, hrun, (Option.some.inj h).symm⟩

theorem Blob.fRuns_setupKey (b : Blob) (key : Key) (blurRec : BlurRec) (paint : SkPaint) :
    (b.setupKey key blurRec paint).fRuns = b.fRuns ∧
    (b.setupKey key blurRec paint).fRunCount = b.fRunCount := by
  unfold Blob.setupKey
  by_cases hblur : key.fHasBlur = true <;> by_cases hstyle : key.fStyle = Style.kFill_Style <;>
    simp [hblur, hstyle]

theorem Blob.fRuns_setupViewMatrix (invert : SkMatrix → Option SkMatrix) (b : Blob)
    (viewMatrix : SkMatrix) (x y : SkScalar) :
    (b.setupViewMatrix invert viewMatrix x y).fRuns = b.fRuns ∧
    (b.setupViewMatrix invert viewMatrix x y).fRunCount = b.fRunCount := by
  unfold Blob.setupViewMatrix
  cases invert viewMatrix <;> exact ⟨rfl, rfl⟩

theorem Blob.mutStep_cases {invert : SkMatrix → Option SkMatrix} {b b2 : Blob} {op : MutOp}
    (h : b.mutStep invert op = some b2) :
    (∃ bop, b.step bop = some b2) ∨
    (∃ i hasLCD, b.setSubRunHasDistanceFields i hasLCD = some b2) ∨
    (∃ i, b.setRunDrawAsPaths i = some b2) ∨
    (b2.fRuns = b.fRuns ∧ b2.fRunCount = b.fRunCount) := by
  cases op with
  | build bop => exact Or.inl ⟨bop, h⟩
  | setSubRunHasDistanceFields i hasLCD => exact Or.inr (Or.inl ⟨i, hasLCD, h⟩)
  | setRunDrawAsPaths i => exact Or.inr (Or.inr (Or.inl ⟨i, h⟩))
  | setMinAndMaxScale scaledMax scaledMin =>
    simp only [Blob.mutStep, Option.some.injEq] at h
    subst h
    exact Or.inr (Or.inr (Or.inr ⟨rfl, rfl⟩))
  | setupKey key blurRec paint =>
    simp only [Blob.mutStep, Option.some.injEq] at h
    subst h
    exact Or.inr (Or.inr (Or.inr (Blob.fRuns_setupKey b key blurRec paint)))
  | initReusableBlob color viewMatrix x y =>
    simp only [Blob.mutStep, Option.some.injEq] at h
    subst h
    exact Or.inr (Or.inr (Or.inr (Blob.fRuns_setupViewMatrix invert _ viewMatrix x y)))
  | initThrowawayBlob viewMatrix x y =>
    simp only [Blob.mutStep, Option.some.injEq] at h
    subst h
    exact Or.inr (Or.inr (Or.inr (Blob.fRuns_setupViewMatrix invert b viewMatrix x y)))
  | setHasBitmap =>
    simp only [Blob.mutStep, Option.some.injEq] at h
    subst h
    exact Or.inr (Or.inr (Or.inr ⟨rfl, rfl⟩))
  | setHasDistanceField =>
    simp only [Blob.mutStep, Option.some.injEq] at h
    subst h
    exact Or.inr (Or.inr (Or.inr ⟨rfl, rfl⟩))

theorem Blob.mutStep_keepsMarkings {invert : SkMatrix → Option SkMatrix} {b b2 : Blob}
    {op : MutOp} (h : b.mutStep invert op = some b2) : b.KeepsMarkings b2 := by
  rcases Blob.mutStep_cases h with
    ⟨bop, hb⟩ | ⟨i, hasLCD, hd⟩ | ⟨i, hp⟩ | ⟨hruns, _⟩
  · exact Blob.step_keepsMarkings hb
  · obtain ⟨run, init, x, hrun, hx, rfl⟩ := Blob.setSubRunHasDistanceFields_some hd
    exact Blob.KeepsMarkings_set hrun
      ⟨fun hp => hp, by rw [hx]; exact keepsMarkings_replace (fun _ => rfl)⟩
  · obtain ⟨run, hrun, rfl⟩ := Blob.setRunDrawAsPaths_some hp
    exact Blob.KeepsMarkings_set hrun ⟨fun _ => rfl, fun j s hs => ⟨s, hs, fun hd => hd⟩⟩
  · exact Blob.KeepsMarkings_of_fRuns_eq hruns

theorem Blob.mutSteps_keepsMarkings {invert : SkMatrix → Option SkMatrix} (ops : List MutOp) :
    ∀ {b b2 : Blob}, b.mutSteps invert ops = some b2 → b.KeepsMarkings b2 := by
  induction ops with
  | nil =>
    intro b b2 h
    simp only [Blob.mutSteps, Option.some.injEq] at h
    subst h
    exact Blob.KeepsMarkings_refl _
  | cons op ops ih =>
    intro b b2 h
    simp only [Blob.mutSteps] at h
    cases hs : b.mutStep invert op with
    | none => simp [hs] at h
    | some b1 =>
      rw [hs] at h
      exact Blob.KeepsMarkings_trans (Blob.mutStep_keepsMarkings hs) (ih h)

/-- C16. Terminal markings are never undone: once `setRunDrawAsPaths(i)` has
been called, run `i` has `fDrawAsPaths` true after every later sequence of
mutating operations (`push_back_run`, `initOverride` and the other run
operations, `setSubRunHasDistanceFields`, `setRunDrawAsPaths` on any run,
`setMinAndMaxScale`, `setupKey`, `initReusableBlob`, `initThrowawayBlob`,
`setHasBitmap`, `setHasDistanceField`); likewise the sub-run marked by
`setSubRunHasDistanceFields` (the last sub-run of its run at the time of the
call) keeps `drawAsDistanceFields()` true under all of them. -/
theorem C16_terminal_markings_persist (invert : SkMatrix → Option SkMatrix)
    (b b1 b2 : Blob) (i : Nat) (ops : List MutOp)
    (hops : b1.mutSteps invert ops = some b2) :
    (b.setRunDrawAsPaths i = some b1 →
      ∃ r, b2.fRuns[i]? = some r ∧ r.fDrawAsPaths = true) ∧
    (∀ (hasLCD : Bool) (run : Run), b.fRuns[i]? = some run →
      b.setSubRunHasDistanceFields i hasLCD = some b1 →
      ∃ r s, b2.fRuns[i]? = some r ∧
        r.fSubRunInfo[run.fSubRunInfo.length - 1]? = some s ∧
        s.drawAsDistanceFields = true) := by
  have hk := Blob.mutSteps_keepsMarkings ops hops
  constructor
  · intro hp
    obtain ⟨run, hrun, rfl⟩ := Blob.setRunDrawAsPaths_some hp
    have hi : i < b.fRuns.length := (List.getElem?_eq_some.mp hrun).1
    obtain ⟨r, hr, hkr⟩ := hk i { run with fDrawAsPaths := true } (by simp [hi])
    exact ⟨r, hr, hkr.1 rfl⟩
  · intro hasLCD run hrun hd
    obtain ⟨run0, init, x, hrun0, hx, rfl⟩ := Blob.setSubRunHasDistanceFields_some hd
    rw [hrun] at hrun0
    cases hrun0
    have hi : i < b.fRuns.length := (List.getElem?_eq_some.mp hrun).1
    obtain ⟨r, hr, hkr⟩ := hk i
      { run with fSubRunInfo := init ++ [(x.setUseLCDText hasLCD).setDrawAsDistanceFields] }
      (by simp [hi])
    have hlen : run.fSubRunInfo.length - 1 = init.length := by simp [hx]
    obtain ⟨s, hs, hds⟩ := hkr.2 init.length
      ((x.setUseLCDText hasLCD).setDrawAsDistanceFields) (List.getElem?_concat_length _ _)
    exact ⟨r, s, hr, by rw [hlen]; exact hs, hds rfl⟩

/-- C16 (witness). Run 0 of a two-run blob marked as paths, and its sub-run
marked for distance fields, then taken through `exampleMutations`. -/
theorem C16_terminal_markings_persist_witness :
    (∃ b1 b2 r, (Create zeroBlob 2).setRunDrawAsPaths 0 = some b1 ∧
      b1.mutSteps exactInvert exampleMutations = some b2 ∧
      b2.fRuns[0]? = some r ∧ r.fDrawAsPaths = true) ∧
    (∃ b1 b2 r s, (Create zeroBlob 2).setSubRunHasDistanceFields 0 true = some b1 ∧
      b1.mutSteps exactInvert exampleMutations = some b2 ∧
      b2.fRuns[0]? = some r ∧ r.fSubRunInfo[0]? = some s ∧
      s.drawAsDistanceFields = true) := by
  constructor
  · obtain ⟨b1, h1⟩ : ∃ b1, (Create zeroBlob 2).setRunDrawAsPaths 0 = some b1 := ⟨_, rfl⟩
    obtain ⟨b2, h2⟩ : ∃ b2, b1.mutSteps exactInvert exampleMutations = some b2 := by
      cases h1
      exact ⟨_, rfl⟩
    obtain ⟨r, hr, hp⟩ :=
      (C16_terminal_markings_persist exactInvert (Create zeroBlob 2) b1 b2 0
        exampleMutations h2).1 h1
    exact ⟨b1, b2, r, h1, h2, hr, hp⟩
  · obtain ⟨b1, h1⟩ :
        ∃ b1, (Create zeroBlob 2).setSubRunHasDistanceFields 0 true = some b1 :=
      ⟨_, rfl⟩
    obtain ⟨b2, h2⟩ : ∃ b2, b1.mutSteps exactInvert exampleMutations = some b2 := by
      cases h1
      exact ⟨_, rfl⟩
    obtain ⟨r, s, hr, hs, hd⟩ :=
      (C16_terminal_markings_persist exactInvert (Create zeroBlob 2) b1 b2 0
        exampleMutations h2).2 true Run.ctor rfl h1
    exact ⟨b1, b2, r, s, h1, h2, hr, hs, hd⟩

/-! ## The scale band as an intersection -/

theorem foldr_max_le_iff (l : List SkScalar) (a x : SkScalar) :
    l.foldr max a ≤ x ↔ a ≤ x ∧ ∀ m ∈ l, m ≤ x := by
  induction l with
  | nil => simp
  | cons m l ih =>
    simp only [List.foldr_cons, max_le_iff, ih, List.mem_cons, forall_eq_or_imp]
    tauto

theorem le_foldr_min_iff (l : List SkScalar) (a x : SkScalar) :
    x ≤ l.foldr min a ↔ x ≤ a ∧ ∀ m ∈ l, x ≤ m := by
  induction l with
  | nil => simp
  | cons m l ih =>
    simp only [List.foldr_cons, le_min_iff, ih, List.mem_cons, forall_eq_or_imp]
    tauto

theorem Blob.fMaxMinScale_setMinAndMaxScales (b : Blob) (calls : List (SkScalar × SkScalar)) :
    (b.setMinAndMaxScales calls).fMaxMinScale =
      (calls.map Prod.fst).foldr max b.fMaxMinScale := by
  apply le_antisymm
  · rw [Blob.fMaxMinScale_le_iff]
    have h := (foldr_max_le_iff (calls.map Prod.fst) b.fMaxMinScale _).mp (le_refl _)
    exact ⟨h.1, fun c hc => h.2 c.1 (List.mem_map_of_mem _ hc)⟩
  · rw [foldr_max_le_iff]
    have h := (Blob.fMaxMinScale_le_iff calls b _).mp (le_refl _)
    refine ⟨h.1, fun m hm => ?_⟩
    obtain ⟨c, hc, rfl⟩ := List.mem_map.mp hm
    exact h.2 c hc

theorem Blob.fMinMaxScale_setMinAndMaxScales (b : Blob) (calls : List (SkScalar × SkScalar)) :
    (b.setMinAndMaxScales calls).fMinMaxScale =
      (calls.map Prod.snd).foldr min b.fMinMaxScale := by
  apply le_antisymm
  · rw [le_foldr_min_iff]
    have h := (Blob.le_fMinMaxScale_iff calls b _).mp (le_refl _)
    refine ⟨h.1, fun m hm => ?_⟩
    obtain ⟨c, hc, rfl⟩ := List.mem_map.mp hm
    exact h.2 c hc
  · rw [Blob.le_fMinMaxScale_iff]
    have h := (le_foldr_min_iff (calls.map Prod.snd) b.fMinMaxScale _).mp (le_refl _)
    exact ⟨h.1, fun c hc => h.2 c.2 (List.mem_map_of_mem _ hc)⟩

/-- C17. Scale band is the intersection of all requests: after the calls
`setMinAndMaxScale(M_1, m_1), ..., setMinAndMaxScale(M_n, m_n)` on a freshly
constructed blob, `fMaxMinScale` is the maximum of `-SK_ScalarMax` and all
`M_i` and `fMinMaxScale` is the minimum of `SK_ScalarMax` and all `m_i`, and
both are the same for every order of the calls. -/
theorem C17_scale_band_is_intersection (raw : Blob)
    (calls reordered : List (SkScalar × SkScalar)) :
    ((Blob.ctor raw).setMinAndMaxScales calls).fMaxMinScale =
        (calls.map Prod.fst).foldr max (-SK_ScalarMax) ∧
    ((Blob.ctor raw).setMinAndMaxScales calls).fMinMaxScale =
        (calls.map Prod.snd).foldr min SK_ScalarMax ∧
    (calls.Perm reordered →
      ((Blob.ctor raw).setMinAndMaxScales reordered).fMaxMinScale =
          ((Blob.ctor raw).setMinAndMaxScales calls).fMaxMinScale ∧
      ((Blob.ctor raw).setMinAndMaxScales reordered).fMinMaxScale =
          ((Blob.ctor raw).setMinAndMaxScales calls).fMinMaxScale) := by
  refine ⟨Blob.fMaxMinScale_setMinAndMaxScales _ calls,
    Blob.fMinMaxScale_setMinAndMaxScales _ calls, fun hperm => ⟨?_, ?_⟩⟩
  · apply le_antisymm
    · rw [Blob.fMaxMinScale_le_iff]
      have h := (Blob.fMaxMinScale_le_iff calls (Blob.ctor raw) _).mp (le_refl _)
      exact ⟨h.1, fun c hc => h.2 c (hperm.mem_iff.mpr hc)⟩
    · rw [Blob.fMaxMinScale_le_iff]
      have h := (Blob.fMaxMinScale_le_iff reordered (Blob.ctor raw) _).mp (le_refl _)
      exact ⟨h.1, fun c hc => h.2 c (hperm.mem_iff.mp hc)⟩
  · apply le_antisymm
    · rw [Blob.le_fMinMaxScale_iff]
      have h := (Blob.le_fMinMaxScale_iff reordered (Blob.ctor raw) _).mp (le_refl _)
      exact ⟨h.1, fun c hc => h.2 c (hperm.mem_iff.mp hc)⟩
    · rw [Blob.le_fMinMaxScale_iff]
      have h := (Blob.le_fMinMaxScale_iff calls (Blob.ctor raw) _).mp (le_refl _)
      exact ⟨h.1, fun c hc => h.2 c (hperm.mem_iff.mpr hc)⟩

/-- C17 (witness). Three calls and their reversal: the band is `[3, 4]` both
ways. -/
theorem C17_scale_band_is_intersection_witness :
    ((Blob.ctor zeroBlob).setMinAndMaxScales [(1, 5), (3, 7), (2, 4)]).fMaxMinScale = 3 ∧
    ((Blob.ctor zeroBlob).setMinAndMaxScales [(1, 5), (3, 7), (2, 4)]).fMinMaxScale = 4 ∧
    ((Blob.ctor zeroBlob).setMinAndMaxScales [(2, 4), (3, 7), (1, 5)]).fMaxMinScale = 3 ∧
    ((Blob.ctor zeroBlob).setMinAndMaxScales [(2, 4), (3, 7), (1, 5)]).fMinMaxScale = 4 := by
  have h := C17_scale_band_is_intersection zeroBlob [(1, 5), (3, 7), (2, 4)]
    [(2, 4), (3, 7), (1, 5)]
  have hp : List.Perm [((1 : SkScalar), (5 : SkScalar)), (3, 7), (2, 4)]
      [(2, 4), (3, 7), (1, 5)] := by
    decide
  have h3 : ([((1 : SkScalar), (5 : SkScalar)), (3, 7), (2, 4)].map Prod.fst).foldr max
      (-SK_ScalarMax) = 3 := by
    simp only [List.map, List.foldr, SK_ScalarMax]
    norm_num
  have h4 : ([((1 : SkScalar), (5 : SkScalar)), (3, 7), (2, 4)].map Prod.snd).foldr min
      SK_ScalarMax = 4 := by
    simp only [List.map, List.foldr, SK_ScalarMax]
    norm_num
  obtain ⟨ha, hb, hc⟩ := h
  obtain ⟨hd, he⟩ := hc hp
  exact ⟨ha.trans h3, hb.trans h4, hd.trans (ha.trans h3), he.trans (hb.trans h4)⟩

/-! ## New sub-runs -/

/-- C18. New sub-runs start with invalid texture coordinates: the sub-run made
by the `SubRunInfo` default constructor, and every sub-run made by
`Run::push_back` (also through `initOverride`), has `atlasGeneration()` equal
to `kInvalidAtlasGeneration` and the default attributes (A8 mask format, not
distance-field, not LCD), whatever the preceding sub-run holds: it is the
default sub-run with only the four indices replaced by the predecessor's glyph
and vertex end indices. -/
theorem C18_new_subrun_defaults (r r2 : Run)
    (h : r.push_back = some r2 ∨ r.initOverride = some r2) :
    (SubRunInfo.ctor.atlasGeneration = kInvalidAtlasGeneration ∧
      SubRunInfo.ctor.maskFormat = GrMaskFormat.kA8_GrMaskFormat ∧
      SubRunInfo.ctor.drawAsDistanceFields = false ∧
      SubRunInfo.ctor.hasUseLCDText = false) ∧
    ∃ prev new, back? r.fSubRunInfo = some prev ∧ back? r2.fSubRunInfo = some new ∧
      r2.fSubRunInfo = r.fSubRunInfo ++ [new] ∧
      new = { SubRunInfo.ctor with
        fGlyphStartIndex := prev.glyphEndIndex, fGlyphEndIndex := prev.glyphEndIndex
        fVertexStartIndex := prev.vertexEndIndex, fVertexEndIndex := prev.vertexEndIndex } ∧
      new.atlasGeneration = kInvalidAtlasGeneration ∧
      new.maskFormat = GrMaskFormat.kA8_GrMaskFormat ∧
      new.drawAsDistanceFields = false ∧
      new.hasUseLCDText = false := by
  refine ⟨⟨rfl, rfl, rfl, rfl⟩, ?_⟩
  have key : ∃ init x, r.fSubRunInfo = init ++ [x] ∧
      r2.fSubRunInfo = init ++ [x] ++ [SubRunInfo.ctor.setAsSuccessor x] := by
    rcases h with h | h
    · obtain ⟨init, x, hx, rfl⟩ := Run.push_back_some h
      exact ⟨init, x, hx, rfl⟩
    · simp only [Run.initOverride] at h
      cases hp : r.push_back with
      | none => simp [hp] at h
      | some r1 =>
        obtain ⟨init, x, hx, rfl⟩ := Run.push_back_some hp
        simp only [hp, Option.some.injEq] at h
        subst h
        exact ⟨init, x, hx, rfl⟩
  obtain ⟨init, x, hx, h2⟩ := key
  refine ⟨x, SubRunInfo.ctor.setAsSuccessor x, by simp [back?, hx], by simp [back?, h2],
    by rw [h2, hx], rfl, rfl, rfl, rfl, rfl⟩

/-- C18 (witness). `Run::push_back` on a run whose sub-run holds color glyphs,
atlas generation 5 and both distance-field flags. -/
theorem C18_new_subrun_defaults_witness :
    ∃ r2 new, usedRun.push_back = some r2 ∧ back? r2.fSubRunInfo = some new ∧
      new.atlasGeneration = kInvalidAtlasGeneration ∧
      new.maskFormat = GrMaskFormat.kA8_GrMaskFormat ∧
      new.drawAsDistanceFields = false ∧ new.hasUseLCDText = false ∧
      new.glyphStartIndex = 3 ∧ new.vertexStartIndex = 48 := by
  obtain ⟨r2, h2⟩ : ∃ r2, usedRun.push_back = some r2 := ⟨_, rfl⟩
  obtain ⟨_, prev, new, hprev, hnew, _, heq, hg, hm, hd, hl⟩ :=
    C18_new_subrun_defaults usedRun r2 (Or.inl h2)
  have hp : prev = { SubRunInfo.ctor with
      fAtlasGeneration := 5, fVertexEndIndex := 48, fGlyphEndIndex := 3
      fMaskFormat := .kARGB_GrMaskFormat
      fDrawAsDistanceFields := true, fUseLCDText := true } := by
    have : back? usedRun.fSubRunInfo = some { SubRunInfo.ctor with
      fAtlasGeneration := 5, fVertexEndIndex := 48, fGlyphEndIndex := 3
      fMaskFormat := .kARGB_GrMaskFormat
      fDrawAsDistanceFields := true, fUseLCDText := true } := rfl
    rw [this] at hprev
    exact (Option.some.inj hprev).symm
  refine ⟨r2, new, h2, hnew, hg, hm, hd, hl, ?_, ?_⟩
  · rw [heq, hp]; rfl
  · rw [heq, hp]; rfl

/-! ## Every run always has a sub-run -/

theorem Blob.step_wellFormed {b b2 : Blob} {op : BlobOp} (hwf : b.WellFormed)
    (h : b.step op = some b2) : b2.WellFormed := by
  cases op with
  | push_back_run currRun =>
    rcases Blob.push_back_run_some h with rfl | ⟨_, _, run, init, x, _, _, _, _, rfl⟩
    · exact hwf
    · exact wellFormed_set hwf _ _ (by simp)
  | onRun i rop =>
    obtain ⟨run, run2, hrun, hf, rfl⟩ := Blob.step_onRun_some h
    obtain ⟨init, x, _, hcase⟩ := Run.step_subruns hf
    refine wellFormed_set hwf _ _ ?_
    rcases hcase with h2 | ⟨_, _, h2⟩ | ⟨_, h2⟩ <;> rw [h2] <;> simp

theorem Blob.mutStep_wellFormed {invert : SkMatrix → Option SkMatrix} {b b2 : Blob}
    {op : MutOp} (hwf : b.WellFormed) (h : b.mutStep invert op = some b2) :
    b2.WellFormed := by
  rcases Blob.mutStep_cases h with
    ⟨bop, hb⟩ | ⟨i, hasLCD, hd⟩ | ⟨i, hp⟩ | ⟨hruns, hcount⟩
  · exact Blob.step_wellFormed hwf hb
  · obtain ⟨run, init, x, _, _, rfl⟩ := Blob.setSubRunHasDistanceFields_some hd
    exact wellFormed_set hwf _ _ (by simp)
  · obtain ⟨run, hrun, rfl⟩ := Blob.setRunDrawAsPaths_some hp
    exact wellFormed_set hwf _ _ (hwf.2 run (List.getElem?_mem hrun))
  · exact ⟨by rw [hcount, hruns]; exact hwf.1, by rw [hruns]; exact hwf.2⟩

theorem Blob.mutSteps_wellFormed {invert : SkMatrix → Option SkMatrix} (ops : List MutOp) :
    ∀ {b b2 : Blob}, b.WellFormed → b.mutSteps invert ops = some b2 → b2.WellFormed := by
  induction ops with
  | nil =>
    intro b b2 hwf h
    simp only [Blob.mutSteps, Option.some.injEq] at h
    subst h
    exact hwf
  | cons op ops ih =>
    intro b b2 hwf h
    simp only [Blob.mutSteps] at h
    cases hs : b.mutStep invert op with
    | none => simp [hs] at h
    | some b1 =>
      rw [hs] at h
      exact ih (Blob.mutStep_wellFormed hwf hs) h

theorem Blob.setSubRunHasDistanceFields_defined {b : Blob} (hwf : b.WellFormed) {i : Nat}
    (hi : i < b.fRuns.length) (hasLCD : Bool) :
    ∃ b2, b.setSubRunHasDistanceFields i hasLCD = some b2 := by
  have hrun : b.fRuns[i]? = some b.fRuns[i] := List.getElem?_eq_getElem hi
  obtain ⟨init, x, hx⟩ := exists_concat_of_ne_nil (hwf.2 _ (List.getElem_mem hi))
  have hm : modifyAt b.fRuns i (fun run =>
      match modifyBack run.fSubRunInfo
          (fun subRun => (subRun.setUseLCDText hasLCD).setDrawAsDistanceFields) with
      | none => none
      | some arr => some { run with fSubRunInfo := arr }) =
      some (b.fRuns.set i { b.fRuns[i] with
        fSubRunInfo := init ++ [(x.setUseLCDText hasLCD).setDrawAsDistanceFields] }) :=
    modifyAt_eq hrun (by rw [hx, modifyBack_concat])
  exact ⟨{ b with fRuns := b.fRuns.set i { b.fRuns[i] with
      fSubRunInfo := init ++ [(x.setUseLCDText hasLCD).setDrawAsDistanceFields] } },
    by simp only [Blob.setSubRunHasDistanceFields, hm]⟩

/-- C19. Every run always has a sub-run: a freshly constructed run has exactly
one sub-run, empty and with all four indices 0; and in every blob reached from
a freshly created one by any sequence of mutating operations every run has at
least one sub-run, so that `fSubRunInfo.back()` in `push_back_run` and
`setSubRunHasDistanceFields` and `fSubRunInfo.fromBack(1)` in `Run::push_back`
address an element: these three are defined for every run of the blob. -/
theorem C19_run_always_has_subrun (invert : SkMatrix → Option SkMatrix) (raw : Blob)
    (runCount : Nat) (ops : List MutOp) (b : Blob)
    (h : (Create raw runCount).mutSteps invert ops = some b) :
    (Run.ctor.fSubRunInfo = [SubRunInfo.ctor] ∧
      SubRunInfo.ctor.glyphStartIndex = 0 ∧ SubRunInfo.ctor.glyphEndIndex = 0 ∧
      SubRunInfo.ctor.vertexStartIndex = 0 ∧ SubRunInfo.ctor.vertexEndIndex = 0 ∧
      SubRunInfo.ctor.glyphCount = 0 ∧ SubRunInfo.ctor.byteCount = 0) ∧
    (∀ r ∈ b.fRuns, 1 ≤ r.fSubRunInfo.length) ∧
    (∀ r ∈ b.fRuns, ∃ last, back? r.fSubRunInfo = some last) ∧
    (∀ currRun : Int, 0 < currRun → currRun < b.fRunCount →
      ∃ b2, b.push_back_run currRun = some b2) ∧
    (∀ (runIndex : Nat) (hasLCD : Bool), runIndex < b.fRuns.length →
      ∃ b2, b.setSubRunHasDistanceFields runIndex hasLCD = some b2) ∧
    (∀ r ∈ b.fRuns, ∃ r2, r.push_back = some r2) := by
  have hwf : b.WellFormed := Blob.mutSteps_wellFormed ops (Create_wellFormed raw runCount) h
  refine ⟨⟨rfl, rfl, rfl, rfl, rfl, rfl, rfl⟩, ?_, ?_, ?_, ?_, ?_⟩
  · intro r hr
    obtain ⟨init, x, hx⟩ := exists_concat_of_ne_nil (hwf.2 r hr)
    simp [hx]
  · intro r hr
    obtain ⟨init, x, hx⟩ := exists_concat_of_ne_nil (hwf.2 r hr)
    exact ⟨x, by simp [back?, hx]⟩
  · intro currRun hpos hlt
    obtain ⟨m, rfl⟩ := Int.eq_ofNat_of_zero_le (le_of_lt hpos)
    obtain ⟨n, rfl⟩ : ∃ n, m = n + 1 := ⟨m - 1, by omega⟩
    have hlen : n + 1 < b.fRuns.length := by
      have := hwf.1
      omega
    obtain ⟨b2, h2, _⟩ := Blob.push_back_run_defined hwf hlen
    exact ⟨b2, by simpa using h2⟩
  · intro runIndex hasLCD hi
    exact Blob.setSubRunHasDistanceFields_defined hwf hi hasLCD
  · intro r hr
    obtain ⟨init, x, hx⟩ := exists_concat_of_ne_nil (hwf.2 r hr)
    exact ⟨_, Run.push_back_concat r init x hx⟩

/-- C19 (witness). The two-run blob taken through `exampleMutations`: both runs
still have a sub-run. -/
theorem C19_run_always_has_subrun_witness :
    ∃ b, (Create zeroBlob 2).mutSteps exactInvert exampleMutations = some b ∧
      ∀ r ∈ b.fRuns, 1 ≤ r.fSubRunInfo.length :=
  ⟨_, rfl, (C19_run_always_has_subrun exactInvert zeroBlob 2 exampleMutations _ rfl).2.1⟩

/-! ## The text-type flags -/

theorem testBit_two (i : Nat) : Nat.testBit 2 i = decide (1 = i) :=
  @Nat.testBit_two_pow 1 i

theorem testBit_one (i : Nat) : Nat.testBit 1 i = decide (0 = i) :=
  @Nat.testBit_two_pow 0 i

theorem and_one_ne_zero_iff (x : Nat) : x &&& 1 ≠ 0 ↔ x.testBit 0 = true := by
  rw [Nat.and_one_is_mod, Nat.testBit_zero]
  simp only [decide_eq_true_eq]
  omega

theorem and_two_eq (x : Nat) : x &&& 2 = if x.testBit 1 = true then 2 else 0 := by
  apply Nat.eq_of_testBit_eq
  intro i
  rw [Nat.testBit_and, testBit_two]
  by_cases h : 1 = i
  · subst h
    cases hx : x.testBit 1 <;> simp [testBit_two]
  · cases hx : x.testBit 1 <;> simp [h, testBit_two]

theorem and_two_ne_zero_iff (x : Nat) : x &&& 2 ≠ 0 ↔ x.testBit 1 = true := by
  rw [and_two_eq]
  cases hx : x.testBit 1 <;> simp

theorem testBit_or_mod_256 (x m i : Nat) :
    ((x ||| m) % 256).testBit i = (decide (i < 8) && (x.testBit i || m.testBit i)) := by
  have h : (256 : Nat) = 2 ^ 8 := by norm_num
  rw [h, Nat.testBit_mod_two_pow, Nat.testBit_or]

theorem Blob.hasDistanceField_eq_testBit (b : Blob) :
    b.hasDistanceField = b.fTextType.testBit 0 := by
  unfold Blob.hasDistanceField Blob.kHasDistanceField_TextType
  cases hx : b.fTextType.testBit 0
  · exact decide_eq_false (fun h => by rw [(and_one_ne_zero_iff _).1 h] at hx; cases hx)
  · exact decide_eq_true ((and_one_ne_zero_iff _).2 hx)

theorem Blob.hasBitmap_eq_testBit (b : Blob) :
    b.hasBitmap = b.fTextType.testBit 1 := by
  unfold Blob.hasBitmap Blob.kHasBitmap_TextType
  cases hx : b.fTextType.testBit 1
  · exact decide_eq_false (fun h => by rw [(and_two_ne_zero_iff _).1 h] at hx; cases hx)
  · exact decide_eq_true ((and_two_ne_zero_iff _).2 hx)

theorem or_mod_256_idem (x m : Nat) :
    (((x ||| m) % 256) ||| m) % 256 = (x ||| m) % 256 := by
  apply Nat.eq_of_testBit_eq
  intro i
  rw [testBit_or_mod_256, testBit_or_mod_256]
  cases decide (i < 8) <;> cases x.testBit i <;> cases m.testBit i <;> rfl

theorem or_mod_256_comm (x m n : Nat) :
    (((x ||| m) % 256) ||| n) % 256 = (((x ||| n) % 256) ||| m) % 256 := by
  apply Nat.eq_of_testBit_eq
  intro i
  rw [testBit_or_mod_256, testBit_or_mod_256, testBit_or_mod_256, testBit_or_mod_256]
  cases decide (i < 8) <;> cases x.testBit i <;> cases m.testBit i <;> cases n.testBit i <;> rfl

theorem Blob.step_fTextType {b b2 : Blob} {op : BlobOp} (h : b.step op = some b2) :
    b2.fTextType = b.fTextType := by
  cases op with
  | push_back_run currRun =>
    rcases Blob.push_back_run_some h with rfl | ⟨_, _, _, _, _, _, _, _, _, rfl⟩
    · rfl
    · rfl
  | onRun i rop =>
    obtain ⟨_, _, _, _, rfl⟩ := Blob.step_onRun_some h
    rfl

theorem Blob.fTextType_setupKey (b : Blob) (key : Key) (blurRec : BlurRec) (paint : SkPaint) :
    (b.setupKey key blurRec paint).fTextType = b.fTextType := by
  unfold Blob.setupKey
  by_cases hblur : key.fHasBlur = true <;> by_cases hstyle : key.fStyle = Style.kFill_Style <;>
    simp [hblur, hstyle]

theorem Blob.fTextType_setupViewMatrix (invert : SkMatrix → Option SkMatrix) (b : Blob)
    (viewMatrix : SkMatrix) (x y : SkScalar) :
    (b.setupViewMatrix invert viewMatrix x y).fTextType = b.fTextType := rfl

/-- An operation of the header either leaves the text type as it is or is one of
its two setters. -/
theorem Blob.mutStep_fTextType {invert : SkMatrix → Option SkMatrix} {b b2 : Blob} {op : MutOp}
    (h : b.mutStep invert op = some b2) :
    b2.fTextType = b.fTextType ∨
    (op = .setHasBitmap ∧ b2 = b.setHasBitmap) ∨
    (op = .setHasDistanceField ∧ b2 = b.setHasDistanceField) := by
  cases op with
  | build bop => exact Or.inl (Blob.step_fTextType h)
  | setSubRunHasDistanceFields i hasLCD =>
    obtain ⟨_, _, _, _, _, rfl⟩ := Blob.setSubRunHasDistanceFields_some h
    exact Or.inl rfl
  | setRunDrawAsPaths i =>
    obtain ⟨_, _, rfl⟩ := Blob.setRunDrawAsPaths_some h
    exact Or.inl rfl
  | setMinAndMaxScale scaledMax scaledMin =>
    simp only [Blob.mutStep, Option.some.injEq] at h
    subst h
    exact Or.inl rfl
  | setupKey key blurRec paint =>
    simp only [Blob.mutStep, Option.some.injEq] at h
    subst h
    exact Or.inl (Blob.fTextType_setupKey b key blurRec paint)
  | initReusableBlob color viewMatrix x y =>
    simp only [Blob.mutStep, Option.some.injEq] at h
    subst h
    exact Or.inl rfl
  | initThrowawayBlob viewMatrix x y =>
    simp only [Blob.mutStep, Option.some.injEq] at h
    subst h
    exact Or.inl rfl
  | setHasBitmap =>
    simp only [Blob.mutStep, Option.some.injEq] at h
    exact Or.inr (Or.inl ⟨rfl, h.symm⟩)
  | setHasDistanceField =>
    simp only [Blob.mutStep, Option.some.injEq] at h
    exact Or.inr (Or.inr ⟨rfl, h.symm⟩)

theorem Blob.flags_setHasBitmap (b : Blob) :
    b.setHasBitmap.hasBitmap = true ∧ b.setHasBitmap.hasDistanceField = b.hasDistanceField := by
  rw [Blob.hasBitmap_eq_testBit, Blob.hasDistanceField_eq_testBit,
    Blob.hasDistanceField_eq_testBit]
  unfold Blob.setHasBitmap Blob.kHasBitmap_TextType
  simp only [testBit_or_mod_256, testBit_two]
  constructor
  · simp
  · simp

theorem Blob.flags_setHasDistanceField (b : Blob) :
    b.setHasDistanceField.hasDistanceField = true ∧
    b.setHasDistanceField.hasBitmap = b.hasBitmap := by
  rw [Blob.hasBitmap_eq_testBit, Blob.hasDistanceField_eq_testBit,
    Blob.hasBitmap_eq_testBit]
  unfold Blob.setHasDistanceField Blob.kHasDistanceField_TextType
  simp only [testBit_or_mod_256, testBit_one]
  constructor
  · simp
  · simp

theorem Blob.mutStep_flags {invert : SkMatrix → Option SkMatrix} {b b2 : Blob} {op : MutOp}
    (h : b.mutStep invert op = some b2) :
    (b.hasBitmap = true → b2.hasBitmap = true) ∧
    (b.hasDistanceField = true → b2.hasDistanceField = true) := by
  rcases Blob.mutStep_fTextType h with ht | ⟨_, rfl⟩ | ⟨_, rfl⟩
  · simp only [Blob.hasBitmap, Blob.hasDistanceField, ht]
    exact ⟨id, id⟩
  · exact ⟨fun _ => (Blob.flags_setHasBitmap b).1,
      fun hd => (Blob.flags_setHasBitmap b).2.trans hd⟩
  · exact ⟨fun hb => (Blob.flags_setHasDistanceField b).2.trans hb,
      fun _ => (Blob.flags_setHasDistanceField b).1⟩

theorem Blob.mutSteps_flags {invert : SkMatrix → Option SkMatrix} {ops : List MutOp} :
    ∀ {b b2 : Blob}, b.mutSteps invert ops = some b2 →
      (b.hasBitmap = true → b2.hasBitmap = true) ∧
      (b.hasDistanceField = true → b2.hasDistanceField = true) := by
  induction ops with
  | nil =>
    intro b b2 h
    simp only [Blob.mutSteps, Option.some.injEq] at h
    subst h
    exact ⟨id, id⟩
  | cons op ops ih =>
    intro b b2 h
    simp only [Blob.mutSteps] at h
    cases hs : b.mutStep invert op with
    | none => simp [hs] at h
    | some b1 =>
      simp only [hs] at h
      have h1 := Blob.mutStep_flags hs
      have h2 := ih h
      exact ⟨fun hb => h2.1 (h1.1 hb), fun hd => h2.2 (h1.2 hd)⟩

/-- C22. The text-type flags are independent sticky bits: a freshly constructed
blob has neither flag; `setHasBitmap` makes `hasBitmap` true and leaves
`hasDistanceField` as it was, `setHasDistanceField` makes `hasDistanceField`
true and leaves `hasBitmap` as it was; each setter is idempotent, the two
commute, and no sequence of mutating operations of the header clears a flag
that is set. -/
theorem C22_text_type_flags_sticky (invert : SkMatrix → Option SkMatrix) :
    (∀ raw : Blob,
      (Blob.ctor raw).hasBitmap = false ∧ (Blob.ctor raw).hasDistanceField = false) ∧
    (∀ b : Blob,
      b.setHasBitmap.hasBitmap = true ∧
      b.setHasBitmap.hasDistanceField = b.hasDistanceField) ∧
    (∀ b : Blob,
      b.setHasDistanceField.hasDistanceField = true ∧
      b.setHasDistanceField.hasBitmap = b.hasBitmap) ∧
    (∀ b : Blob,
      b.setHasBitmap.setHasBitmap = b.setHasBitmap ∧
      b.setHasDistanceField.setHasDistanceField = b.setHasDistanceField) ∧
    (∀ b : Blob, b.setHasBitmap.setHasDistanceField = b.setHasDistanceField.setHasBitmap) ∧
    (∀ (b b2 : Blob) (ops : List MutOp), b.mutSteps invert ops = some b2 →
      (b.hasBitmap = true → b2.hasBitmap = true) ∧
      (b.hasDistanceField = true → b2.hasDistanceField = true)) := by
  refine ⟨fun raw => ⟨?_, ?_⟩, Blob.flags_setHasBitmap, Blob.flags_setHasDistanceField,
    fun b => ⟨?_, ?_⟩, fun b => ?_, fun b b2 ops h => Blob.mutSteps_flags h⟩
  · rw [Blob.hasBitmap_eq_testBit]
    exact Nat.zero_testBit 1
  · rw [Blob.hasDistanceField_eq_testBit]
    exact Nat.zero_testBit 0
  · simp only [Blob.setHasBitmap, or_mod_256_idem]
  · simp only [Blob.setHasDistanceField, or_mod_256_idem]
  · simp only [Blob.setHasBitmap, Blob.setHasDistanceField]
    rw [or_mod_256_comm]

/-- C22 (witness). Each flag set on a fresh two-run blob and the blob then taken
through every kind of mutating operation other than the setters: the flag is
still set. -/
theorem C22_text_type_flags_sticky_witness :
    (∃ b2, (Create zeroBlob 2).setHasBitmap.mutSteps exactInvert exampleOtherMutations
        = some b2 ∧ b2.hasBitmap = true) ∧
    (∃ b2, (Create zeroBlob 2).setHasDistanceField.mutSteps exactInvert exampleOtherMutations
        = some b2 ∧ b2.hasDistanceField = true) := by
  constructor
  · obtain ⟨b2, h2⟩ : ∃ b2, (Create zeroBlob 2).setHasBitmap.mutSteps exactInvert
        exampleOtherMutations = some b2 := ⟨_, rfl⟩
    exact ⟨b2, h2, ((C22_text_type_flags_sticky exactInvert).2.2.2.2.2 _ b2 _ h2).1
      ((C22_text_type_flags_sticky exactInvert).2.1 _).1⟩
  · obtain ⟨b2, h2⟩ : ∃ b2, (Create zeroBlob 2).setHasDistanceField.mutSteps exactInvert
        exampleOtherMutations = some b2 := ⟨_, rfl⟩
    exact ⟨b2, h2, ((C22_text_type_flags_sticky exactInvert).2.2.2.2.2 _ b2 _ h2).2
      ((C22_text_type_flags_sticky exactInvert).2.2.1 _).1⟩

end GrAtlasTextBlob

namespace GrRectBlurEffect

/-! # Theorems on the integral texture width -/

theorem wrapInt_of_range {x : Int} (h0 : -2147483648 ≤ x) (h1 : x < 2147483648) :
    wrapInt x = x := by
  unfold wrapInt
  omega

theorem wrapInt_lt (x : Int) : wrapInt x < 2147483648 := by
  unfold wrapInt
  omega

theorem IsPow2_pos {w : Int} (h : IsPow2 w) : 0 < w := by
  obtain ⟨k, rfl⟩ := h
  positivity

theorem IsPow2_32 : IsPow2 32 := ⟨5, by norm_num⟩

theorem IsPow2_2_pow_30 : IsPow2 1073741824 := ⟨30, by norm_num⟩

theorem no_pow2_between {w : Int} (h : IsPow2 w) (h0 : 1073741824 < w) (h1 : w < 2147483648) :
    False := by
  obtain ⟨k, rfl⟩ := h
  have e30 : (1073741824 : Int) = 2 ^ 30 := by norm_num
  have e31 : (2147483648 : Int) = 2 ^ 31 := by norm_num
  rw [e30] at h0
  rw [e31] at h1
  have h30 : 30 < k := (pow_lt_pow_iff_right₀ (by norm_num : (1 : Int) < 2)).mp h0
  have h31 : k < 31 := (pow_lt_pow_iff_right₀ (by norm_num : (1 : Int) < 2)).mp h1
  omega

theorem nextPow2ByLog_contract : NextPow2Contract nextPow2ByLog := by
  intro v hpos _
  obtain ⟨n, rfl⟩ := Int.eq_ofNat_of_zero_le (le_of_lt hpos)
  refine ⟨⟨Nat.clog 2 n, by simp [nextPow2ByLog]⟩, ?_, ?_⟩
  · have := Nat.le_pow_clog (by norm_num : 1 < 2) n
    simp only [nextPow2ByLog, Int.toNat_ofNat]
    exact_mod_cast this
  · rintro p ⟨k, rfl⟩ hle
    have hle2 : n ≤ 2 ^ k := by exact_mod_cast hle
    have := (Nat.le_pow_iff_clog_le (by norm_num : 1 < 2)).mp hle2
    simp only [nextPow2ByLog, Int.toNat_ofNat]
    exact_mod_cast Nat.pow_le_pow_right (by norm_num) this

theorem nextPow2Or48_contract : NextPow2Contract nextPow2Or48 := by
  intro v hpos hle
  simp only [nextPow2Or48, if_pos hpos]
  exact nextPow2ByLog_contract v hpos hle

/-- C20 (amended). Integral-texture width binning: for every `sixSigma` with
`0 < minWidth <= 2 ^ 30`, where `minWidth = 2 * ceil(sixSigma)`, and for
`SkNextPow2` returning the smallest power of two that is at least its
argument, the width chosen by `CreateIntegralTexture`,
`max(SkNextPow2(minWidth), 32)`, is a power of two, is at least 32, is at least
`minWidth`, and is the smallest power of two with these properties. -/
theorem C20_integral_texture_width (SkNextPow2 : Int → Int) (sixSigma : ℚ)
    (hcontract : NextPow2Contract SkNextPow2)
    (hpos : 0 < 2 * ⌈sixSigma⌉) (hle : 2 * ⌈sixSigma⌉ ≤ 1073741824) :
    CreateIntegralTexture_minWidth sixSigma = 2 * ⌈sixSigma⌉ ∧
    IsPow2 (CreateIntegralTexture_width SkNextPow2 sixSigma) ∧
    32 ≤ CreateIntegralTexture_width SkNextPow2 sixSigma ∧
    CreateIntegralTexture_minWidth sixSigma ≤ CreateIntegralTexture_width SkNextPow2 sixSigma ∧
    ∀ p : Int, IsPow2 p → 32 ≤ p → CreateIntegralTexture_minWidth sixSigma ≤ p →
      CreateIntegralTexture_width SkNextPow2 sixSigma ≤ p := by
  have hmin : CreateIntegralTexture_minWidth sixSigma = 2 * ⌈sixSigma⌉ := by
    simp only [CreateIntegralTexture_minWidth, sk_float_ceil2int]
    exact wrapInt_of_range (by omega) (by omega)
  obtain ⟨hp2, hge, hsmall⟩ := hcontract (2 * ⌈sixSigma⌉) hpos hle
  have hn30 : SkNextPow2 (2 * ⌈sixSigma⌉) ≤ 1073741824 := hsmall _ IsPow2_2_pow_30 hle
  have hwrap : wrapInt (SkNextPow2 (2 * ⌈sixSigma⌉)) = SkNextPow2 (2 * ⌈sixSigma⌉) :=
    wrapInt_of_range (by omega) (by omega)
  have hw : CreateIntegralTexture_width SkNextPow2 sixSigma =
      SkTMax (SkNextPow2 (2 * ⌈sixSigma⌉)) 32 := by
    simp only [CreateIntegralTexture_width, hmin, hwrap]
  rw [hw, hmin]
  refine ⟨rfl, ?_, ?_, ?_, ?_⟩
  · unfold SkTMax
    split_ifs
    · exact hp2
    · exact IsPow2_32
  · unfold SkTMax
    split_ifs <;> omega
  · unfold SkTMax
    split_ifs <;> omega
  · intro p hp h32 hmw
    have := hsmall p hp hmw
    unfold SkTMax
    split_ifs <;> omega

/-- C20 (witness). For `sixSigma = 20.5` the minimum width is 42 and the chosen
width is 64. -/
theorem C20_integral_texture_width_witness :
    CreateIntegralTexture_minWidth (41 / 2) = 42 ∧
    IsPow2 (CreateIntegralTexture_width nextPow2ByLog (41 / 2)) ∧
    32 ≤ CreateIntegralTexture_width nextPow2ByLog (41 / 2) := by
  have hc : ⌈(41 / 2 : ℚ)⌉ = 21 := by norm_num [Int.ceil_eq_iff]
  have h := C20_integral_texture_width nextPow2ByLog (41 / 2) nextPow2ByLog_contract
    (by rw [hc]; norm_num) (by rw [hc]; norm_num)
  rw [hc] at h
  exact ⟨h.1, h.2.1, h.2.2.1⟩

/-- C20 (counterexample). For `sixSigma = 2 ^ 29 + 64` the minimum width
`2 ^ 30 + 128` is an `int`, but no `int` is a power of two at least that large:
whatever `SkNextPow2` returns, the chosen width is not a power of two that is
at least `minWidth`. -/
theorem C20_counterexample :
    CreateIntegralTexture_minWidth 536870976 = 1073741952 ∧
    (2 * ⌈(536870976 : ℚ)⌉ = 1073741952) ∧
    ¬ ∃ SkNextPow2 : Int → Int,
      IsPow2 (CreateIntegralTexture_width SkNextPow2 536870976) ∧
      CreateIntegralTexture_minWidth 536870976 ≤
        CreateIntegralTexture_width SkNextPow2 536870976 := by
  have hc : ⌈(536870976 : ℚ)⌉ = 536870976 := by norm_num
  have hmin : CreateIntegralTexture_minWidth 536870976 = 1073741952 := by
    simp only [CreateIntegralTexture_minWidth, sk_float_ceil2int, hc]
    rfl
  refine ⟨hmin, by rw [hc]; norm_num, ?_⟩
  rintro ⟨f, hp2, hge⟩
  rw [hmin] at hge
  have hlt : CreateIntegralTexture_width f 536870976 < 2147483648 := by
    simp only [CreateIntegralTexture_width, SkTMax]
    have := wrapInt_lt (f (CreateIntegralTexture_minWidth 536870976))
    split_ifs <;> omega
  exact no_pow2_between hp2 (by omega) hlt

theorem CreateIntegralTexture_width_at_zero :
    NextPow2Contract nextPow2Or48 ∧ CreateIntegralTexture_minWidth 0 = 0 ∧
    CreateIntegralTexture_width nextPow2Or48 0 = 48 ∧
    ¬ IsPow2 (CreateIntegralTexture_width nextPow2Or48 0) := by
  have hmin : CreateIntegralTexture_minWidth 0 = 0 := by
    simp [CreateIntegralTexture_minWidth, sk_float_ceil2int, wrapInt]
  have hw : CreateIntegralTexture_width nextPow2Or48 0 = 48 := by
    simp only [CreateIntegralTexture_width, hmin]
    rfl
  refine ⟨nextPow2Or48_contract, hmin, hw, ?_⟩
  rw [hw]
  rintro ⟨k, hk⟩
  have h5 : 5 < k := by
    have : (2 : Int) ^ 5 < 2 ^ k := by rw [← hk]; norm_num
    exact (pow_lt_pow_iff_right₀ (by norm_num : (1 : Int) < 2)).mp this
  have h6 : k < 6 := by
    have : (2 : Int) ^ k < 2 ^ 6 := by rw [← hk]; norm_num
    exact (pow_lt_pow_iff_right₀ (by norm_num : (1 : Int) < 2)).mp this
  omega

/-! # Theorems on the effect `Make` creates -/

theorem isSorted_insetBy3Sigma (rect : GrAtlasTextBlob.SkRect) (sigma : ℚ) :
    (insetBy3Sigma rect sigma).isSorted = true ↔
      6 * sigma ≤ rect.width ∧ 6 * sigma ≤ rect.height := by
  simp only [insetBy3Sigma, GrAtlasTextBlob.SkRect.isSorted, GrAtlasTextBlob.SkRect.width,
    GrAtlasTextBlob.SkRect.height, Bool.and_eq_true, decide_eq_true_eq]
  constructor
  · rintro ⟨h1, h2⟩
    constructor <;> linarith
  · rintro ⟨h1, h2⟩
    constructor <;> linarith

theorem Make_inset_eq (rect : GrAtlasTextBlob.SkRect) (sigma : ℚ) :
    ({ fLeft := rect.fLeft + 6 * sigma / 2, fTop := rect.fTop + 6 * sigma / 2
       fRight := rect.fRight - 6 * sigma / 2, fBottom := rect.fBottom - 6 * sigma / 2 } :
      GrAtlasTextBlob.SkRect) = insetBy3Sigma rect sigma := by
  have h : 6 * sigma / 2 = 3 * sigma := by ring
  simp only [insetBy3Sigma, h]

theorem Make_guard_eq_false_iff (caps : GrShaderCaps) (rect : GrAtlasTextBlob.SkRect) :
    (!caps.floatIs32Bits &&
      (decide (GrAtlasTextBlob.SkScalarAbs rect.fLeft > 16000) ||
       decide (GrAtlasTextBlob.SkScalarAbs rect.fTop > 16000) ||
       decide (GrAtlasTextBlob.SkScalarAbs rect.fRight > 16000) ||
       decide (GrAtlasTextBlob.SkScalarAbs rect.fBottom > 16000))) = false ↔
    (caps.floatIs32Bits = true ∨ CoordsWithin16000 rect) := by
  simp only [GrAtlasTextBlob.SkScalarAbs, CoordsWithin16000, Bool.and_eq_false_iff,
    Bool.not_eq_false_eq_eq_true, Bool.or_eq_false_iff, decide_eq_false_iff_not, not_lt,
    Bool.not_eq_eq_eq_not, Bool.not_true, Bool.not_false]
  tauto

theorem Make_of_guard (SkNextPow2 : Int → Int) (proxyProvider : GrProxyProvider)
    (caps : GrShaderCaps) (rect : GrAtlasTextBlob.SkRect) (sigma : ℚ)
    (hsorted : rect.isSorted = true)
    (hg : caps.floatIs32Bits = true ∨ CoordsWithin16000 rect) :
    Make SkNextPow2 proxyProvider caps rect sigma =
      match CreateIntegralTexture SkNextPow2 proxyProvider (6 * sigma) with
      | none => some none
      | some integral =>
        some (some { rect := insetBy3Sigma rect sigma, integral := integral
                     invSixSigma := if 6 * sigma = 0 then none else some (1 / (6 * sigma))
                     isFast := (insetBy3Sigma rect sigma).isSorted }) := by
  unfold Make
  rw [hsorted, (Make_guard_eq_false_iff caps rect).2 hg]
  simp only [Bool.not_true, Bool.false_eq_true, if_false, Make_inset_eq]

theorem Make_of_not_guard (SkNextPow2 : Int → Int) (proxyProvider : GrProxyProvider)
    (caps : GrShaderCaps) (rect : GrAtlasTextBlob.SkRect) (sigma : ℚ)
    (hsorted : rect.isSorted = true)
    (hg : ¬ (caps.floatIs32Bits = true ∨ CoordsWithin16000 rect)) :
    Make SkNextPow2 proxyProvider caps rect sigma = some none := by
  have hne : (!caps.floatIs32Bits &&
      (decide (GrAtlasTextBlob.SkScalarAbs rect.fLeft > 16000) ||
       decide (GrAtlasTextBlob.SkScalarAbs rect.fTop > 16000) ||
       decide (GrAtlasTextBlob.SkScalarAbs rect.fRight > 16000) ||
       decide (GrAtlasTextBlob.SkScalarAbs rect.fBottom > 16000))) = true := by
    cases hb : (!caps.floatIs32Bits &&
      (decide (GrAtlasTextBlob.SkScalarAbs rect.fLeft > 16000) ||
       decide (GrAtlasTextBlob.SkScalarAbs rect.fTop > 16000) ||
       decide (GrAtlasTextBlob.SkScalarAbs rect.fRight > 16000) ||
       decide (GrAtlasTextBlob.SkScalarAbs rect.fBottom > 16000)))
    · exact absurd ((Make_guard_eq_false_iff caps rect).1 hb) hg
    · rfl
  unfold Make
  rw [hsorted, hne]
  simp only [Bool.not_true, Bool.false_eq_true, if_false, if_true]

/-- C21. Fast-variant selection in `Make`, over exact arithmetic, for every
sorted rect and every sigma: `Make` returns an effect exactly when the shader
caps have 32-bit floats or no coordinate of the rect exceeds 16000 in absolute
value, and the integral texture is obtained; it returns `nullptr` otherwise.
An effect that is returned has `isFast = true` if and only if both the width
and the height of the rect are at least `6 * sigma`, which is to say that its
stored rect is sorted, and its stored rect is the rect inset by `3 * sigma` on
every side. -/
theorem C21_fast_variant_selection (SkNextPow2 : Int → Int) (proxyProvider : GrProxyProvider)
    (caps : GrShaderCaps) (rect : GrAtlasTextBlob.SkRect) (sigma : ℚ)
    (hsorted : rect.isSorted = true) :
    ((∃ e, Make SkNextPow2 proxyProvider caps rect sigma = some (some e)) ↔
      (caps.floatIs32Bits = true ∨ CoordsWithin16000 rect) ∧
      (CreateIntegralTexture SkNextPow2 proxyProvider (6 * sigma)).isSome = true) ∧
    ((¬ ∃ e, Make SkNextPow2 proxyProvider caps rect sigma = some (some e)) →
      Make SkNextPow2 proxyProvider caps rect sigma = some none) ∧
    ∀ e, Make SkNextPow2 proxyProvider caps rect sigma = some (some e) →
      (e.isFast = true ↔ 6 * sigma ≤ rect.width ∧ 6 * sigma ≤ rect.height) ∧
      e.isFast = e.rect.isSorted ∧
      e.rect = insetBy3Sigma rect sigma := by
  by_cases hg : caps.floatIs32Bits = true ∨ CoordsWithin16000 rect
  · rw [Make_of_guard SkNextPow2 proxyProvider caps rect sigma hsorted hg]
    cases hc : CreateIntegralTexture SkNextPow2 proxyProvider (6 * sigma) with
    | none => simp
    | some integral =>
      refine ⟨by simp [hg], by simp, ?_⟩
      intro e he
      simp only [Option.some.injEq] at he
      subst he
      exact ⟨isSorted_insetBy3Sigma rect sigma, rfl, rfl⟩
  · rw [Make_of_not_guard SkNextPow2 proxyProvider caps rect sigma hsorted hg]
    simp [hg]

/-- C21 (witness). With nothing cached and full floats, a 10 x 10 rect blurred
with sigma 1 gives the fast effect on the rect from (3, 3) to (7, 7), and a
4 x 10 rect gives the general effect on the unsorted rect from (3, 3) to
(1, 7). -/
theorem C21_fast_variant_selection_witness :
    (∃ e, Make nextPow2ByLog emptyProvider fullFloatCaps smallRect 1 = some (some e) ∧
      e.isFast = true ∧
      e.rect = { fLeft := 3, fTop := 3, fRight := 7, fBottom := 7 }) ∧
    (∃ e, Make nextPow2ByLog emptyProvider fullFloatCaps narrowRect 1 = some (some e) ∧
      e.isFast = false ∧
      e.rect = { fLeft := 3, fTop := 3, fRight := 1, fBottom := 7 }) := by
  have hs : smallRect.isSorted = true := by decide
  have hn : narrowRect.isSorted = true := by decide
  have h1 := C21_fast_variant_selection nextPow2ByLog emptyProvider fullFloatCaps smallRect 1 hs
  have h2 := C21_fast_variant_selection nextPow2ByLog emptyProvider fullFloatCaps narrowRect 1 hn
  constructor
  · obtain ⟨e, he⟩ := h1.1.2 ⟨Or.inl rfl, rfl⟩
    obtain ⟨hf, _, hr⟩ := h1.2.2 e he
    refine ⟨e, he, hf.2 ?_, ?_⟩
    · simp only [GrAtlasTextBlob.SkRect.width, GrAtlasTextBlob.SkRect.height, smallRect]
      norm_num
    · rw [hr]
      simp only [insetBy3Sigma, smallRect]
      norm_num
  · obtain ⟨e, he⟩ := h2.1.2 ⟨Or.inl rfl, rfl⟩
    obtain ⟨hf, _, hr⟩ := h2.2.2 e he
    refine ⟨e, he, ?_, ?_⟩
    · cases hfast : e.isFast
      · rfl
      · have := (hf.1 hfast).1
        simp only [GrAtlasTextBlob.SkRect.width, narrowRect] at this
        norm_num at this
    · rw [hr]
      simp only [insetBy3Sigma, narrowRect]
      norm_num

/-- C21 (counterexample). A sorted 20000 x 20000 rect and sigma 1: width and
height are at least `6 * sigma`, yet without 32-bit floats in the shader `Make`
returns `nullptr`, and so it does with 32-bit floats when the upload of the
integral texture fails. No effect is created, fast or not. -/
theorem C21_counterexample :
    largeRect.isSorted = true ∧
    6 * (1 : ℚ) ≤ largeRect.width ∧ 6 * (1 : ℚ) ≤ largeRect.height ∧
    Make nextPow2ByLog emptyProvider halfFloatCaps largeRect 1 = some none ∧
    Make nextPow2ByLog failingProvider fullFloatCaps largeRect 1 = some none := by
  refine ⟨by decide, ?_, ?_, ?_, ?_⟩
  · simp only [GrAtlasTextBlob.SkRect.width, largeRect]
    norm_num
  · simp only [GrAtlasTextBlob.SkRect.height, largeRect]
    norm_num
  · have hg : ¬ (halfFloatCaps.floatIs32Bits = true ∨ CoordsWithin16000 largeRect) := by
      simp only [halfFloatCaps, CoordsWithin16000, largeRect]
      norm_num
    have hs : largeRect.isSorted = true := by decide
    exact Make_of_not_guard nextPow2ByLog emptyProvider halfFloatCaps largeRect 1 hs hg
  · have hs : largeRect.isSorted = true := by decide
    rw [Make_of_guard nextPow2ByLog failingProvider fullFloatCaps largeRect 1 hs (Or.inl rfl)]
    rfl

end GrRectBlurEffect
